import Mathlib

/-!
Verification of the geo-chrono ingestion pipeline.

This development is a shallow embedding of the `gps` and `csv` packages of the
geo-chrono repository (Go).  Conventions used throughout:

* `time.Time` values are modelled as `Int` nanoseconds since the Unix epoch
  (`GoTime`).  `t.Before(u)` is `t < u`, `t.After(u)` is `u < t`, and the zero
  value `time.Time{}` (0001-01-01T00:00:00 UTC) is the constant `goTimeZero`.
* Go `float64` coordinate values are modelled as exact rationals (`ℚ`).  None
  of the verified claims hinges on binary floating-point rounding; parsing and
  formatting of decimal text is modelled exactly over `ℚ`.
* Go slices are modelled as `List`, maps `map[string]bool` as the list of keys
  recorded as present, and fallible functions return `Option`/`Except`.
* Go `int` loop indices and column indices are modelled as `Int` (with the -1
  sentinel used by the source).  Divisions translated from Go code are written
  with `Int.tdiv` (Go's truncated division); every reachable use has
  non-negative operands, where `Int.tdiv` agrees with `/`.
-/

namespace GeoChrono

/-- Instants of Go `time.Time`, as nanoseconds since the Unix epoch. -/
abbrev GoTime := Int

/-- The zero value `time.Time{}`, i.e. 0001-01-01T00:00:00 UTC, expressed in
nanoseconds relative to the Unix epoch. -/
def goTimeZero : GoTime := -62135596800000000000

/-- Model of `gps.Point` (internal/gps/point.go): one GPS observation. -/
structure Point where
  Timestamp : GoTime
  Latitude : ℚ
  Longitude : ℚ
  Title : String := ""
  Description : String := ""
  deriving DecidableEq, Repr, Inhabited

/-- Model of `gps.Points`, a slice of points. -/
abbrev Points := List Point

/-! ## Coordinate keys used by RemoveDuplicates

`RemoveDuplicates` computes `fmt.Sprintf("%.6f,%.6f", lat, lng)`.  Over the
rational coordinate model, `%.6f` is fixed-point formatting with six decimal
places; rounding of a value exactly half way between two representables is
modelled as round-half-up (for binary `float64` inputs an exact decimal tie
essentially never occurs, so the tie convention is unobservable). -/

/-- Decimal digits of `n` padded on the left with zeros to six characters,
the fractional part produced by `%.6f`. -/
def pad6 (n : ℕ) : String :=
  let s := toString n
  String.mk (List.replicate (6 - s.length) '0') ++ s

/-- Value of `q` scaled by `10^6` and rounded to the nearest integer (halves
up): `⌊q * 10^6 + 1/2⌋`, written out on the numerator and denominator so that
it evaluates inside the kernel (`2 * den > 0`, so the Euclidean division `/`
of `Int` is floor division here). -/
def roundQ6 (q : ℚ) : ℤ := (2 * (1000000 * q.num) + q.den) / (2 * (q.den : ℤ))

/-- Fixed-point rendering of a rational with six decimal places, modelling
`fmt.Sprintf("%.6f", x)`. -/
def fmtQ6 (q : ℚ) : String :=
  let scaled : ℤ := roundQ6 q
  let sign := if scaled < 0 then "-" else ""
  let n := scaled.natAbs
  sign ++ toString (n / 1000000) ++ "." ++ pad6 (n % 1000000)

/-- Coordinate key of a point: `fmt.Sprintf("%.6f,%.6f", p.Latitude,
p.Longitude)` as built inside `Points.RemoveDuplicates`. -/
def dedupKey (p : Point) : String :=
  fmtQ6 p.Latitude ++ "," ++ fmtQ6 p.Longitude

/-- Loop of `Points.RemoveDuplicates`: `seen` is the set of keys already
inserted into the `seen` map; a point whose key is present is dropped,
otherwise it is appended to the result and its key recorded. -/
def removeDupAux (seen : List String) : Points → Points
  | [] => []
  | p :: rest =>
    if dedupKey p ∈ seen then removeDupAux seen rest
    else p :: removeDupAux (dedupKey p :: seen) rest

/-- Model of `Points.RemoveDuplicates` (internal/gps/point.go): scans in
order, keeps the first point at each distinct 6-decimal coordinate key. -/
def RemoveDuplicates (p : Points) : Points := removeDupAux [] p

/-- Specification-side restatement of the dedup contract, written from the
spec's words: keep the first occurrence of each distinct key and drop every
subsequent point with the same key. -/
def specDedup : Points → Points
  | [] => []
  | p :: rest =>
    p :: specDedup (rest.filter fun q => decide (dedupKey q ≠ dedupKey p))
termination_by l => l.length
decreasing_by
  simp only [List.length_cons]
  exact Nat.lt_succ_of_le (List.length_filter_le _ _)

/-- Model of `Points.TimeRange` (internal/gps/point.go): linear scan for the
earliest and latest timestamps; the zero instant on an empty collection. -/
def TimeRange : Points → GoTime × GoTime
  | [] => (goTimeZero, goTimeZero)
  | p :: rest =>
    rest.foldl
      (fun se q =>
        (if q.Timestamp < se.1 then q.Timestamp else se.1,
         if se.2 < q.Timestamp then q.Timestamp else se.2))
      (p.Timestamp, p.Timestamp)

/-! ## Proofs about RemoveDuplicates -/

theorem specDedup_nil : specDedup [] = [] := by
  rw [specDedup.eq_def]

theorem specDedup_cons (x : Point) (xs : Points) :
    specDedup (x :: xs) =
      x :: specDedup (xs.filter fun q => decide (dedupKey q ≠ dedupKey x)) := by
  rw [specDedup.eq_def]

theorem removeDupAux_eq_specDedup (xs : Points) :
    ∀ seen, removeDupAux seen xs =
      specDedup (xs.filter fun q => decide (dedupKey q ∉ seen)) := by
  induction xs with
  | nil => intro seen; simp [removeDupAux, specDedup_nil]
  | cons x xs ih =>
    intro seen
    by_cases hx : dedupKey x ∈ seen
    · rw [removeDupAux, if_pos hx, List.filter_cons]
      simp only [hx, not_true_eq_false, Bool.false_eq_true, if_false,
        decide_eq_true_eq, decide_eq_false_iff_not, not_not]
      exact ih seen
    · rw [removeDupAux, if_neg hx, List.filter_cons]
      have hxd : (decide (dedupKey x ∉ seen)) = true := by
        simp [hx]
      rw [hxd, if_pos rfl]
      rw [specDedup_cons, ih (dedupKey x :: seen), List.filter_filter]
      congr 2
      apply List.filter_congr
      intro q _
      simp [List.mem_cons, not_or, Bool.decide_and, ne_eq]

theorem removeDup_eq_spec (p : Points) : RemoveDuplicates p = specDedup p := by
  rw [RemoveDuplicates, removeDupAux_eq_specDedup]
  congr 1
  simp

theorem specDedup_length_le (p : Points) : (specDedup p).length ≤ p.length := by
  cases p with
  | nil => simp [specDedup_nil]
  | cons x xs =>
    rw [specDedup_cons]
    simp only [List.length_cons]
    have h1 := specDedup_length_le
      (xs.filter fun q => decide (dedupKey q ≠ dedupKey x))
    have h2 := List.length_filter_le
      (fun q => decide (dedupKey q ≠ dedupKey x)) xs
    omega
termination_by p.length
decreasing_by
  simp only [List.length_cons]
  exact Nat.lt_succ_of_le (List.length_filter_le _ _)

theorem specDedup_filter_key (P : String → Prop) [DecidablePred P]
    (p : Points) :
    specDedup (p.filter fun q => decide (P (dedupKey q))) =
      (specDedup p).filter fun q => decide (P (dedupKey q)) := by
  cases p with
  | nil => simp [specDedup_nil]
  | cons x xs =>
    by_cases hx : P (dedupKey x)
    · rw [List.filter_cons]
      have hxd : (decide (P (dedupKey x))) = true := by simp [hx]
      rw [hxd, if_pos rfl]
      rw [specDedup_cons, specDedup_cons, List.filter_cons, hxd, if_pos rfl]
      have hrec := specDedup_filter_key P
        (xs.filter fun q => decide (dedupKey q ≠ dedupKey x))
      rw [List.filter_filter] at hrec
      rw [List.filter_filter, ← hrec]
      congr 2
      apply List.filter_congr
      intro q _
      simp [Bool.and_comm]
    · rw [List.filter_cons]
      have hxd : (decide (P (dedupKey x))) = false := by simp [hx]
      rw [hxd, if_neg (by simp)]
      rw [specDedup_cons, List.filter_cons, hxd, if_neg (by simp)]
      have hrec := specDedup_filter_key P
        (xs.filter fun q => decide (dedupKey q ≠ dedupKey x))
      rw [List.filter_filter] at hrec
      rw [← hrec]
      congr 1
      apply List.filter_congr
      intro q _
      by_cases hq : dedupKey q = dedupKey x
      · simp [hq, hx]
      · simp [hq]
termination_by p.length
decreasing_by
  all_goals
    simp only [List.length_cons]
    exact Nat.lt_succ_of_le (List.length_filter_le _ _)

theorem specDedup_idem (p : Points) : specDedup (specDedup p) = specDedup p := by
  cases p with
  | nil => simp [specDedup_nil]
  | cons x xs =>
    rw [specDedup_cons, specDedup_cons]
    congr 1
    have hcomm := specDedup_filter_key (fun s => s ≠ dedupKey x)
      (xs.filter fun q => decide (dedupKey q ≠ dedupKey x))
    have hidem : ((xs.filter fun q => decide (dedupKey q ≠ dedupKey x)).filter
        fun q => decide (dedupKey q ≠ dedupKey x)) =
        xs.filter fun q => decide (dedupKey q ≠ dedupKey x) := by
      rw [List.filter_filter]
      apply List.filter_congr
      intro q _
      simp
    rw [hidem] at hcomm
    rw [← hcomm]
    exact specDedup_idem (xs.filter fun q => decide (dedupKey q ≠ dedupKey x))
termination_by p.length
decreasing_by
  simp only [List.length_cons]
  exact Nat.lt_succ_of_le (List.length_filter_le _ _)

/-! ## Proofs about TimeRange -/

theorem timeRange_foldl (xs : Points) :
    ∀ s e : GoTime,
      xs.foldl
        (fun se q =>
          (if q.Timestamp < se.1 then q.Timestamp else se.1,
           if se.2 < q.Timestamp then q.Timestamp else se.2)) (s, e) =
      (xs.foldl (fun m q => min m q.Timestamp) s,
       xs.foldl (fun m q => max m q.Timestamp) e) := by
  induction xs with
  | nil => intro s e; simp
  | cons x xs ih =>
    intro s e
    simp only [List.foldl_cons]
    rw [ih]
    congr 1
    · by_cases h : x.Timestamp < s
      · simp [h, min_eq_right (le_of_lt h)]
      · simp [h, min_eq_left (le_of_not_lt h)]
    · by_cases h : e < x.Timestamp
      · simp [h, max_eq_right (le_of_lt h)]
      · simp [h, max_eq_left (le_of_not_lt h)]

theorem foldl_min_le_init (xs : Points) (s : GoTime) :
    xs.foldl (fun m r => min m r.Timestamp) s ≤ s := by
  induction xs generalizing s with
  | nil => simp
  | cons x xs ih =>
    simp only [List.foldl_cons]
    calc xs.foldl (fun m r => min m r.Timestamp) (min s x.Timestamp)
        ≤ min s x.Timestamp := ih _
      _ ≤ s := min_le_left _ _

theorem foldl_min_le (xs : Points) :
    ∀ s : GoTime, ∀ q ∈ xs,
      xs.foldl (fun m r => min m r.Timestamp) s ≤ q.Timestamp := by
  induction xs with
  | nil => intro s q hq; cases hq
  | cons x xs ih =>
    intro s q hq
    rcases List.mem_cons.mp hq with rfl | hq
    · simp only [List.foldl_cons]
      calc (xs.foldl (fun m r => min m r.Timestamp) (min s q.Timestamp))
          ≤ min s q.Timestamp := foldl_min_le_init xs _
        _ ≤ q.Timestamp := min_le_right _ _
    · exact ih _ q hq

theorem init_le_foldl_max (xs : Points) (s : GoTime) :
    s ≤ xs.foldl (fun m r => max m r.Timestamp) s := by
  induction xs generalizing s with
  | nil => simp
  | cons x xs ih =>
    simp only [List.foldl_cons]
    calc s ≤ max s x.Timestamp := le_max_left _ _
      _ ≤ xs.foldl (fun m r => max m r.Timestamp) (max s x.Timestamp) := ih _

theorem le_foldl_max (xs : Points) :
    ∀ s : GoTime, ∀ q ∈ xs,
      q.Timestamp ≤ xs.foldl (fun m r => max m r.Timestamp) s := by
  induction xs with
  | nil => intro s q hq; cases hq
  | cons x xs ih =>
    intro s q hq
    rcases List.mem_cons.mp hq with rfl | hq
    · simp only [List.foldl_cons]
      calc q.Timestamp ≤ max s q.Timestamp := le_max_right _ _
        _ ≤ xs.foldl (fun m r => max m r.Timestamp) (max s q.Timestamp) :=
          init_le_foldl_max xs _
    · exact ih _ q hq

theorem foldl_min_mem (xs : Points) :
    ∀ s : GoTime,
      xs.foldl (fun m r => min m r.Timestamp) s = s ∨
        xs.foldl (fun m r => min m r.Timestamp) s ∈ xs.map Point.Timestamp := by
  induction xs with
  | nil => intro s; left; rfl
  | cons x xs ih =>
    intro s
    simp only [List.foldl_cons, List.map_cons, List.mem_cons]
    rcases ih (min s x.Timestamp) with h | h
    · rw [h]
      rcases le_total s x.Timestamp with hle | hle
      · left; exact min_eq_left hle
      · right; left; exact min_eq_right hle
    · right; right; exact h

theorem foldl_max_mem (xs : Points) :
    ∀ s : GoTime,
      xs.foldl (fun m r => max m r.Timestamp) s = s ∨
        xs.foldl (fun m r => max m r.Timestamp) s ∈ xs.map Point.Timestamp := by
  induction xs with
  | nil => intro s; left; rfl
  | cons x xs ih =>
    intro s
    simp only [List.foldl_cons, List.map_cons, List.mem_cons]
    rcases ih (max s x.Timestamp) with h | h
    · rw [h]
      rcases le_total s x.Timestamp with hle | hle
      · right; left; exact max_eq_right hle
      · left; exact max_eq_left hle
    · right; right; exact h

/-! ## Claim C5, C8, C9 -/

/-- C5: for every point collection, `RemoveDuplicates` scans in current
order, keys each point by its latitude and longitude formatted to 6 decimal
places, keeps the first occurrence of each distinct key, and drops every
subsequent point with the same key regardless of any difference in timestamp,
title, or description (`specDedup` states exactly that contract, and the key
depends only on the two coordinates). -/
theorem C5_removeDuplicates_first_occurrence :
    (∀ p : Points, RemoveDuplicates p = specDedup p) ∧
      ∀ q r : Point, q.Latitude = r.Latitude → q.Longitude = r.Longitude →
        dedupKey q = dedupKey r := by
  constructor
  · exact removeDup_eq_spec
  · intro q r hlat hlng
    rw [dedupKey, dedupKey, hlat, hlng]

/-- Witness for C5 at the spec's scenario: two rows with identical lat/lng to
6 decimals but different timestamps and titles collapse to the first one. -/
theorem C5_witness :
    RemoveDuplicates
        [⟨0, 37, -122, "A", "d1"⟩,
         ⟨900000000000, 37, -122, "B", "d2"⟩] =
      specDedup
        [⟨0, 37, -122, "A", "d1"⟩,
         ⟨900000000000, 37, -122, "B", "d2"⟩] ∧
    dedupKey (⟨0, 37, -122, "A", "d1"⟩ : Point) =
      dedupKey (⟨900000000000, 37, -122, "B", "d2"⟩ : Point) ∧
    RemoveDuplicates
        [⟨0, 37, -122, "A", "d1"⟩,
         ⟨900000000000, 37, -122, "B", "d2"⟩] =
      [⟨0, 37, -122, "A", "d1"⟩] :=
  ⟨C5_removeDuplicates_first_occurrence.1 _,
   C5_removeDuplicates_first_occurrence.2 _ _ rfl rfl,
   by decide⟩

/-- C8: `RemoveDuplicates` is idempotent, and the result is never longer
than the input. -/
theorem C8_removeDuplicates_idempotent :
    ∀ p : Points,
      RemoveDuplicates (RemoveDuplicates p) = RemoveDuplicates p ∧
        (RemoveDuplicates p).length ≤ p.length := by
  intro p
  constructor
  · rw [removeDup_eq_spec, removeDup_eq_spec, specDedup_idem]
  · rw [removeDup_eq_spec]
    exact specDedup_length_le p

/-- C9: on a non-empty collection (in any order) `TimeRange` returns the true
earliest and latest timestamps (each bound is attained by some point and
bounds every point); on the empty collection it returns the zero-value
instant for both ends. -/
theorem C9_timeRange_true_min_max :
    (∀ p : Points, p ≠ [] →
      (TimeRange p).1 ∈ p.map Point.Timestamp ∧
        (TimeRange p).2 ∈ p.map Point.Timestamp ∧
        ∀ q ∈ p, (TimeRange p).1 ≤ q.Timestamp ∧
          q.Timestamp ≤ (TimeRange p).2) ∧
      TimeRange [] = (goTimeZero, goTimeZero) := by
  constructor
  · intro p hp
    match p, hp with
    | x :: xs, _ =>
      rw [TimeRange, timeRange_foldl]
      refine ⟨?_, ?_, ?_⟩
      · rcases foldl_min_mem xs x.Timestamp with h | h
        · rw [h]; simp
        · simp only [List.map_cons, List.mem_cons]; right; exact h
      · rcases foldl_max_mem xs x.Timestamp with h | h
        · rw [h]; simp
        · simp only [List.map_cons, List.mem_cons]; right; exact h
      · intro q hq
        rcases List.mem_cons.mp hq with rfl | hq
        · exact ⟨foldl_min_le_init xs _, init_le_foldl_max xs _⟩
        · exact ⟨foldl_min_le xs _ q hq, le_foldl_max xs _ q hq⟩
  · rfl

/-- Witness for C9 on an unordered three-point collection: the earliest and
latest timestamps are 5 and 20 regardless of input order. -/
theorem C9_witness :
    TimeRange [⟨10, 1, 1, "", ""⟩, ⟨5, 2, 2, "", ""⟩, ⟨20, 3, 3, "", ""⟩] =
        (5, 20) ∧
      ((TimeRange [⟨10, 1, 1, "", ""⟩, ⟨5, 2, 2, "", ""⟩, ⟨20, 3, 3, "", ""⟩]).1
          ∈ ([⟨10, 1, 1, "", ""⟩, ⟨5, 2, 2, "", ""⟩, ⟨20, 3, 3, "", ""⟩] :
            Points).map Point.Timestamp ∧
        (TimeRange [⟨10, 1, 1, "", ""⟩, ⟨5, 2, 2, "", ""⟩,
            ⟨20, 3, 3, "", ""⟩]).2 ∈
          ([⟨10, 1, 1, "", ""⟩, ⟨5, 2, 2, "", ""⟩, ⟨20, 3, 3, "", ""⟩] :
            Points).map Point.Timestamp ∧
        ∀ q ∈ ([⟨10, 1, 1, "", ""⟩, ⟨5, 2, 2, "", ""⟩, ⟨20, 3, 3, "", ""⟩] :
            Points),
          (TimeRange [⟨10, 1, 1, "", ""⟩, ⟨5, 2, 2, "", ""⟩,
              ⟨20, 3, 3, "", ""⟩]).1 ≤ q.Timestamp ∧
            q.Timestamp ≤ (TimeRange [⟨10, 1, 1, "", ""⟩, ⟨5, 2, 2, "", ""⟩,
              ⟨20, 3, 3, "", ""⟩]).2) :=
  ⟨by decide, C9_timeRange_true_min_max.1 _ (by decide)⟩

/-! ## Model of the csv package (internal/csv/reader.go)

Only the configuration fields actually read by the csv reader are modelled
(`CSVFormatConfig`: column names, `HasHeader`, `SkipRows`; `ProcessingConfig`:
`RemoveDuplicates`, `TimestampFormats`).  The remaining yaml fields never
reach the parsing logic.  File I/O (`ReadFile`) is out of scope; the
embedding starts at `parseRecords`, which receives the fully read table. -/

/-- Model of `config.CSVFormatConfig`, restricted to the fields the csv
reader consumes. -/
structure CSVFormatConfig where
  TimestampColumn : String := ""
  LatitudeColumn : String := ""
  LongitudeColumn : String := ""
  TitleColumn : String := ""
  DescriptionColumn : String := ""
  HasHeader : Bool := false
  SkipRows : Int := 0
  deriving Repr

/-- Model of `config.ProcessingConfig`, restricted to the fields the csv
reader consumes. -/
structure ProcessingConfig where
  RemoveDuplicates : Bool := false
  TimestampFormats : List String := []
  deriving Repr

/-- Go `strings.ToLower`, restricted to ASCII letters (all column names in
the source's default alias lists are ASCII). -/
def goToLower (s : String) : String :=
  String.mk (s.data.map fun c =>
    if 'A' ≤ c ∧ c ≤ 'Z' then Char.ofNat (c.toNat + 32) else c)

/-- Whitespace recognized by the model of `strings.TrimSpace` (the ASCII
white space characters; the claims never involve non-ASCII spacing). -/
def isGoSpace (c : Char) : Bool :=
  c = ' ' ∨ c = '\t' ∨ c = '\n' ∨ c = '\x0b' ∨ c = '\x0c' ∨ c = '\r'

/-- Go `strings.TrimSpace`: surrounding whitespace removed. -/
def trimSpace (s : String) : String :=
  String.mk (((s.data.dropWhile isGoSpace).reverse.dropWhile isGoSpace).reverse)

/-- Model of the csv package's `columnIndices` struct: resolved physical
positions, `-1` when absent. -/
structure columnIndices where
  timestamp : Int
  latitude : Int
  longitude : Int
  title : Int
  description : Int
  deriving Repr, DecidableEq

/-- Errors surfaced by `parseRecords`/`findColumnIndices`; each constructor
is one `fmt.Errorf` site of the source. -/
inductive CSVError
  /-- The message is "CSV file has no data rows". -/
  | noDataRows
  /-- The message is "CSV file must have at least a header and one data row". -/
  | headerNeedsData
  /-- The message is "CSV must contain timestamp, latitude, and longitude columns". -/
  | missingRequiredColumn
  deriving Repr, DecidableEq

/-- Decidable equality of `Except` results, for concrete evaluations. -/
instance instDecEqExcept {e a : Type} [DecidableEq e] [DecidableEq a] :
    DecidableEq (Except e a) := fun x y =>
  match x, y with
  | Except.ok u, Except.ok v => decidable_of_iff (u = v) (by simp)
  | Except.error u, Except.error v => decidable_of_iff (u = v) (by simp)
  | Except.ok _, Except.error _ => isFalse (by simp)
  | Except.error _, Except.ok _ => isFalse (by simp)

/-- Spec §7 groups the first two conditions as `EmptyOrInsufficientData`. -/
def isEmptyOrInsufficientData (e : CSVError) : Prop :=
  e = CSVError.noDataRows ∨ e = CSVError.headerNeedsData

/-- Row-local errors of `parseRecord`; each constructor is one `fmt.Errorf`
site, carrying the offending cell text where the source does. -/
inductive RecordError
  | insufficientColumns
  | invalidTimestamp (text : String)
  | invalidLatitude (text : String)
  | invalidLongitude (text : String)
  deriving Repr, DecidableEq

/-- Default aliases for the timestamp column in `findColumnIndices`. -/
def tsDefaults : List String := ["timestamp", "time", "datetime"]

/-- Default aliases for the latitude column in `findColumnIndices`. -/
def latDefaults : List String := ["latitude", "lat"]

/-- Default aliases for the longitude column in `findColumnIndices`. -/
def lngDefaults : List String := ["longitude", "lon", "lng"]

/-- Model of `Reader.matchesColumn`: a configured name requires an exact
case-insensitive match, otherwise any of the default aliases is accepted. -/
def matchesColumn (colName configName : String) (defaults : List String) : Bool :=
  if configName ≠ "" then colName = goToLower configName
  else defaults.any fun d => colName = d

/-- Body of the header loop of `findColumnIndices` for one header cell at
position `i`: each of the five fields is matched independently and the
field's index is overwritten on a match. -/
def applyHeaderCell (cfg : CSVFormatConfig) (acc : columnIndices) (i : Int)
    (col : String) : columnIndices :=
  let colLower := goToLower col
  let acc := if matchesColumn colLower cfg.TimestampColumn tsDefaults then
    { acc with timestamp := i } else acc
  let acc := if matchesColumn colLower cfg.LatitudeColumn latDefaults then
    { acc with latitude := i } else acc
  let acc := if matchesColumn colLower cfg.LongitudeColumn lngDefaults then
    { acc with longitude := i } else acc
  let acc := if cfg.TitleColumn ≠ "" ∧ colLower = goToLower cfg.TitleColumn then
    { acc with title := i } else acc
  let acc := if cfg.DescriptionColumn ≠ "" ∧
      colLower = goToLower cfg.DescriptionColumn then
    { acc with description := i } else acc
  acc

/-- Header loop of `findColumnIndices` over the remaining cells, `i` being
the position of the first cell of `cells`. -/
def headerFold (cfg : CSVFormatConfig) (acc : columnIndices) (i : Int) :
    List String → columnIndices
  | [] => acc
  | c :: cs => headerFold cfg (applyHeaderCell cfg acc i c) (i + 1) cs

/-- Initial `columnIndices` value of `findColumnIndices`: all `-1`. -/
def initIndices : columnIndices := ⟨-1, -1, -1, -1, -1⟩

/-- Final validation block of `findColumnIndices`: all three required
fields must have been resolved. -/
def validateIndices (indices : columnIndices) : Except CSVError columnIndices :=
  if indices.timestamp = -1 ∨ indices.latitude = -1 ∨
      indices.longitude = -1 then
    Except.error CSVError.missingRequiredColumn
  else
    Except.ok indices

/-- Model of `Reader.findColumnIndices`: header-name resolution when a header
row is declared, positional defaults otherwise, then validation that the
three required fields were resolved. -/
def findColumnIndices (cfg : CSVFormatConfig)
    (records : List (List String)) : Except CSVError columnIndices :=
  let indices :=
    if cfg.HasHeader ∧ records.length > 0 then
      headerFold cfg initIndices 0 (records.headD [])
    else
      let base : columnIndices :=
        { initIndices with timestamp := 0, latitude := 1, longitude := 2 }
      let base := if records.length > 0 ∧ (records.headD []).length > 3 then
        { base with title := 3 } else base
      if records.length > 0 ∧ (records.headD []).length > 4 then
        { base with description := 4 } else base
  validateIndices indices

/-! ## Timestamp parsing

`time.Parse` is standard-library code, not repository code; the repository
only ever calls it with the caller's configured layout strings and with the
seven fixed layouts of `parseDefaultTimestamp`.  The functions below are
therefore parameterized by the parsing primitive `timeParse`, and
`goTimeParse` further down gives a concrete faithful model of `time.Parse`
for exactly those seven layouts (used by every concrete evaluation in this
file; all of them run with an empty custom-format list). -/

/-- Format chain of `parseDefaultTimestamp`, in source order. -/
def defaultFormats : List String :=
  ["2006-01-02T15:04:05Z",
   "2006-01-02T15:04:05-07:00",
   "2006-01-02 15:04:05",
   "01/02/2006 15:04:05",
   "02/01/2006 15:04:05",
   "2006-01-02T15:04:05.000Z",
   "2006-01-02"]

/-- Decimal digits folded into a natural number; `none` when empty or when a
non-digit occurs (the all-digits check of `strconv.ParseInt` with base 10). -/
def digitsToNat? (cs : List Char) : Option ℕ :=
  if cs.isEmpty then none
  else
    cs.foldl
      (fun acc c =>
        match acc with
        | none => none
        | some n =>
          if '0' ≤ c ∧ c ≤ '9' then some (n * 10 + (c.toNat - 48)) else none)
      (some 0)

/-- Model of `strconv.ParseInt(s, 10, 64)`: optional sign, decimal digits,
64-bit signed range check. -/
def parseInt64 (s : String) : Option ℤ :=
  match s.data with
  | [] => none
  | cs =>
    let signAndDigits : ℤ × List Char :=
      match cs with
      | '+' :: rest => (1, rest)
      | '-' :: rest => (-1, rest)
      | rest => (1, rest)
    match digitsToNat? signAndDigits.2 with
    | none => none
    | some n =>
      let v : ℤ := signAndDigits.1 * n
      if v < -(2 ^ 63) ∨ v > 2 ^ 63 - 1 then none else some v

/-- Go `time.Unix(sec, 0)` as a `GoTime`. -/
def goUnix (sec : ℤ) : GoTime := sec * 1000000000

/-- Model of `parseDefaultTimestamp`: the fixed format chain tried in order,
then `strconv.ParseInt` epoch seconds as a last resort. -/
def parseDefaultTimestamp (timeParse : String → String → Option GoTime)
    (s : String) : Option GoTime :=
  match defaultFormats.findSome? (fun format => timeParse format s) with
  | some t => some t
  | none =>
    match parseInt64 s with
    | some unix => some (goUnix unix)
    | none => none

/-- Model of `Reader.parseTimestamp`: trim, caller-supplied formats in list
order, then the default chain. -/
def parseTimestamp (timeParse : String → String → Option GoTime)
    (cfgFormats : List String) (s : String) : Option GoTime :=
  let s := trimSpace s
  match cfgFormats.findSome? (fun format => timeParse format s) with
  | some t => some t
  | none => parseDefaultTimestamp timeParse s

/-! ## Concrete model of time.Parse for the seven fixed layouts -/

/-- Reading of exactly `n` decimal digits from the front of `cs` (the fixed
two- and four-digit number fields of the layouts). -/
def readDigits (n : ℕ) (cs : List Char) : Option (ℤ × List Char) :=
  let ds := cs.take n
  if ds.length = n ∧ ds.all (fun c => decide ('0' ≤ c) && decide (c ≤ '9')) then
    some (((ds.foldl (fun a c => a * 10 + (c.toNat - 48)) 0 : ℕ) : ℤ), cs.drop n)
  else none

/-- Requirement of one literal character. -/
def expectChar (c : Char) : List Char → Option (List Char)
  | x :: rest => if x = c then some rest else none
  | [] => none

/-- Gregorian leap-year rule, for the day-of-month validation that
`time.Parse` performs. -/
def isLeapYear (y : ℤ) : Bool := y % 4 = 0 ∧ (y % 100 ≠ 0 ∨ y % 400 = 0)

/-- Number of days of month `m` (1..12) of year `y`. -/
def daysInMonth (y m : ℤ) : ℤ :=
  if m = 2 then (if isLeapYear y then 29 else 28)
  else if m = 4 ∨ m = 6 ∨ m = 9 ∨ m = 11 then 30
  else 31

/-- Days in the months strictly before month `m` of a non-leap year. -/
def daysBeforeMonth (m : ℤ) : ℤ :=
  if m ≤ 1 then 0 else if m = 2 then 31 else if m = 3 then 59
  else if m = 4 then 90 else if m = 5 then 120 else if m = 6 then 151
  else if m = 7 then 181 else if m = 8 then 212 else if m = 9 then 243
  else if m = 10 then 273 else if m = 11 then 304 else 334

/-- Count of leap years in `[1, y]` for `y ≥ 0` (floor divisions). -/
def leapsUpTo (y : ℤ) : ℤ := y.fdiv 4 - y.fdiv 100 + y.fdiv 400

/-- Days between 1970-01-01 and the civil date `y-m-d` (proleptic
Gregorian). -/
def daysFromEpoch (y m d : ℤ) : ℤ :=
  365 * (y - 1970) + (leapsUpTo (y - 1) - leapsUpTo 1969) +
    daysBeforeMonth m + (if 2 < m ∧ isLeapYear y then 1 else 0) + (d - 1)

/-- Instant of the civil time `y-m-d h:mi:s` + `nsec` nanoseconds in a zone
`offset` seconds east of UTC. -/
def civilGoTime (y m d h mi s nsec offset : ℤ) : GoTime :=
  (daysFromEpoch y m d * 86400 + h * 3600 + mi * 60 + s - offset) *
    1000000000 + nsec

/-- Range validation `time.Parse` performs on a parsed date. -/
def validDate (y m d : ℤ) : Bool :=
  1 ≤ m ∧ m ≤ 12 ∧ 1 ≤ d ∧ d ≤ daysInMonth y m

/-- Range validation `time.Parse` performs on a parsed clock time. -/
def validHMS (h mi s : ℤ) : Bool := h < 24 ∧ mi < 60 ∧ s < 60

/-- Reading of `YYYY-MM-DD` (layout prefix `2006-01-02`). -/
def readDateDashed (cs : List Char) : Option ((ℤ × ℤ × ℤ) × List Char) := do
  let (y, cs) ← readDigits 4 cs
  let cs ← expectChar '-' cs
  let (m, cs) ← readDigits 2 cs
  let cs ← expectChar '-' cs
  let (d, cs) ← readDigits 2 cs
  pure ((y, m, d), cs)

/-- Reading of `HH:MM:SS` (layout fragment `15:04:05`). -/
def readHMS (cs : List Char) : Option ((ℤ × ℤ × ℤ) × List Char) := do
  let (h, cs) ← readDigits 2 cs
  let cs ← expectChar ':' cs
  let (mi, cs) ← readDigits 2 cs
  let cs ← expectChar ':' cs
  let (s, cs) ← readDigits 2 cs
  pure ((h, mi, s), cs)

/-- Digits after a fractional-second separator scaled to nanoseconds
(`parseNanoseconds`): at most nine digits are accepted. -/
def fracToNanos (ds : List Char) : Option ℤ :=
  if 1 ≤ ds.length ∧ ds.length ≤ 9 then
    some (((ds.foldl (fun a c => a * 10 + (c.toNat - 48)) 0 * 10 ^ (9 - ds.length) : ℕ) : ℤ))
  else none

/-- Optional fractional seconds directly after the seconds field when the
layout itself carries no fractional-second field: Go consumes `.ddd…` or
`,ddd…` here (the special case in `Time.Parse` after `stdZeroSecond`). -/
def readOptionalFrac (cs : List Char) : Option (ℤ × List Char) :=
  match cs with
  | sep :: d0 :: rest =>
    if (sep = '.' ∨ sep = ',') ∧ '0' ≤ d0 ∧ d0 ≤ '9' then
      let ds := (d0 :: rest).takeWhile fun c => decide ('0' ≤ c) && decide (c ≤ '9')
      match fracToNanos ds with
      | some ns => some (ns, (d0 :: rest).dropWhile fun c => decide ('0' ≤ c) && decide (c ≤ '9'))
      | none => none
    else some (0, cs)
  | _ => some (0, cs)

/-- Mandatory three-digit fractional seconds of the layout `.000`. -/
def readFrac3 (cs : List Char) : Option (ℤ × List Char) :=
  match cs with
  | sep :: cs =>
    if sep = '.' ∨ sep = ',' then do
      let (ms, cs) ← readDigits 3 cs
      pure (ms * 1000000, cs)
    else none
  | [] => none

/-- Numeric `±hh:mm` zone of the layout `-07:00`, as seconds east of UTC. -/
def readZoneColon (cs : List Char) : Option (ℤ × List Char) := do
  match cs with
  | sgn :: cs =>
    if sgn = '+' ∨ sgn = '-' then do
      let (hh, cs) ← readDigits 2 cs
      let cs ← expectChar ':' cs
      let (mm, cs) ← readDigits 2 cs
      pure ((if sgn = '-' then -1 else 1) * (hh * 3600 + mm * 60), cs)
    else none
  | [] => none

/-- Assembly of a fully read timestamp, applying the validation checks. -/
def mkGoTime (y m d h mi s nsec offset : ℤ) : Option GoTime :=
  if validDate y m d ∧ validHMS h mi s then
    some (civilGoTime y m d h mi s nsec offset)
  else none

/-- Model of `time.Parse(layout, s)` for exactly the seven layout strings in
`defaultFormats`; any other layout yields `none`.  (The claims about the
custom caller-supplied format list quantify over the parse primitive, and
every concrete evaluation in this file runs with an empty custom list, so
only these seven layouts ever reach the primitive concretely.)  The
fractional-second consumption after the seconds field and the day-of-month
validation mirror Go's `Parse`. -/
def goTimeParse (layout s : String) : Option GoTime :=
  let cs := s.data
  if layout = "2006-01-02T15:04:05Z" then do
    let ((y, m, d), cs) ← readDateDashed cs
    let cs ← expectChar 'T' cs
    let ((h, mi, sec), cs) ← readHMS cs
    let (ns, cs) ← readOptionalFrac cs
    let cs ← expectChar 'Z' cs
    if cs.isEmpty then mkGoTime y m d h mi sec ns 0 else none
  else if layout = "2006-01-02T15:04:05-07:00" then do
    let ((y, m, d), cs) ← readDateDashed cs
    let cs ← expectChar 'T' cs
    let ((h, mi, sec), cs) ← readHMS cs
    let (ns, cs) ← readOptionalFrac cs
    let (offset, cs) ← readZoneColon cs
    if cs.isEmpty then mkGoTime y m d h mi sec ns offset else none
  else if layout = "2006-01-02 15:04:05" then do
    let ((y, m, d), cs) ← readDateDashed cs
    let cs ← expectChar ' ' cs
    let ((h, mi, sec), cs) ← readHMS cs
    let (ns, cs) ← readOptionalFrac cs
    if cs.isEmpty then mkGoTime y m d h mi sec ns 0 else none
  else if layout = "01/02/2006 15:04:05" then do
    let (m, cs) ← readDigits 2 cs
    let cs ← expectChar '/' cs
    let (d, cs) ← readDigits 2 cs
    let cs ← expectChar '/' cs
    let (y, cs) ← readDigits 4 cs
    let cs ← expectChar ' ' cs
    let ((h, mi, sec), cs) ← readHMS cs
    let (ns, cs) ← readOptionalFrac cs
    if cs.isEmpty then mkGoTime y m d h mi sec ns 0 else none
  else if layout = "02/01/2006 15:04:05" then do
    let (d, cs) ← readDigits 2 cs
    let cs ← expectChar '/' cs
    let (m, cs) ← readDigits 2 cs
    let cs ← expectChar '/' cs
    let (y, cs) ← readDigits 4 cs
    let cs ← expectChar ' ' cs
    let ((h, mi, sec), cs) ← readHMS cs
    let (ns, cs) ← readOptionalFrac cs
    if cs.isEmpty then mkGoTime y m d h mi sec ns 0 else none
  else if layout = "2006-01-02T15:04:05.000Z" then do
    let ((y, m, d), cs) ← readDateDashed cs
    let cs ← expectChar 'T' cs
    let ((h, mi, sec), cs) ← readHMS cs
    let (ns, cs) ← readFrac3 cs
    let cs ← expectChar 'Z' cs
    if cs.isEmpty then mkGoTime y m d h mi sec ns 0 else none
  else if layout = "2006-01-02" then do
    let ((y, m, d), cs) ← readDateDashed cs
    if cs.isEmpty then mkGoTime y m d 0 0 0 0 0 else none
  else none

/-! ## Record parsing -/

/-- Model of `strconv.ParseFloat(s, 64)` over exact rationals, for the plain
decimal forms `[±]digits[.digits][e|E[±]digits]` (at least one digit overall;
the hexadecimal, `Inf`/`NaN` and huge-exponent corner cases of `ParseFloat`
never occur in coordinate data and are not modelled). -/
def parseFloat (s : String) : Option ℚ :=
  match s.data with
  | [] => none
  | cs0 =>
    let signAndRest : ℤ × List Char :=
      match cs0 with
      | '+' :: rest => (1, rest)
      | '-' :: rest => (-1, rest)
      | rest => (1, rest)
    let cs := signAndRest.2
    let isDigit : Char → Bool := fun c => decide ('0' ≤ c) && decide (c ≤ '9')
    let intDigits := cs.takeWhile isDigit
    let afterInt := cs.dropWhile isDigit
    let fracAndRest : List Char × List Char :=
      match afterInt with
      | '.' :: rest => (rest.takeWhile isDigit, rest.dropWhile isDigit)
      | rest => ([], rest)
    let fracDigits := fracAndRest.1
    let afterFrac := fracAndRest.2
    if intDigits.isEmpty ∧ fracDigits.isEmpty then none
    else
      let mantissa : ℕ :=
        (intDigits ++ fracDigits).foldl (fun a c => a * 10 + (c.toNat - 48)) 0
      let expAndRest : Option (ℤ × List Char) :=
        match afterFrac with
        | e :: rest =>
          if e = 'e' ∨ e = 'E' then
            let esignAndRest : ℤ × List Char :=
              match rest with
              | '+' :: r => (1, r)
              | '-' :: r => (-1, r)
              | r => (1, r)
            let eDigits := esignAndRest.2.takeWhile isDigit
            if eDigits.isEmpty then none
            else
              some (esignAndRest.1 *
                  (eDigits.foldl (fun a c => a * 10 + (c.toNat - 48)) 0 : ℕ),
                esignAndRest.2.dropWhile isDigit)
          else some (0, afterFrac)
        | [] => some (0, [])
      match expAndRest with
      | none => none
      | some (exp, rest) =>
        if rest.isEmpty then
          let e : ℤ := exp - fracDigits.length
          if 0 ≤ e then
            some (mkRat (signAndRest.1 * mantissa * 10 ^ e.toNat) 1)
          else
            some (mkRat (signAndRest.1 * mantissa) (10 ^ (-e).toNat))
        else none

/-- Indexing of a record cell by a resolved (hence non-negative in every
reachable use) column index, `record[i]` of Go. -/
def getCol (record : List String) (i : Int) : String := record.getD i.toNat ""

/-- Model of `Reader.parseRecord`: column-count check against the three
required indices, then timestamp, latitude and longitude parsing, then
optional title/description population. -/
def parseRecord (timeParse : String → String → Option GoTime)
    (proc : ProcessingConfig) (record : List String)
    (indices : columnIndices) : Except RecordError Point :=
  if (record.length : Int) ≤ indices.timestamp ∨
      (record.length : Int) ≤ indices.latitude ∨
      (record.length : Int) ≤ indices.longitude then
    Except.error RecordError.insufficientColumns
  else
    match parseTimestamp timeParse proc.TimestampFormats
        (getCol record indices.timestamp) with
    | none => Except.error
        (RecordError.invalidTimestamp (getCol record indices.timestamp))
    | some timestamp =>
      match parseFloat (trimSpace (getCol record indices.latitude)) with
      | none => Except.error
          (RecordError.invalidLatitude (getCol record indices.latitude))
      | some lat =>
        match parseFloat (trimSpace (getCol record indices.longitude)) with
        | none => Except.error
            (RecordError.invalidLongitude (getCol record indices.longitude))
        | some lng =>
          let point : Point :=
            { Timestamp := timestamp, Latitude := lat, Longitude := lng }
          let point := if indices.title ≠ -1 ∧
              indices.title < (record.length : Int) then
            { point with Title := trimSpace (getCol record indices.title) }
          else point
          let point := if indices.description ≠ -1 ∧
              indices.description < (record.length : Int) then
            { point with
                Description := trimSpace (getCol record indices.description) }
          else point
          Except.ok point

/-- Row loop of `parseRecords`: failing rows are skipped (their warning text
is not modelled), passing rows are appended in order.  `rowNum` is the
1-based diagnostic row number `i + startRow + 1` of the source; it does not
influence the result. -/
def collectRows (timeParse : String → String → Option GoTime)
    (proc : ProcessingConfig) (indices : columnIndices) :
    List (List String) → Int → Points
  | [], _ => []
  | r :: rest, rowNum =>
    match parseRecord timeParse proc r indices with
    | Except.error _ => collectRows timeParse proc indices rest (rowNum + 1)
    | Except.ok pt => pt :: collectRows timeParse proc indices rest (rowNum + 1)

/-- Row-skip step of `parseRecords`: `records = records[SkipRows:]` guarded
by `SkipRows > 0 && len(records) > SkipRows`. -/
def skipRecords (cfg : CSVFormatConfig)
    (records : List (List String)) : List (List String) :=
  if cfg.SkipRows > 0 ∧ (records.length : Int) > cfg.SkipRows then
    records.drop cfg.SkipRows.toNat
  else records

/-- Model of `Reader.parseRecords`, the ingestion orchestrator: row skip,
emptiness checks, one column resolution, per-row validation with recovery,
and the optional dedup transform. -/
def parseRecords (timeParse : String → String → Option GoTime)
    (cfg : CSVFormatConfig) (proc : ProcessingConfig)
    (records0 : List (List String)) : Except CSVError Points :=
  let records := skipRecords cfg records0
  if records.length < 1 then Except.error CSVError.noDataRows
  else if cfg.HasHeader ∧ records.length < 2 then
    Except.error CSVError.headerNeedsData
  else
    let startRow : ℕ := if cfg.HasHeader then 1 else 0
    match findColumnIndices cfg records with
    | Except.error e => Except.error e
    | Except.ok colIndices =>
      let points := collectRows timeParse proc colIndices
        (records.drop startRow) ((startRow : Int) + 1)
      let points := if proc.RemoveDuplicates then RemoveDuplicates points
        else points
      Except.ok points

/-! ## Header resolution lemmas -/

/-- Bool test of the header loop for the timestamp field. -/
def tsPred (cfg : CSVFormatConfig) (c : String) : Bool :=
  matchesColumn (goToLower c) cfg.TimestampColumn tsDefaults

/-- Bool test of the header loop for the latitude field. -/
def latPred (cfg : CSVFormatConfig) (c : String) : Bool :=
  matchesColumn (goToLower c) cfg.LatitudeColumn latDefaults

/-- Bool test of the header loop for the longitude field. -/
def lngPred (cfg : CSVFormatConfig) (c : String) : Bool :=
  matchesColumn (goToLower c) cfg.LongitudeColumn lngDefaults

/-- Bool test of the header loop for the optional title field. -/
def titlePred (cfg : CSVFormatConfig) (c : String) : Bool :=
  decide (cfg.TitleColumn ≠ "" ∧ goToLower c = goToLower cfg.TitleColumn)

/-- Bool test of the header loop for the optional description field. -/
def descPred (cfg : CSVFormatConfig) (c : String) : Bool :=
  decide (cfg.DescriptionColumn ≠ "" ∧
    goToLower c = goToLower cfg.DescriptionColumn)

/-- Position of the last cell satisfying `pred`, scanning cells whose first
element sits at position `i`, with default `dflt`: the value a
keep-overwriting loop leaves behind. -/
def lastMatchPos (pred : String → Bool) : Int → Int → List String → Int
  | _, dflt, [] => dflt
  | i, dflt, c :: cs => lastMatchPos pred (i + 1) (if pred c then i else dflt) cs

theorem applyHeaderCell_timestamp (cfg : CSVFormatConfig)
    (acc : columnIndices) (i : Int) (col : String) :
    (applyHeaderCell cfg acc i col).timestamp =
      if tsPred cfg col then i else acc.timestamp := by
  simp only [applyHeaderCell, tsPred]
  split_ifs <;> rfl

theorem applyHeaderCell_latitude (cfg : CSVFormatConfig)
    (acc : columnIndices) (i : Int) (col : String) :
    (applyHeaderCell cfg acc i col).latitude =
      if latPred cfg col then i else acc.latitude := by
  simp only [applyHeaderCell, latPred]
  split_ifs <;> rfl

theorem applyHeaderCell_longitude (cfg : CSVFormatConfig)
    (acc : columnIndices) (i : Int) (col : String) :
    (applyHeaderCell cfg acc i col).longitude =
      if lngPred cfg col then i else acc.longitude := by
  simp only [applyHeaderCell, lngPred]
  split_ifs <;> rfl

theorem applyHeaderCell_title (cfg : CSVFormatConfig)
    (acc : columnIndices) (i : Int) (col : String) :
    (applyHeaderCell cfg acc i col).title =
      if titlePred cfg col then i else acc.title := by
  simp only [applyHeaderCell, titlePred, decide_eq_true_eq]
  split_ifs <;> rfl

theorem applyHeaderCell_description (cfg : CSVFormatConfig)
    (acc : columnIndices) (i : Int) (col : String) :
    (applyHeaderCell cfg acc i col).description =
      if descPred cfg col then i else acc.description := by
  simp only [applyHeaderCell, descPred, decide_eq_true_eq]
  split_ifs <;> rfl

theorem headerFold_proj (cfg : CSVFormatConfig) (f : columnIndices → Int)
    (pred : String → Bool)
    (hproj : ∀ acc i col, f (applyHeaderCell cfg acc i col) =
      if pred col then i else f acc) :
    ∀ (cells : List String) (acc : columnIndices) (i : Int),
      f (headerFold cfg acc i cells) = lastMatchPos pred i (f acc) cells := by
  intro cells
  induction cells with
  | nil => intro acc i; rfl
  | cons c cs ih =>
    intro acc i
    simp only [headerFold, lastMatchPos]
    rw [ih, hproj]

theorem lastMatchPos_eq_or_ge (pred : String → Bool) :
    ∀ (cells : List String) (i d : Int),
      lastMatchPos pred i d cells = d ∨ i ≤ lastMatchPos pred i d cells := by
  intro cells
  induction cells with
  | nil => intro i d; left; rfl
  | cons c cs ih =>
    intro i d
    simp only [lastMatchPos]
    by_cases hc : pred c
    · rw [if_pos hc]
      rcases ih (i + 1) i with h | h
      · right; omega
      · right; omega
    · rw [if_neg hc]
      rcases ih (i + 1) d with h | h
      · left; exact h
      · right; omega

theorem lastMatchPos_eq_dflt_iff (pred : String → Bool) :
    ∀ (cells : List String) (i d : Int), d < i →
      (lastMatchPos pred i d cells = d ↔ ∀ c ∈ cells, pred c = false) := by
  intro cells
  induction cells with
  | nil => intro i d _; simp [lastMatchPos]
  | cons c cs ih =>
    intro i d hd
    simp only [lastMatchPos]
    by_cases hc : pred c
    · rw [if_pos hc]
      constructor
      · intro h
        exfalso
        rcases lastMatchPos_eq_or_ge pred cs (i + 1) i with h' | h' <;> omega
      · intro h
        exact absurd (h c (List.mem_cons_self c cs)) (by simp [hc])
    · rw [if_neg hc]
      rw [ih (i + 1) d (by omega)]
      constructor
      · intro h c' hc'
        rcases List.mem_cons.mp hc' with rfl | hc'
        · simpa using hc
        · exact h c' hc'
      · intro h c' hc'
        exact h c' (List.mem_cons_of_mem c hc')

theorem lastMatchPos_enumFrom (pred : String → Bool) :
    ∀ (cells : List String) (n : ℕ) (d : Int),
      lastMatchPos pred (n : Int) d cells =
        (((List.enumFrom n cells).filter fun p => pred p.2).map
          fun p => ((p.1 : ℕ) : Int)).getLastD d := by
  intro cells
  induction cells with
  | nil => intro n d; rfl
  | cons c cs ih =>
    intro n d
    simp only [lastMatchPos, List.enumFrom, List.filter_cons]
    by_cases hc : pred c
    · rw [if_pos hc]
      simp only [hc, if_true, List.map_cons, List.getLastD_cons]
      have := ih (n + 1) (n : Int)
      rw [Nat.cast_add, Nat.cast_one] at this
      exact this
    · rw [if_neg hc]
      simp only [hc, Bool.false_eq_true, if_false]
      have := ih (n + 1) d
      rw [Nat.cast_add, Nat.cast_one] at this
      exact this

theorem findColumnIndices_header (cfg : CSVFormatConfig)
    (hdr : List String) (rest : List (List String))
    (h : cfg.HasHeader = true) :
    findColumnIndices cfg (hdr :: rest) =
      if lastMatchPos (tsPred cfg) 0 (-1) hdr = -1 ∨
          lastMatchPos (latPred cfg) 0 (-1) hdr = -1 ∨
          lastMatchPos (lngPred cfg) 0 (-1) hdr = -1 then
        Except.error CSVError.missingRequiredColumn
      else
        Except.ok
          ⟨lastMatchPos (tsPred cfg) 0 (-1) hdr,
           lastMatchPos (latPred cfg) 0 (-1) hdr,
           lastMatchPos (lngPred cfg) 0 (-1) hdr,
           lastMatchPos (titlePred cfg) 0 (-1) hdr,
           lastMatchPos (descPred cfg) 0 (-1) hdr⟩ := by
  have hidx : headerFold cfg initIndices 0 hdr =
      ⟨lastMatchPos (tsPred cfg) 0 (-1) hdr,
       lastMatchPos (latPred cfg) 0 (-1) hdr,
       lastMatchPos (lngPred cfg) 0 (-1) hdr,
       lastMatchPos (titlePred cfg) 0 (-1) hdr,
       lastMatchPos (descPred cfg) 0 (-1) hdr⟩ := by
    have h1 := headerFold_proj cfg columnIndices.timestamp (tsPred cfg)
      (applyHeaderCell_timestamp cfg) hdr initIndices 0
    have h2 := headerFold_proj cfg columnIndices.latitude (latPred cfg)
      (applyHeaderCell_latitude cfg) hdr initIndices 0
    have h3 := headerFold_proj cfg columnIndices.longitude (lngPred cfg)
      (applyHeaderCell_longitude cfg) hdr initIndices 0
    have h4 := headerFold_proj cfg columnIndices.title (titlePred cfg)
      (applyHeaderCell_title cfg) hdr initIndices 0
    have h5 := headerFold_proj cfg columnIndices.description (descPred cfg)
      (applyHeaderCell_description cfg) hdr initIndices 0
    cases hfold : headerFold cfg initIndices 0 hdr
    rw [hfold] at h1 h2 h3 h4 h5
    simp only at h1 h2 h3 h4 h5
    simp [initIndices] at h1 h2 h3 h4 h5
    subst h1 h2 h3 h4 h5
    rfl
  simp only [findColumnIndices, List.headD_cons]
  have hc : cfg.HasHeader = true ∧ (hdr :: rest).length > 0 := ⟨h, by simp⟩
  rw [if_pos hc, hidx, validateIndices]

/-! ## Claims C6, C10, C7 -/

/-- C6: for a header-bearing table, a required logical field resolves exactly
when some header cell matches it case-insensitively (against the configured
exact name when set, otherwise against its default alias list), and
resolution fails with `MissingRequiredColumn` exactly when any of
timestamp/latitude/longitude stays unresolved. -/
theorem C6_findColumnIndices_required_fields (cfg : CSVFormatConfig)
    (hdr : List String) (rest : List (List String))
    (h : cfg.HasHeader = true) :
    ((∃ idx, findColumnIndices cfg (hdr :: rest) = Except.ok idx) ↔
      ((∃ c ∈ hdr, tsPred cfg c = true) ∧ (∃ c ∈ hdr, latPred cfg c = true) ∧
        ∃ c ∈ hdr, lngPred cfg c = true)) ∧
    (findColumnIndices cfg (hdr :: rest) =
        Except.error CSVError.missingRequiredColumn ↔
      ¬((∃ c ∈ hdr, tsPred cfg c = true) ∧ (∃ c ∈ hdr, latPred cfg c = true) ∧
        ∃ c ∈ hdr, lngPred cfg c = true)) ∧
    ∀ col cfgName dfs, matchesColumn col cfgName dfs = true ↔
      ((cfgName ≠ "" ∧ col = goToLower cfgName) ∨
        (cfgName = "" ∧ col ∈ dfs)) := by
  have hts := lastMatchPos_eq_dflt_iff (tsPred cfg) hdr 0 (-1) (by omega)
  have hlat := lastMatchPos_eq_dflt_iff (latPred cfg) hdr 0 (-1) (by omega)
  have hlng := lastMatchPos_eq_dflt_iff (lngPred cfg) hdr 0 (-1) (by omega)
  have hex : ∀ pred : String → Bool,
      (¬∀ c ∈ hdr, pred c = false) ↔ (∃ c ∈ hdr, pred c = true) := by
    intro pred
    push_neg
    constructor
    · rintro ⟨c, hc, hne⟩
      exact ⟨c, hc, by revert hne; cases pred c <;> simp⟩
    · rintro ⟨c, hc, htrue⟩
      exact ⟨c, hc, by simp [htrue]⟩
  rw [findColumnIndices_header cfg hdr rest h]
  constructor
  · by_cases hcond : lastMatchPos (tsPred cfg) 0 (-1) hdr = -1 ∨
        lastMatchPos (latPred cfg) 0 (-1) hdr = -1 ∨
        lastMatchPos (lngPred cfg) 0 (-1) hdr = -1
    · rw [if_pos hcond]
      constructor
      · rintro ⟨idx, hidx⟩; cases hidx
      · intro ⟨h1, h2, h3⟩
        rw [← hex] at h1 h2 h3
        rcases hcond with hc | hc | hc
        · exact absurd (hts.mp hc) h1
        · exact absurd (hlat.mp hc) h2
        · exact absurd (hlng.mp hc) h3
    · rw [if_neg hcond]
      push_neg at hcond
      constructor
      · intro _
        refine ⟨?_, ?_, ?_⟩
        · exact (hex _).mp (fun hall => hcond.1 (hts.mpr hall))
        · exact (hex _).mp (fun hall => hcond.2.1 (hlat.mpr hall))
        · exact (hex _).mp (fun hall => hcond.2.2 (hlng.mpr hall))
      · intro _; exact ⟨_, rfl⟩
  constructor
  · by_cases hcond : lastMatchPos (tsPred cfg) 0 (-1) hdr = -1 ∨
        lastMatchPos (latPred cfg) 0 (-1) hdr = -1 ∨
        lastMatchPos (lngPred cfg) 0 (-1) hdr = -1
    · rw [if_pos hcond]
      constructor
      · intro _
        intro ⟨h1, h2, h3⟩
        rw [← hex] at h1 h2 h3
        rcases hcond with hc | hc | hc
        · exact absurd (hts.mp hc) h1
        · exact absurd (hlat.mp hc) h2
        · exact absurd (hlng.mp hc) h3
      · intro _; rfl
    · rw [if_neg hcond]
      push_neg at hcond
      constructor
      · intro heq; cases heq
      · intro hneg
        exfalso
        apply hneg
        refine ⟨?_, ?_, ?_⟩
        · exact (hex _).mp (fun hall => hcond.1 (hts.mpr hall))
        · exact (hex _).mp (fun hall => hcond.2.1 (hlat.mpr hall))
        · exact (hex _).mp (fun hall => hcond.2.2 (hlng.mpr hall))
  · intro col cfgName dfs
    rw [matchesColumn]
    by_cases hn : cfgName = ""
    · simp only [hn, ne_eq, not_true_eq_false, if_false]
      simp [List.any_eq_true]
    · simp only [ne_eq, hn, not_false_eq_true, if_true]
      simp [hn]

/-- Witness for C6 at the spec's scenario: a header declaring only
`timestamp,latitude` fails with `MissingRequiredColumn`. -/
theorem C6_witness :
    findColumnIndices { HasHeader := true }
        [["timestamp", "latitude"], ["1", "2"]] =
      Except.error CSVError.missingRequiredColumn :=
  (C6_findColumnIndices_required_fields { HasHeader := true }
    ["timestamp", "latitude"] [["1", "2"]] rfl).2.1.mpr (by decide)

/-- C10: in a header-bearing table the resolved index of each required field
is the position of the last matching header cell (`List.enum` positions,
filtered by the field's match test, last one taken). -/
theorem C10_last_match_wins (cfg : CSVFormatConfig) (hdr : List String)
    (rest : List (List String)) (idx : columnIndices)
    (h : cfg.HasHeader = true)
    (hok : findColumnIndices cfg (hdr :: rest) = Except.ok idx) :
    idx.timestamp = ((hdr.enum.filter fun p => tsPred cfg p.2).map
        fun p => ((p.1 : ℕ) : Int)).getLastD (-1) ∧
      idx.latitude = ((hdr.enum.filter fun p => latPred cfg p.2).map
        fun p => ((p.1 : ℕ) : Int)).getLastD (-1) ∧
      idx.longitude = ((hdr.enum.filter fun p => lngPred cfg p.2).map
        fun p => ((p.1 : ℕ) : Int)).getLastD (-1) := by
  rw [findColumnIndices_header cfg hdr rest h] at hok
  by_cases hcond : lastMatchPos (tsPred cfg) 0 (-1) hdr = -1 ∨
      lastMatchPos (latPred cfg) 0 (-1) hdr = -1 ∨
      lastMatchPos (lngPred cfg) 0 (-1) hdr = -1
  · rw [if_pos hcond] at hok; cases hok
  · rw [if_neg hcond] at hok
    cases hok
    have h1 := lastMatchPos_enumFrom (tsPred cfg) hdr 0 (-1)
    have h2 := lastMatchPos_enumFrom (latPred cfg) hdr 0 (-1)
    have h3 := lastMatchPos_enumFrom (lngPred cfg) hdr 0 (-1)
    simp only [Nat.cast_zero] at h1 h2 h3
    exact ⟨h1, h2, h3⟩

/-- Witness for C10: with the default alias lists, in the header
`time,timestamp,lat,latitude,lon` both `time`/`timestamp` match the
timestamp field and both `lat`/`latitude` match the latitude field; the
resolved indices are the later positions 1 and 3, not 0 and 2. -/
theorem C10_witness :
    findColumnIndices { HasHeader := true }
        [["time", "timestamp", "lat", "latitude", "lon"]] =
      Except.ok ⟨1, 3, 4, -1, -1⟩ ∧
    (1 : Int) = ((["time", "timestamp", "lat", "latitude", "lon"].enum.filter
        fun p => tsPred { HasHeader := true } p.2).map
          fun p => ((p.1 : ℕ) : Int)).getLastD (-1) ∧
    (3 : Int) = ((["time", "timestamp", "lat", "latitude", "lon"].enum.filter
        fun p => latPred { HasHeader := true } p.2).map
          fun p => ((p.1 : ℕ) : Int)).getLastD (-1) :=
  ⟨by decide,
   (C10_last_match_wins { HasHeader := true }
      ["time", "timestamp", "lat", "latitude", "lon"] [] ⟨1, 3, 4, -1, -1⟩
      rfl (by decide)).1,
   (C10_last_match_wins { HasHeader := true }
      ["time", "timestamp", "lat", "latitude", "lon"] [] ⟨1, 3, 4, -1, -1⟩
      rfl (by decide)).2.1⟩

/-! ## Claim C7 -/

/-- Counterexample to C7 as stated: with resolved indices 0/1/2 and the
one-cell row `["x"]`, the row's length 1 covers the minimum of the required
indices (`min 0 (min 1 2) = 0 < 1`), yet `parseRecord` fails with
`InsufficientColumns`.  The check in the source compares against every
required index, i.e. against their maximum, not their minimum. -/
theorem C7_counterexample :
    parseRecord goTimeParse {} ["x"] ⟨0, 1, 2, -1, -1⟩ =
        Except.error RecordError.insufficientColumns ∧
      min (0 : Int) (min 1 2) < ((["x"] : List String).length : Int) := by
  constructor
  · rfl
  · decide

/-- C7 amended: record validation fails with `InsufficientColumns` exactly
when the row's length does not cover the maximum of the three required
indices (the source tests `len(record) <= indices.timestamp || … latitude
|| … longitude`), and never fails with this condition otherwise. -/
theorem C7_insufficient_iff_max (timeParse : String → String → Option GoTime)
    (proc : ProcessingConfig) (record : List String) (idx : columnIndices) :
    parseRecord timeParse proc record idx =
        Except.error RecordError.insufficientColumns ↔
      (record.length : Int) ≤ max idx.timestamp (max idx.latitude idx.longitude) := by
  rw [parseRecord]
  by_cases hcond : (record.length : Int) ≤ idx.timestamp ∨
      (record.length : Int) ≤ idx.latitude ∨
      (record.length : Int) ≤ idx.longitude
  · rw [if_pos hcond]
    simp only [true_iff]
    rcases hcond with hc | hc | hc
    · exact le_trans hc (le_max_left _ _)
    · exact le_trans hc (le_trans (le_max_left _ _) (le_max_right _ _))
    · exact le_trans hc (le_trans (le_max_right _ _) (le_max_right _ _))
  · rw [if_neg hcond]
    push_neg at hcond
    have hmax : ¬((record.length : Int) ≤
        max idx.timestamp (max idx.latitude idx.longitude)) := by
      rw [not_le]
      rcases hcond with ⟨h1, h2, h3⟩
      simp only [max_lt_iff]
      exact ⟨h1, h2, h3⟩
    simp only [hmax, iff_false]
    rcases hts : parseTimestamp timeParse proc.TimestampFormats
        (getCol record idx.timestamp) with _ | t
    · simp
    · rcases hlat : parseFloat (trimSpace (getCol record idx.latitude)) with _ | lat
      · simp
      · rcases hlng : parseFloat (trimSpace (getCol record idx.longitude)) with _ | lng
        · simp
        · simp only []
          split_ifs <;> simp

/-! ## Claim C4 -/

/-- Attempt sequence the spec prescribes for one timestamp token: each
caller-supplied custom format in list order, then the fixed fallback chain in
its stated priority order, then the signed 64-bit integer epoch-seconds
reading, every attempt applied to the trimmed token. -/
def specTimestampAttempts (timeParse : String → String → Option GoTime)
    (cfgFormats : List String) (s : String) : List (Option GoTime) :=
  (cfgFormats.map fun format => timeParse format (trimSpace s)) ++
    (defaultFormats.map fun format => timeParse format (trimSpace s)) ++
    [(parseInt64 (trimSpace s)).map goUnix]

/-- C4: `parseTimestamp` returns the first success of the attempt sequence
(custom formats in list order, then the fixed chain `ISO-8601 Z`; ISO-8601
numeric offset; `YYYY-MM-DD HH:MM:SS`; `MM/DD/YYYY`; `DD/MM/YYYY`; ISO-8601
fractional seconds `Z`; date-only — the literal `defaultFormats` list — then
epoch seconds), and it fails exactly when every attempt fails. -/
theorem C4_parseTimestamp_resolution_order
    (timeParse : String → String → Option GoTime) (cfgFormats : List String)
    (s : String) :
    parseTimestamp timeParse cfgFormats s =
        (specTimestampAttempts timeParse cfgFormats s).findSome? id ∧
      (parseTimestamp timeParse cfgFormats s = none ↔
        ∀ a ∈ specTimestampAttempts timeParse cfgFormats s, a = none) := by
  have hmain : parseTimestamp timeParse cfgFormats s =
      (specTimestampAttempts timeParse cfgFormats s).findSome? id := by
    rw [parseTimestamp, parseDefaultTimestamp, specTimestampAttempts]
    rw [List.findSome?_append, List.findSome?_append]
    rw [List.findSome?_map, List.findSome?_map]
    rcases h1 : cfgFormats.findSome?
        (fun format => timeParse format (trimSpace s)) with _ | t
    · rcases h2 : defaultFormats.findSome?
          (fun format => timeParse format (trimSpace s)) with _ | t'
      · rcases h3 : parseInt64 (trimSpace s) with _ | u
        · simp [Function.comp_def, h1, h2, h3, Option.or]
        · simp [Function.comp_def, h1, h2, h3, Option.or]
      · simp [Function.comp_def, h1, h2, Option.or]
    · simp [Function.comp_def, h1, Option.or]
  refine ⟨hmain, ?_⟩
  rw [hmain, List.findSome?_eq_none_iff]
  simp

/-! ## Claim C3 -/

/-- Counterexample to C3 as stated: a headerless one-row table with a skip
count of 5 (5 ≥ 1 row).  The claim predicts `EmptyOrInsufficientData`; the
source guards the slice with `len(records) > SkipRows`, so nothing is
skipped and ingestion succeeds with the row parsed (timestamp "1" through
epoch seconds). -/
theorem C3_counterexample :
    ((([["1", "2", "3"]] : List (List String)).length : Int) ≤
        ({ SkipRows := 5 } : CSVFormatConfig).SkipRows) ∧
      parseRecords goTimeParse { SkipRows := 5 } {} [["1", "2", "3"]] =
        Except.ok [⟨1000000000, 2, 3, "", ""⟩] := by
  constructor
  · decide
  · decide

theorem findColumnIndices_error_eq (cfg : CSVFormatConfig)
    (records : List (List String)) (e : CSVError)
    (h : findColumnIndices cfg records = Except.error e) :
    e = CSVError.missingRequiredColumn := by
  have hval : ∀ idx : columnIndices,
      validateIndices idx = Except.error e → e = CSVError.missingRequiredColumn := by
    intro idx hv
    rw [validateIndices] at hv
    split at hv
    · injection hv with h2
      exact h2.symm
    · cases hv
  simp only [findColumnIndices] at h
  split at h
  · exact hval _ h
  · exact hval _ h

/-- C3 amended: the skip count is applied only when the raw table has more
rows than the skip count (so skipping can never remove all rows — with skip
count ≥ row count no row is skipped at all), and the
`EmptyOrInsufficientData` conditions occur exactly when the post-skip table
is empty, or a header row is declared and fewer than two post-skip rows
remain. -/
theorem C3_skip_guard_and_empty_conditions
    (timeParse : String → String → Option GoTime) (cfg : CSVFormatConfig)
    (proc : ProcessingConfig) (records : List (List String)) :
    (cfg.SkipRows ≥ (records.length : Int) →
        skipRecords cfg records = records) ∧
      ((∃ e, parseRecords timeParse cfg proc records = Except.error e ∧
          isEmptyOrInsufficientData e) ↔
        (skipRecords cfg records = [] ∨
          (cfg.HasHeader = true ∧ (skipRecords cfg records).length < 2))) := by
  constructor
  · intro hge
    rw [skipRecords, if_neg]
    rintro ⟨-, hlen⟩
    omega
  · rw [parseRecords]
    by_cases h1 : (skipRecords cfg records).length < 1
    · rw [if_pos h1]
      constructor
      · intro _
        left
        rw [← List.length_eq_zero]
        omega
      · intro _
        exact ⟨CSVError.noDataRows, rfl, Or.inl rfl⟩
    · rw [if_neg h1]
      by_cases h2 : cfg.HasHeader = true ∧ (skipRecords cfg records).length < 2
      · rw [if_pos h2]
        constructor
        · intro _
          right
          exact h2
        · intro _
          exact ⟨CSVError.headerNeedsData, rfl, Or.inr rfl⟩
      · rw [if_neg h2]
        have hrhs : ¬(skipRecords cfg records = [] ∨
            (cfg.HasHeader = true ∧ (skipRecords cfg records).length < 2)) := by
          rintro (hc | hc)
          · rw [hc] at h1; simp at h1
          · exact h2 hc
        simp only [hrhs, iff_false]
        rintro ⟨e, he, hkind⟩
        rcases hcol : findColumnIndices cfg (skipRecords cfg records) with e' | idx
        · rw [hcol] at he
          simp only [Except.error.injEq] at he
          have := findColumnIndices_error_eq cfg _ _ hcol
          rw [← he] at hkind
          rw [this] at hkind
          rcases hkind with hk | hk <;> cases hk
        · rw [hcol] at he
          cases he

/-- Witness for C3's amended guard at skip count 5 against a one-row table:
no row is skipped. -/
theorem C3_witness :
    skipRecords { SkipRows := 5 } [["1", "2", "3"]] = [["1", "2", "3"]] :=
  (C3_skip_guard_and_empty_conditions goTimeParse { SkipRows := 5 } {}
    [["1", "2", "3"]]).1 (by decide)

/-! ## Claim C1 -/

theorem collectRows_eq_filterMap (timeParse : String → String → Option GoTime)
    (proc : ProcessingConfig) (idx : columnIndices) :
    ∀ (rows : List (List String)) (k : Int),
      collectRows timeParse proc idx rows k =
        rows.filterMap fun r => (parseRecord timeParse proc r idx).toOption := by
  intro rows
  induction rows with
  | nil => intro k; rfl
  | cons r rest ih =>
    intro k
    rcases h : parseRecord timeParse proc r idx with e | pt
    · have hhead : (parseRecord timeParse proc r idx).toOption = none := by
        rw [h]
        rfl
      simp only [collectRows, h, List.filterMap_cons, hhead]
      exact ih (k + 1)
    · have hhead : (parseRecord timeParse proc r idx).toOption = some pt := by
        rw [h]
        rfl
      simp only [collectRows, h, List.filterMap_cons, hhead]
      rw [ih (k + 1)]
      rfl

theorem length_filterMap_eq_countP {α β : Type} (f : α → Option β) :
    ∀ l : List α, (l.filterMap f).length = l.countP fun a => (f a).isSome := by
  intro l
  induction l with
  | nil => rfl
  | cons a l ih =>
    rw [List.filterMap_cons, List.countP_cons]
    rcases h : f a with _ | b
    · simp [h, ih]
    · simp [h, ih]

/-- Counterexample to C1 as stated, in two parts.  First: a table whose
column resolution succeeds and whose single data row fails record validation
— the claim predicts a batch failure, but `parseRecords` returns a non-fatal
empty collection (there is no zero-usable-rows check in the source).
Second: with duplicate removal configured, two rows pass record validation
yet the returned collection has length 1, not 2. -/
theorem C1_counterexample :
    (findColumnIndices { HasHeader := true }
        [["timestamp", "latitude", "longitude"], ["1730131445"]] =
          Except.ok ⟨0, 1, 2, -1, -1⟩ ∧
      parseRecords goTimeParse { HasHeader := true } {}
        [["timestamp", "latitude", "longitude"], ["1730131445"]] =
          Except.ok []) ∧
    (parseRecord goTimeParse { RemoveDuplicates := true }
          ["1730131445", "1", "2"] ⟨0, 1, 2, -1, -1⟩ =
        Except.ok ⟨1730131445000000000, 1, 2, "", ""⟩ ∧
      parseRecord goTimeParse { RemoveDuplicates := true }
          ["1730131446", "1", "2"] ⟨0, 1, 2, -1, -1⟩ =
        Except.ok ⟨1730131446000000000, 1, 2, "", ""⟩ ∧
      parseRecords goTimeParse { HasHeader := true }
        { RemoveDuplicates := true }
        [["timestamp", "latitude", "longitude"],
         ["1730131445", "1", "2"], ["1730131446", "1", "2"]] =
          Except.ok [⟨1730131445000000000, 1, 2, "", ""⟩]) := by
  exact ⟨⟨by decide, by decide⟩, by decide, by decide, by decide⟩

/-- C1 amended: once the pre-checks pass and column resolution succeeds, the
batch never fails — zero valid rows included, it returns a non-fatal
collection of the rows that pass record validation (in order, failing rows
excluded), with duplicate removal applied afterwards when configured; when
duplicate removal is not requested the result length equals the number of
rows that pass record validation. -/
theorem C1_orchestrator_never_fails_after_resolution
    (timeParse : String → String → Option GoTime) (cfg : CSVFormatConfig)
    (proc : ProcessingConfig) (records : List (List String))
    (idx : columnIndices)
    (hcol : findColumnIndices cfg (skipRecords cfg records) = Except.ok idx)
    (hne : skipRecords cfg records ≠ [])
    (hhdr : cfg.HasHeader = true → 2 ≤ (skipRecords cfg records).length) :
    parseRecords timeParse cfg proc records =
        Except.ok
          (if proc.RemoveDuplicates then
            RemoveDuplicates (((skipRecords cfg records).drop
              (if cfg.HasHeader then 1 else 0)).filterMap
                fun r => (parseRecord timeParse proc r idx).toOption)
          else
            ((skipRecords cfg records).drop
              (if cfg.HasHeader then 1 else 0)).filterMap
                fun r => (parseRecord timeParse proc r idx).toOption) ∧
      (proc.RemoveDuplicates = false →
        parseRecords timeParse cfg proc records =
          Except.ok (((skipRecords cfg records).drop
            (if cfg.HasHeader then 1 else 0)).filterMap
              fun r => (parseRecord timeParse proc r idx).toOption) ∧
        (((skipRecords cfg records).drop
            (if cfg.HasHeader then 1 else 0)).filterMap
              fun r => (parseRecord timeParse proc r idx).toOption).length =
          ((skipRecords cfg records).drop
            (if cfg.HasHeader then 1 else 0)).countP
              fun r => (parseRecord timeParse proc r idx).isOk) := by
  have h1 : ¬(skipRecords cfg records).length < 1 := by
    have := List.length_pos.mpr hne
    omega
  have h2 : ¬(cfg.HasHeader = true ∧ (skipRecords cfg records).length < 2) := by
    rintro ⟨hh, hlen⟩
    have := hhdr hh
    omega
  have hmain : parseRecords timeParse cfg proc records =
      Except.ok
        (if proc.RemoveDuplicates then
          RemoveDuplicates (((skipRecords cfg records).drop
            (if cfg.HasHeader then 1 else 0)).filterMap
              fun r => (parseRecord timeParse proc r idx).toOption)
        else
          ((skipRecords cfg records).drop
            (if cfg.HasHeader then 1 else 0)).filterMap
              fun r => (parseRecord timeParse proc r idx).toOption) := by
    rw [parseRecords, if_neg h1, if_neg h2]
    simp only [hcol]
    rw [collectRows_eq_filterMap]
  refine ⟨hmain, fun hnd => ⟨?_, ?_⟩⟩
  · rw [hmain, hnd]
    simp
  · rw [length_filterMap_eq_countP]
    apply List.countP_congr
    intro r _
    rcases h : parseRecord timeParse proc r idx with e | pt <;>
      simp [h, Except.toOption, Except.isOk, Except.toBool]

/-- Witness for C1's amended theorem: a header table with one valid and one
invalid data row yields a non-fatal one-point collection, and exactly one of
the two data rows passes record validation. -/
theorem C1_witness :
    parseRecords goTimeParse { HasHeader := true } {}
        [["timestamp", "latitude", "longitude"],
         ["1730131445", "1", "2"], ["bad", "1", "2"]] =
      Except.ok [⟨1730131445000000000, 1, 2, "", ""⟩] ∧
    (([["1730131445", "1", "2"], ["bad", "1", "2"]] :
        List (List String)).countP
      fun r => (parseRecord goTimeParse {} r ⟨0, 1, 2, -1, -1⟩).isOk) = 1 := by
  have h := C1_orchestrator_never_fails_after_resolution goTimeParse
    { HasHeader := true } {}
    [["timestamp", "latitude", "longitude"],
     ["1730131445", "1", "2"], ["bad", "1", "2"]]
    ⟨0, 1, 2, -1, -1⟩ (by decide) (by decide) (by decide)
  constructor
  · rw [(h.2 rfl).1]
    decide
  · decide


/-! ## Model of Go sort.Slice (pdqsort)

`Points.SortByTimestamp` delegates to the standard library's `sort.Slice`
with the comparator `p[i].Timestamp.Before(p[j].Timestamp)`.  `sort.Slice` is
the pattern-defeating quicksort of Go 1.19+ (`zsortanyfunc.go`): insertion
sort below 13 elements, heapsort when the recursion budget is exhausted,
median-of-three / ninther pivoting with an already-sorted / already-reversed
detection pass, an equal-elements partition, and a deterministic xorshift
pattern breaker.  The slice is modelled as a total function `ℤ → Point`
(indices are Go `int`s) mutated only through `Swap`; every routine below is
one routine of the Go source.  Loops are written as structural recursion on
an explicit iteration budget; every call supplies the loop's exact iteration
bound (the budget runs out exactly when the loop guard fails), keeping the
functions kernel-computable. -/

/-- State of the slice being sorted: the point at each index. -/
abbrev PArr := ℤ → Point

/-- Comparator `data.Less(i, j)` of `SortByTimestamp`:
`p[i].Timestamp.Before(p[j].Timestamp)`. -/
def lessF (f : PArr) (i j : ℤ) : Bool :=
  decide ((f i).Timestamp < (f j).Timestamp)

/-- Mutation `data.Swap(i, j)`. -/
def swapF (f : PArr) (i j : ℤ) : PArr :=
  fun k => if k = i then f j else if k = j then f i else f k

/-- Inner loop of `insertionSort`: bubble the element at `j` down while it is
smaller than its predecessor, not past `a`; the budget `(j - a).toNat` runs
out exactly when `j ≤ a` stops the loop. -/
def insInner (f : PArr) (a j : ℤ) : ℕ → PArr
  | 0 => f
  | fuel + 1 =>
    if lessF f j (j - 1) then insInner (swapF f j (j - 1)) a (j - 1) fuel
    else f

/-- Outer loop of `insertionSort` over `i = a+1, …, b-1`. -/
def insOuter (f : PArr) (a i : ℤ) : ℕ → PArr
  | 0 => f
  | fuel + 1 => insOuter (insInner f a i (i - a).toNat) a (i + 1) fuel

/-- Go `insertionSort(data, a, b)`. -/
def insertionSortF (f : PArr) (a b : ℤ) : PArr :=
  insOuter f a (a + 1) (b - (a + 1)).toNat

/-- First scan of `partition`'s loop body: advance `i` over elements smaller
than the pivot value stored at `pa`, while `i ≤ j`; the budget
`(j + 1 - i).toNat` runs out exactly when `i > j` stops the loop. -/
def scanLess (f : PArr) (pa i : ℤ) : ℕ → ℤ
  | 0 => i
  | fuel + 1 => if lessF f i pa then scanLess f pa (i + 1) fuel else i

/-- Second scan of `partition`'s loop body: retreat `j` over elements not
smaller than the pivot value stored at `pa`, while `i ≤ j`. -/
def scanGe (f : PArr) (pa j : ℤ) : ℕ → ℤ
  | 0 => j
  | fuel + 1 => if ¬lessF f j pa then scanGe f pa (j - 1) fuel else j

theorem scanLess_ge (f : PArr) (pa : ℤ) :
    ∀ (fuel : ℕ) (i : ℤ), i ≤ scanLess f pa i fuel := by
  intro fuel
  induction fuel with
  | zero => intro i; simp [scanLess]
  | succ fuel ih =>
    intro i
    rw [scanLess]
    split
    · calc i ≤ i + 1 := by omega
        _ ≤ scanLess f pa (i + 1) fuel := ih (i + 1)
    · omega

theorem scanLess_le (f : PArr) (pa : ℤ) :
    ∀ (fuel : ℕ) (i : ℤ), scanLess f pa i fuel ≤ i + fuel := by
  intro fuel
  induction fuel with
  | zero => intro i; simp [scanLess]
  | succ fuel ih =>
    intro i
    rw [scanLess]
    split
    · calc scanLess f pa (i + 1) fuel ≤ i + 1 + fuel := ih (i + 1)
        _ ≤ i + (fuel + 1) := by omega
    · omega

theorem scanGe_le (f : PArr) (pa : ℤ) :
    ∀ (fuel : ℕ) (j : ℤ), scanGe f pa j fuel ≤ j := by
  intro fuel
  induction fuel with
  | zero => intro j; simp [scanGe]
  | succ fuel ih =>
    intro j
    rw [scanGe]
    split
    · calc scanGe f pa (j - 1) fuel ≤ j - 1 := ih (j - 1)
        _ ≤ j := by omega
    · omega

theorem scanGe_ge (f : PArr) (pa : ℤ) :
    ∀ (fuel : ℕ) (j : ℤ), j - fuel ≤ scanGe f pa j fuel := by
  intro fuel
  induction fuel with
  | zero => intro j; simp [scanGe]
  | succ fuel ih =>
    intro j
    rw [scanGe]
    split
    · calc j - (fuel + 1) ≤ (j - 1) - fuel := by omega
        _ ≤ scanGe f pa (j - 1) fuel := ih (j - 1)
    · omega

/-- Main loop of `partition` after the first scan pair: swap the out-of-place
pair, advance both cursors, rescan; the returned index is the final `j`.
The budget runs out exactly when the cursors have crossed. -/
def partitionLoop (f : PArr) (a i j : ℤ) : ℕ → PArr × ℤ
  | 0 => (f, j)
  | fuel + 1 =>
    let i' := scanLess f a i (j + 1 - i).toNat
    let j' := scanGe f a j (j + 1 - i').toNat
    if i' > j' then (f, j')
    else partitionLoop (swapF f i' j') a (i' + 1) (j' - 1) fuel

/-- Go `partition(data, a, b, pivot)`: returns the new state, the final pivot
position, and the already-partitioned flag. -/
def partitionF (f : PArr) (a b pivot : ℤ) : PArr × ℤ × Bool :=
  let f := swapF f a pivot
  let i := scanLess f a (a + 1) (b - 1 + 1 - (a + 1)).toNat
  let j := scanGe f a (b - 1) (b - 1 + 1 - i).toNat
  if i > j then (swapF f j a, j, true)
  else
    let f := swapF f i j
    let r := partitionLoop f a (i + 1) (j - 1) (j - 1 + 1 - (i + 1)).toNat
    (swapF r.1 r.2 a, r.2, false)

/-- First scan of `partitionEqual`'s loop: advance `i` over elements not
greater than the pivot value stored at `pa`, while `i ≤ j`. -/
def scanLe (f : PArr) (pa i : ℤ) : ℕ → ℤ
  | 0 => i
  | fuel + 1 => if ¬lessF f pa i then scanLe f pa (i + 1) fuel else i

/-- Second scan of `partitionEqual`'s loop: retreat `j` over elements greater
than the pivot value stored at `pa`, while `i ≤ j`. -/
def scanGt (f : PArr) (pa j : ℤ) : ℕ → ℤ
  | 0 => j
  | fuel + 1 => if lessF f pa j then scanGt f pa (j - 1) fuel else j

theorem scanLe_ge (f : PArr) (pa : ℤ) :
    ∀ (fuel : ℕ) (i : ℤ), i ≤ scanLe f pa i fuel := by
  intro fuel
  induction fuel with
  | zero => intro i; simp [scanLe]
  | succ fuel ih =>
    intro i
    rw [scanLe]
    split
    · calc i ≤ i + 1 := by omega
        _ ≤ scanLe f pa (i + 1) fuel := ih (i + 1)
    · omega

theorem scanGt_le (f : PArr) (pa : ℤ) :
    ∀ (fuel : ℕ) (j : ℤ), scanGt f pa j fuel ≤ j := by
  intro fuel
  induction fuel with
  | zero => intro j; simp [scanGt]
  | succ fuel ih =>
    intro j
    rw [scanGt]
    split
    · calc scanGt f pa (j - 1) fuel ≤ j - 1 := ih (j - 1)
        _ ≤ j := by omega
    · omega

/-- Loop of `partitionEqual`: the returned index is the final `i`. -/
def peqLoop (f : PArr) (a i j : ℤ) : ℕ → PArr × ℤ
  | 0 => (f, i)
  | fuel + 1 =>
    let i' := scanLe f a i (j + 1 - i).toNat
    let j' := scanGt f a j (j + 1 - i').toNat
    if i' > j' then (f, i')
    else peqLoop (swapF f i' j') a (i' + 1) (j' - 1) fuel

/-- Go `partitionEqual(data, a, b, pivot)`: swaps the pivot to `a` and groups
the elements equal to it at the front, returning the first index past
them. -/
def partitionEqualF (f : PArr) (a b pivot : ℤ) : PArr × ℤ :=
  let f := swapF f a pivot
  peqLoop f a (a + 1) (b - 1) (b - 1 + 1 - (a + 1)).toNat

/-- Result hints of `choosePivot`. -/
inductive SortHint
  | inc
  | dec
  | unk
  deriving DecidableEq, Repr

/-- Go `order2(data, a, b, swaps)`. -/
def order2F (f : PArr) (a b : ℤ) (swaps : ℕ) : (ℤ × ℤ) × ℕ :=
  if lessF f b a then ((b, a), swaps + 1) else ((a, b), swaps)

/-- Go `median(data, a, b, c, swaps)`: the index holding the median of the
three values. -/
def medianF (f : PArr) (x y z : ℤ) (swaps : ℕ) : ℤ × ℕ :=
  let r1 := order2F f x y swaps
  let r2 := order2F f r1.1.2 z r1.2
  let r3 := order2F f r1.1.1 r2.1.1 r2.2
  (r3.1.2, r3.2)

/-- Go `medianAdjacent(data, a, swaps)`. -/
def medianAdjF (f : PArr) (a : ℤ) (swaps : ℕ) : ℤ × ℕ :=
  medianF f (a - 1) a (a + 1) swaps

/-- Go `choosePivot(data, a, b)`: fixed pivot below 8 elements,
median-of-three below 50, Tukey ninther from 50 on, with the swap count
turned into a sortedness hint. -/
def choosePivotF (f : PArr) (a b : ℤ) : ℤ × SortHint :=
  let l := b - a
  let i0 := a + Int.tdiv l 4 * 1
  let j0 := a + Int.tdiv l 4 * 2
  let k0 := a + Int.tdiv l 4 * 3
  let r : ℤ × ℕ :=
    if l ≥ 8 then
      if l ≥ 50 then
        let ri := medianAdjF f i0 0
        let rj := medianAdjF f j0 ri.2
        let rk := medianAdjF f k0 rj.2
        medianF f ri.1 rj.1 rk.1 rk.2
      else medianF f i0 j0 k0 0
    else (j0, 0)
  (r.1,
   if r.2 = 0 then SortHint.inc
   else if r.2 = 12 then SortHint.dec
   else SortHint.unk)

/-- Loop of `reverseRange`; the budget `(j - i).toNat` dominates the
iteration count and runs out only when the guard `i < j` has failed. -/
def revLoop (f : PArr) (i j : ℤ) : ℕ → PArr
  | 0 => f
  | fuel + 1 =>
    if i < j then revLoop (swapF f i j) (i + 1) (j - 1) fuel else f

/-- Go `reverseRange(data, a, b)`. -/
def reverseRangeF (f : PArr) (a b : ℤ) : PArr :=
  revLoop f a (b - 1) (b - 1 - a).toNat

/-- Scan of `partialInsertionSort`: advance `i` while adjacent elements are
in order; the budget `(b - i).toNat` runs out exactly when `i ≥ b` stops the
loop. -/
def pisScan (f : PArr) (i : ℤ) : ℕ → ℤ
  | 0 => i
  | fuel + 1 => if ¬lessF f i (i - 1) then pisScan f (i + 1) fuel else i

/-- Left shift of `partialInsertionSort`: bubble the smaller element of the
out-of-order pair towards the front while it is smaller than its
predecessor; the budget `j.toNat` runs out exactly when `j < 1` stops the
loop. -/
def shiftLeftLoop (f : PArr) (j : ℤ) : ℕ → PArr
  | 0 => f
  | fuel + 1 =>
    if lessF f j (j - 1) then shiftLeftLoop (swapF f j (j - 1)) (j - 1) fuel
    else f

/-- Right shift of `partialInsertionSort`: bubble the greater element of the
out-of-order pair towards the back while the adjacent pair is out of order;
the budget `(b - j).toNat` runs out exactly when `j ≥ b` stops the loop. -/
def shiftRightLoop (f : PArr) (j : ℤ) : ℕ → PArr
  | 0 => f
  | fuel + 1 =>
    if lessF f j (j - 1) then shiftRightLoop (swapF f j (j - 1)) (j + 1) fuel
    else f

/-- Steps of `partialInsertionSort`: at most `maxSteps = 5` out-of-order
pairs are repaired; on short ranges (`b - a < 50`) any disorder aborts
without shifting. -/
def pisSteps (f : PArr) (a b i : ℤ) : ℕ → PArr × Bool
  | 0 => (f, false)
  | steps + 1 =>
    let i' := pisScan f i (b - i).toNat
    if i' = b then (f, true)
    else if b - a < 50 then (f, false)
    else
      let f := swapF f i' (i' - 1)
      let f := if i' - a ≥ 2 then shiftLeftLoop f (i' - 1) (i' - 1).toNat else f
      let f := if b - i' ≥ 2 then shiftRightLoop f (i' + 1) (b - (i' + 1)).toNat
        else f
      pisSteps f a b i' steps

/-- Go `partialInsertionSort(data, a, b)`: partially sorts a likely-sorted
range, reporting whether the range ended fully sorted. -/
def partialInsertionSortF (f : PArr) (a b : ℤ) : PArr × Bool :=
  pisSteps f a b (a + 1) 5

/-- One step of Go's `xorshift` pseudo-random generator on 64 bits. -/
def xorshiftNext (r : ℕ) : ℕ :=
  let r := (r ^^^ (r <<< 13)) % (2 ^ 64)
  let r := r ^^^ (r >>> 7)
  (r ^^^ (r <<< 17)) % (2 ^ 64)

/-- Go `bits.Len`: number of bits of `n`; the budget `n` dominates the
number of halvings. -/
def bitsLenAux (n : ℕ) : ℕ → ℕ
  | 0 => 0
  | fuel + 1 => if n = 0 then 0 else bitsLenAux (n / 2) fuel + 1

/-- Go `bits.Len(uint(n))`. -/
def bitsLen (n : ℕ) : ℕ := bitsLenAux n n

/-- Go `breakPatterns(data, a, b)`: three deterministic swaps around the
middle of the range, driven by an xorshift generator seeded with the
length. -/
def breakPatternsF (f : PArr) (a b : ℤ) : PArr :=
  let length := b - a
  if length ≥ 8 then
    let lengthN := length.toNat
    let modulus := 2 ^ bitsLen lengthN
    let idx := a + Int.tdiv length 4 * 2 - 1
    let r1 := xorshiftNext lengthN
    let o1 := let o := r1 &&& (modulus - 1); if o ≥ lengthN then o - lengthN else o
    let f := swapF f (idx - 1) (a + (o1 : ℤ))
    let r2 := xorshiftNext r1
    let o2 := let o := r2 &&& (modulus - 1); if o ≥ lengthN then o - lengthN else o
    let f := swapF f idx (a + (o2 : ℤ))
    let r3 := xorshiftNext r2
    let o3 := let o := r3 &&& (modulus - 1); if o ≥ lengthN then o - lengthN else o
    swapF f (idx + 1) (a + (o3 : ℤ))
  else f

/-- Loop of `siftDown`; every reachable call starts at a non-negative root,
where the root strictly increases per iteration, so the budget
`(hi - root).toNat` dominates the iteration count. -/
def siftLoop (f : PArr) (root hi first : ℤ) : ℕ → PArr
  | 0 => f
  | fuel + 1 =>
    let child := 2 * root + 1
    if child < hi then
      let child := if child + 1 < hi ∧ lessF f (first + child) (first + child + 1)
        then child + 1 else child
      if ¬lessF f (first + root) (first + child) then f
      else siftLoop (swapF f (first + root) (first + child)) child hi first fuel
    else f

/-- Go `siftDown(data, lo, hi, first)`. -/
def siftDownF (f : PArr) (lo hi first : ℤ) : PArr :=
  siftLoop f lo hi first (hi - lo).toNat

/-- Heap construction loop of `heapSort`: `siftDown` at roots
`(hi-1)/2, …, 0`; the budget is one more than the first root. -/
def heapBuild (f : PArr) (hi first : ℤ) : ℕ → PArr
  | 0 => f
  | n + 1 => heapBuild (siftDownF f (n : ℤ) hi first) hi first n

/-- Pop loop of `heapSort`: for `i = hi-1, …, 1` swap the maximum to `i` and
re-sift the root within `[0, i)`. -/
def heapPop (f : PArr) (first : ℤ) : ℕ → PArr
  | 0 => f
  | v + 1 =>
    heapPop
      (siftDownF (swapF f first (first + ((v : ℤ) + 1))) 0 ((v : ℤ) + 1) first)
      first v

/-- Go `heapSort(data, a, b)`. -/
def heapSortF (f : PArr) (a b : ℤ) : PArr :=
  let first := a
  let hi := b - a
  let f := heapBuild f hi first ((Int.tdiv (hi - 1) 2).toNat + 1)
  heapPop f first (hi - 1).toNat

/-- Go `pdqsort(data, a, b, limit)`.  The loop of the source is encoded as
tail recursion; the budget dominates `b - a`, which strictly decreases at
every continue and recursive call, and recursive calls on the shorter side
restart with `wasBalanced = wasPartitioned = true` exactly as a fresh Go
call does. -/
def pdqsortAux (f : PArr) (a b limit : ℤ) (wb wp : Bool) : ℕ → PArr
  | 0 => f
  | fuel + 1 =>
    let length := b - a
    if length ≤ 12 then insertionSortF f a b
    else if limit = 0 then heapSortF f a b
    else
      let fl : PArr × ℤ :=
        if wb = false then (breakPatternsF f a b, limit - 1) else (f, limit)
      let f := fl.1
      let limit := fl.2
      let ph := choosePivotF f a b
      let fph : PArr × ℤ × SortHint :=
        if ph.2 = SortHint.dec then
          (reverseRangeF f a b, b - 1 - (ph.1 - a), SortHint.inc)
        else (f, ph.1, ph.2)
      let f := fph.1
      let pivot := fph.2.1
      let hint := fph.2.2
      let pis : PArr × Bool :=
        if wb = true ∧ wp = true ∧ hint = SortHint.inc then
          partialInsertionSortF f a b
        else (f, false)
      if pis.2 then pis.1
      else
        let f := pis.1
        if a > 0 ∧ ¬lessF f (a - 1) pivot then
          let fm := partitionEqualF f a b pivot
          pdqsortAux fm.1 fm.2 b limit wb wp fuel
        else
          let fmp := partitionF f a b pivot
          let f := fmp.1
          let mid := fmp.2.1
          let wasPartitioned := fmp.2.2
          let leftLen := mid - a
          let rightLen := b - mid
          let wasBalanced := decide (min leftLen rightLen ≥ Int.tdiv length 8)
          if leftLen < rightLen then
            let f := pdqsortAux f a mid limit true true fuel
            pdqsortAux f (mid + 1) b limit wasBalanced wasPartitioned fuel
          else
            let f := pdqsortAux f (mid + 1) b limit true true fuel
            pdqsortAux f a mid limit wasBalanced wasPartitioned fuel

/-- Go `sort.Slice` on a slice of length `n`: `pdqsort(data, 0, n,
bits.Len(uint(n)))`. -/
def sortSliceF (f : PArr) (n : ℤ) : PArr :=
  pdqsortAux f 0 n (bitsLen n.toNat : ℤ) true true (n.toNat + 1)

/-- Model of `Points.SortByTimestamp` (internal/gps/point.go):
`sort.Slice(p, func(i, j int) bool { return
p[i].Timestamp.Before(p[j].Timestamp) })`, materialized back to a list. -/
def SortByTimestamp (l : Points) : Points :=
  let f : PArr := fun i => l.getD i.toNat default
  let g := sortSliceF f (l.length : ℤ)
  (List.range l.length).map fun t : ℕ => g (t : ℤ)

/-- Input refuting the stability half of C2: thirteen points (so that
`sort.Slice` leaves the insertion-sort regime), with two points of equal
timestamp 5 marked "A" (position 2) and "B" (position 6). -/
def c2Input : Points :=
  [⟨10, 0, 0, "", ""⟩, ⟨1, 0, 0, "", ""⟩, ⟨5, 0, 0, "A", ""⟩, ⟨2, 0, 0, "", ""⟩,
   ⟨3, 0, 0, "", ""⟩, ⟨4, 0, 0, "", ""⟩, ⟨5, 0, 0, "B", ""⟩, ⟨11, 0, 0, "", ""⟩,
   ⟨12, 0, 0, "", ""⟩, ⟨6, 0, 0, "", ""⟩, ⟨7, 0, 0, "", ""⟩, ⟨8, 0, 0, "", ""⟩,
   ⟨9, 0, 0, "", ""⟩]

/-- Counterexample to C2 as stated: the input holds two points with equal
timestamps, "A" before "B"; after `SortByTimestamp` the point titled "B"
sits at position 4 and the point titled "A" at position 5 — the relative
order of the equal-timestamp pair is reversed, so the sort is not stable
(`sort.Slice` partitions around the second 5 and moves it in front of the
first). -/
theorem C2_counterexample :
    (c2Input.getD 2 default).Timestamp = (c2Input.getD 6 default).Timestamp ∧
      (c2Input.getD 2 default).Title = "A" ∧
      (c2Input.getD 6 default).Title = "B" ∧
      ((SortByTimestamp c2Input).getD 4 default).Title = "B" ∧
      ((SortByTimestamp c2Input).getD 5 default).Title = "A" := by
  decide

/-! ## Framing infrastructure for the pdqsort proofs -/

/-- Materialization of the segment `[a, b)` of a state. -/
def listOn (f : PArr) (a b : ℤ) : Points :=
  (List.range (b - a).toNat).map fun t : ℕ => f (a + (t : ℤ))

/-- Indices outside `[a, b)` are untouched. -/
def SameOutside (f g : PArr) (a b : ℤ) : Prop :=
  ∀ k : ℤ, k < a ∨ b ≤ k → g k = f k

/-- The segment `[a, b)` of `g` is a permutation of the same segment of
`f`. -/
def PermOn (f g : PArr) (a b : ℤ) : Prop :=
  (listOn g a b).Perm (listOn f a b)

/-- The segment `[a, b)` is non-decreasing by timestamp. -/
def SortedOn (f : PArr) (a b : ℤ) : Prop :=
  ∀ i j : ℤ, a ≤ i → i ≤ j → j < b →
    (f i).Timestamp ≤ (f j).Timestamp

theorem length_listOn (f : PArr) (a b : ℤ) :
    (listOn f a b).length = (b - a).toNat := by
  simp [listOn]

theorem listOn_empty (f : PArr) (a b : ℤ) (h : b ≤ a) : listOn f a b = [] := by
  have : (b - a).toNat = 0 := by omega
  simp [listOn, this]

theorem mem_listOn (f : PArr) (a b k : ℤ) (h1 : a ≤ k) (h2 : k < b) :
    f k ∈ listOn f a b := by
  rw [listOn]
  refine List.mem_map.mpr ⟨(k - a).toNat, ?_, ?_⟩
  · rw [List.mem_range]; omega
  · congr 1; omega

theorem listOn_congr (f g : PArr) (a b : ℤ)
    (h : ∀ k : ℤ, a ≤ k → k < b → f k = g k) :
    listOn f a b = listOn g a b := by
  rw [listOn, listOn]
  apply List.map_congr_left
  intro t ht
  rw [List.mem_range] at ht
  exact h (a + t) (by omega) (by omega)

theorem listOn_append (f : PArr) (a c b : ℤ) (h1 : a ≤ c) (h2 : c ≤ b) :
    listOn f a b = listOn f a c ++ listOn f c b := by
  rw [listOn, listOn, listOn]
  have hsplit : (b - a).toNat = (c - a).toNat + (b - c).toNat := by omega
  rw [hsplit, List.range_add, List.map_append, List.map_map]
  congr 1
  apply List.map_congr_left
  intro t _
  simp only [Function.comp_apply]
  congr 1
  omega

theorem mem_listOn_iff (f : PArr) (a b : ℤ) (x : Point) :
    x ∈ listOn f a b ↔ ∃ k : ℤ, a ≤ k ∧ k < b ∧ f k = x := by
  constructor
  · intro hx
    rw [listOn, List.mem_map] at hx
    obtain ⟨t, ht, hfx⟩ := hx
    rw [List.mem_range] at ht
    exact ⟨a + t, by omega, by omega, hfx⟩
  · rintro ⟨k, h1, h2, rfl⟩
    exact mem_listOn f a b k h1 h2

theorem SameOutside.rfl (f : PArr) (a b : ℤ) : SameOutside f f a b :=
  fun _ _ => Eq.refl _

theorem SameOutside.comp {f g h : PArr} {a b : ℤ}
    (h1 : SameOutside f g a b) (h2 : SameOutside g h a b) :
    SameOutside f h a b :=
  fun k hk => (h2 k hk).trans (h1 k hk)

theorem SameOutside.widen {f g : PArr} {a b a' b' : ℤ}
    (h : SameOutside f g a b) (ha : a' ≤ a) (hb : b ≤ b') :
    SameOutside f g a' b' :=
  fun k hk => h k (by omega)

theorem PermOn.prfl (f : PArr) (a b : ℤ) : PermOn f f a b := List.Perm.refl _

theorem PermOn.pcomp {f g h : PArr} {a b : ℤ}
    (h1 : PermOn f g a b) (h2 : PermOn g h a b) : PermOn f h a b :=
  h2.trans h1

theorem PermOn.pwiden {f g : PArr} {a b a' b' : ℤ}
    (hperm : PermOn f g a b) (hout : SameOutside f g a b)
    (ha : a' ≤ a) (hb : b ≤ b') (hab : a ≤ b) :
    PermOn f g a' b' := by
  rw [PermOn, listOn_append g a' a b' (by omega) (by omega),
    listOn_append g a b b' (by omega) (by omega),
    listOn_append f a' a b' (by omega) (by omega),
    listOn_append f a b b' (by omega) (by omega)]
  have e1 : listOn g a' a = listOn f a' a :=
    listOn_congr g f a' a fun k _ hk2 => hout k (Or.inl hk2)
  have e2 : listOn g b b' = listOn f b b' :=
    listOn_congr g f b b' fun k hk1 _ => hout k (Or.inr hk1)
  rw [e1, e2]
  exact List.Perm.append_left _ (hperm.append_right _)

theorem PermOn.all {f g : PArr} {a b : ℤ} (hperm : PermOn f g a b)
    (P : Point → Prop) (h : ∀ x ∈ listOn f a b, P x) :
    ∀ x ∈ listOn g a b, P x :=
  fun x hx => h x (hperm.mem_iff.mp hx)

theorem swapF_self (f : PArr) (i : ℤ) : swapF f i i = f := by
  funext k
  rw [swapF]
  split <;> simp_all

theorem swapF_left (f : PArr) (i j : ℤ) : swapF f i j i = f j := by
  rw [swapF]
  simp

theorem swapF_right (f : PArr) (i j : ℤ) (h : j ≠ i) : swapF f i j j = f i := by
  rw [swapF]
  simp [h]

theorem swapF_other (f : PArr) (i j k : ℤ) (h1 : k ≠ i) (h2 : k ≠ j) :
    swapF f i j k = f k := by
  rw [swapF]
  simp [h1, h2]

theorem swapF_sameOutside (f : PArr) {a b i j : ℤ}
    (hi1 : a ≤ i) (hi2 : i < b) (hj1 : a ≤ j) (hj2 : j < b) :
    SameOutside f (swapF f i j) a b := by
  intro k hk
  apply swapF_other
  · omega
  · omega

theorem getElem_listOn (f : PArr) (a b : ℤ) (t : ℕ)
    (ht : t < (listOn f a b).length) :
    (listOn f a b)[t] = f (a + (t : ℤ)) := by
  simp [listOn]

theorem set_set_perm (l : Points) (p q : ℕ) (hp : p < l.length)
    (hq : q < l.length) (hpq : p ≠ q) :
    ((l.set p l[q]).set q l[p]).Perm l := by
  rw [List.perm_iff_count]
  intro z
  have h1 : ((l.set p l[q]).set q l[p]).count z =
      ((l.set p l[q]).count z -
        if ((l.set p l[q]).get ⟨q, by simpa using hq⟩ == z) = true then 1
          else 0) +
      if (l[p] == z) = true then 1 else 0 :=
    List.count_set _ _ _ _ (by simpa using hq)
  have h2 : (l.set p l[q]).count z =
      (l.count z - if (l[p] == z) = true then 1 else 0) +
      if (l[q] == z) = true then 1 else 0 :=
    List.count_set _ _ _ _ hp
  have h3 : (l.set p l[q]).get ⟨q, by simpa using hq⟩ = l[q] := by
    simp [List.get_eq_getElem, List.getElem_set_ne, hpq]
  rw [h1, h2, h3]
  by_cases hA : l[p] = z
  · have hc1 : 1 ≤ l.count z := by
      apply List.count_pos_iff.mpr
      rw [← hA]
      exact List.getElem_mem hp
    by_cases hB : l[q] = z
    · simp only [hA, hB, beq_self_eq_true, if_true]
      omega
    · have hBf : (l[q] == z) = false := by simp [hB]
      simp only [hA, beq_self_eq_true, if_true, hBf, Bool.false_eq_true,
        if_false]
      omega
  · have hA' : (l[p] == z) = false := by simp [hA]
    by_cases hB : l[q] = z
    · have hc1 : 1 ≤ l.count z := by
        apply List.count_pos_iff.mpr
        rw [← hB]
        exact List.getElem_mem hq
      have hBt : (l[q] == z) = true := by simp [hB]
      simp only [hA', Bool.false_eq_true, if_false, hBt, if_true]
      omega
    · have hB' : (l[q] == z) = false := by simp [hB]
      simp [hA', hB']

theorem listOn_swap_eq (f : PArr) {a b i j : ℤ}
    (hi1 : a ≤ i) (_hi2 : i < b) (hj1 : a ≤ j) (_hj2 : j < b) :
    listOn (swapF f i j) a b =
      ((listOn f a b).set (i - a).toNat (f j)).set (j - a).toNat (f i) := by
  apply List.ext_getElem
  · simp [length_listOn]
  · intro t ht1 ht2
    rw [getElem_listOn]
    rw [List.getElem_set, List.getElem_set]
    rw [length_listOn] at ht1
    by_cases hji : a + (t : ℤ) = j
    · have : (j - a).toNat = t := by omega
      rw [if_pos this]
      rw [swapF]
      by_cases hii : a + (t : ℤ) = i
      · rw [if_pos hii]
        have : i = j := by omega
        rw [this]
      · rw [if_neg hii, if_pos hji]
    · have : ¬((j - a).toNat = t) := by omega
      rw [if_neg this]
      by_cases hii : a + (t : ℤ) = i
      · have : (i - a).toNat = t := by omega
        rw [if_pos this]
        rw [swapF, if_pos hii]
      · have : ¬((i - a).toNat = t) := by omega
        rw [if_neg this, getElem_listOn]
        rw [swapF, if_neg hii, if_neg hji]

theorem swapF_permOn (f : PArr) {a b i j : ℤ}
    (hi1 : a ≤ i) (hi2 : i < b) (hj1 : a ≤ j) (hj2 : j < b) :
    PermOn f (swapF f i j) a b := by
  by_cases hij : i = j
  · rw [hij, swapF_self]
    exact PermOn.prfl f a b
  · rw [PermOn, listOn_swap_eq f hi1 hi2 hj1 hj2]
    have hp : (i - a).toNat < (listOn f a b).length := by
      rw [length_listOn]; omega
    have hq : (j - a).toNat < (listOn f a b).length := by
      rw [length_listOn]; omega
    have hvi : f j = (listOn f a b)[(j - a).toNat] := by
      rw [getElem_listOn]
      congr 1
      omega
    have hvj : f i = (listOn f a b)[(i - a).toNat] := by
      rw [getElem_listOn]
      congr 1
      omega
    rw [hvi, hvj]
    exact set_set_perm (listOn f a b) (i - a).toNat (j - a).toNat hp hq
      (by omega)

/-! ## Insertion sort correctness -/

theorem insInner_spec (a top : ℤ) :
    ∀ (fuel : ℕ) (f : PArr) (j : ℤ), (j - a).toNat = fuel → a ≤ j → j ≤ top →
      SortedOn f a j → SortedOn f j (top + 1) →
      (∀ u v : ℤ, a ≤ u → u < j → j < v → v ≤ top →
        (f u).Timestamp ≤ (f v).Timestamp) →
      SameOutside f (insInner f a j fuel) a (top + 1) ∧
        PermOn f (insInner f a j fuel) a (top + 1) ∧
        SortedOn (insInner f a j fuel) a (top + 1) := by
  intro fuel
  induction fuel with
  | zero =>
    intro f j hfuel haj hjt h1 h2 h3
    have hja : j = a := by omega
    subst hja
    exact ⟨SameOutside.rfl _ _ _, PermOn.prfl _ _ _, h2⟩
  | succ fuel ih =>
    intro f j hfuel haj hjt h1 h2 h3
    have haj' : a < j := by omega
    rw [insInner]
    by_cases hc : lessF f j (j - 1) = true
    · rw [if_pos hc]
      rw [lessF, decide_eq_true_eq] at hc
      set f' := swapF f j (j - 1) with hf'
      have hfj : f' (j - 1) = f j := by
        rw [hf']
        exact swapF_right f j (j - 1) (by omega)
      have hfw : f' j = f (j - 1) := swapF_left f j (j - 1)
      have hfo : ∀ k : ℤ, k ≠ j → k ≠ j - 1 → f' k = f k := fun k hk1 hk2 =>
        swapF_other f j (j - 1) k hk1 hk2
      have h1' : SortedOn f' a (j - 1) := by
        intro u v hu huv hv
        rw [hfo u (by omega) (by omega), hfo v (by omega) (by omega)]
        exact h1 u v hu huv (by omega)
      have h2' : SortedOn f' (j - 1) (top + 1) := by
        intro u v hu huv hv
        rcases eq_or_lt_of_le huv with rfl | huv'
        · exact le_refl _
        by_cases hu1 : u = j - 1
        · subst hu1
          rw [hfj]
          by_cases hv1 : v = j
          · subst hv1
            rw [hfw]
            exact le_of_lt hc
          · rw [hfo v (by omega) (by omega)]
            exact h2 j v (by omega) (by omega) (by omega)
        · by_cases hu2 : u = j
          · rw [hu2, hfw, hfo v (by omega) (by omega)]
            exact h3 (j - 1) v (by omega) (by omega) (by omega) (by omega)
          · rw [hfo u (by omega) (by omega), hfo v (by omega) (by omega)]
            exact h2 u v (by omega) (by omega) (by omega)
      have h3' : ∀ u v : ℤ, a ≤ u → u < j - 1 → j - 1 < v → v ≤ top →
          (f' u).Timestamp ≤ (f' v).Timestamp := by
        intro u v hu huv hv hvt
        rw [hfo u (by omega) (by omega)]
        by_cases hv1 : v = j
        · rw [hv1, hfw]
          exact h1 u (j - 1) hu (by omega) (by omega)
        · rw [hfo v hv1 (by omega)]
          exact h3 u v hu (by omega) (by omega) hvt
      obtain ⟨hso, hsp, hss⟩ := ih f' (j - 1) (by omega) (by omega)
        (by omega) h1' h2' h3'
      have hswo : SameOutside f f' a (top + 1) :=
        swapF_sameOutside f (by omega) (by omega) (by omega) (by omega)
      have hswp : PermOn f f' a (top + 1) :=
        swapF_permOn f (by omega) (by omega) (by omega) (by omega)
      exact ⟨hswo.comp hso, hswp.pcomp hsp, hss⟩
    · rw [if_neg hc]
      rw [lessF, decide_eq_true_eq, not_lt] at hc
      refine ⟨SameOutside.rfl _ _ _, PermOn.prfl _ _ _, ?_⟩
      intro u v hu huv hv
      by_cases hvj : v < j
      · exact h1 u v hu huv hvj
      · by_cases huj : j ≤ u
        · exact h2 u v huj huv hv
        · push_neg at hvj huj
          by_cases hvj' : v = j
          · subst hvj'
            calc (f u).Timestamp ≤ (f (v - 1)).Timestamp :=
                  h1 u (v - 1) hu (by omega) (by omega)
              _ ≤ (f v).Timestamp := hc
          · exact h3 u v hu huj (by omega) (by omega)

theorem insOuter_spec (a b : ℤ) :
    ∀ (fuel : ℕ) (f : PArr) (i : ℤ), (b - i).toNat = fuel → a < i →
      SortedOn f a i →
      SameOutside f (insOuter f a i fuel) a b ∧
        PermOn f (insOuter f a i fuel) a b ∧
        SortedOn (insOuter f a i fuel) a b := by
  intro fuel
  induction fuel with
  | zero =>
    intro f i hfuel hai hs
    refine ⟨SameOutside.rfl _ _ _, PermOn.prfl _ _ _, ?_⟩
    intro u v hu huv hv
    exact hs u v hu huv (by omega)
  | succ fuel ih =>
    intro f i hfuel hai hs
    have hib : i < b := by omega
    rw [insOuter]
    obtain ⟨ho1, hp1, hs1⟩ := insInner_spec a i ((i - a).toNat) f i rfl
      (by omega) le_rfl hs
      (fun u v hu huv hv => by
        have huv' : u = v := by omega
        rw [huv'])
      (fun u v hu huv hv hvt => absurd (lt_of_lt_of_le hv hvt) (lt_irrefl i))
    obtain ⟨ho2, hp2, hs2⟩ := ih (insInner f a i (i - a).toNat) (i + 1)
      (by omega) (by omega)
      (fun u v hu huv hv => hs1 u v hu huv (by omega))
    exact ⟨(ho1.widen (le_refl a) (by omega)).comp ho2,
      (hp1.pwiden ho1 (le_refl a) (by omega) (by omega)).pcomp hp2, hs2⟩

theorem insertionSortF_spec (f : PArr) (a b : ℤ) (hab : a ≤ b) :
    SameOutside f (insertionSortF f a b) a b ∧
      PermOn f (insertionSortF f a b) a b ∧
      SortedOn (insertionSortF f a b) a b := by
  rw [insertionSortF]
  rcases lt_or_le a b with hlt | hle
  · exact insOuter_spec a b ((b - (a + 1)).toNat) f (a + 1) rfl (by omega)
      (fun u v hu huv hv => by
        have huv' : u = v := by omega
        rw [huv'])
  · have hb0 : (b - (a + 1)).toNat = 0 := by omega
    rw [hb0, insOuter]
    refine ⟨SameOutside.rfl _ _ _, PermOn.prfl _ _ _, ?_⟩
    intro u v hu huv hv
    omega

/-! ## Pointwise transfer along a segment permutation -/

theorem PermOn.pointwise {f g : PArr} {a b : ℤ} (h : PermOn f g a b)
    (P : Point → Prop) (hf : ∀ k, a ≤ k → k < b → P (f k)) :
    ∀ k, a ≤ k → k < b → P (g k) := by
  intro k hk1 hk2
  have hmem : g k ∈ listOn g a b := mem_listOn g a b k hk1 hk2
  have hmem' : g k ∈ listOn f a b := h.mem_iff.mp hmem
  obtain ⟨m, hm1, hm2, hm3⟩ := (mem_listOn_iff f a b (g k)).mp hmem'
  rw [← hm3]
  exact hf m hm1 hm2

/-- The lower-bound precondition of the pdqsort recursion: when the range does
not start at index 0, the element just before it is no greater than every
element of the range.  This is what stops `partialInsertionSort`'s left shift
at the range boundary. -/
def LBP (f : PArr) (a b : ℤ) : Prop :=
  ∀ k : ℤ, a ≤ k → k < b → 0 < a → (f (a - 1)).Timestamp ≤ (f k).Timestamp

theorem LBP_swap {f : PArr} {a b i j : ℤ} (h : LBP f a b)
    (hi1 : a ≤ i) (hi2 : i < b) (hj1 : a ≤ j) (hj2 : j < b) :
    LBP (swapF f i j) a b := by
  intro k hk1 hk2 ha
  rw [swapF_other f i j (a - 1) (by omega) (by omega)]
  rw [swapF]
  split
  · exact h j hj1 hj2 ha
  · split
    · exact h i hi1 hi2 ha
    · exact h k hk1 hk2 ha

theorem LBP_of_perm {f g : PArr} {a b : ℤ} (h : LBP f a b)
    (hout : SameOutside f g a b) (hperm : PermOn f g a b) : LBP g a b := by
  intro k hk1 hk2 ha
  rw [hout (a - 1) (by omega)]
  exact hperm.pointwise (fun p => (f (a - 1)).Timestamp ≤ p.Timestamp)
    (fun m hm1 hm2 => h m hm1 hm2 ha) k hk1 hk2

theorem LBP_mono {f : PArr} {a b b' : ℤ} (h : LBP f a b) (hb : b' ≤ b) :
    LBP f a b' :=
  fun k hk1 hk2 ha => h k hk1 (by omega) ha

/-- Adjacent-pairs order on `[a, m)`: each element is no smaller than its
predecessor. -/
def AdjSorted (f : PArr) (a m : ℤ) : Prop :=
  ∀ k : ℤ, a < k → k < m → (f (k - 1)).Timestamp ≤ (f k).Timestamp

theorem AdjSorted.sortedOn {f : PArr} {a m : ℤ} (h : AdjSorted f a m) :
    SortedOn f a m := by
  intro i j hi hij hj
  obtain ⟨d, hd⟩ : ∃ d : ℕ, j = i + d := ⟨(j - i).toNat, by omega⟩
  subst hd
  clear hij
  induction d with
  | zero => simp
  | succ d ihd =>
    calc (f i).Timestamp ≤ (f (i + d)).Timestamp := ihd (by omega)
      _ ≤ (f (i + (d + 1 : ℕ))).Timestamp := by
          have := h (i + (d + 1 : ℕ)) (by omega) (by omega)
          have he : (i + ((d : ℕ) + 1 : ℕ) : ℤ) - 1 = i + (d : ℕ) := by
            push_cast
            omega
          rwa [he] at this

/-! ## Functional specifications of the partition scans -/

theorem scanLess_spec (f : PArr) (pa : ℤ) :
    ∀ (fuel : ℕ) (i : ℤ),
      (∀ k : ℤ, i ≤ k → k < scanLess f pa i fuel → lessF f k pa = true) ∧
        (scanLess f pa i fuel < i + fuel →
          lessF f (scanLess f pa i fuel) pa = false) := by
  intro fuel
  induction fuel with
  | zero =>
    intro i
    rw [scanLess]
    exact ⟨fun k hk1 hk2 => absurd hk1 (by omega), fun h => absurd h (by omega)⟩
  | succ fuel ih =>
    intro i
    rw [scanLess]
    by_cases hc : lessF f i pa = true
    · rw [if_pos hc]
      obtain ⟨ih1, ih2⟩ := ih (i + 1)
      refine ⟨fun k hk1 hk2 => ?_, fun h => ih2 (by omega)⟩
      by_cases hki : k = i
      · rw [hki]; exact hc
      · exact ih1 k (by omega) hk2
    · rw [if_neg hc]
      exact ⟨fun k hk1 hk2 => absurd hk1 (by omega),
        fun _ => Bool.eq_false_iff.mpr hc⟩

theorem scanGe_spec (f : PArr) (pa : ℤ) :
    ∀ (fuel : ℕ) (j : ℤ),
      (∀ k : ℤ, scanGe f pa j fuel < k → k ≤ j → lessF f k pa = false) ∧
        (j - fuel < scanGe f pa j fuel →
          lessF f (scanGe f pa j fuel) pa = true) := by
  intro fuel
  induction fuel with
  | zero =>
    intro j
    rw [scanGe]
    exact ⟨fun k hk1 hk2 => absurd hk1 (by omega), fun h => absurd h (by omega)⟩
  | succ fuel ih =>
    intro j
    rw [scanGe]
    by_cases hc : lessF f j pa = true
    · rw [if_neg (by simp [hc])]
      exact ⟨fun k hk1 hk2 => absurd hk1 (by omega), fun _ => hc⟩
    · simp only [Bool.not_eq_true] at hc
      rw [if_pos (by simp [hc])]
      obtain ⟨ih1, ih2⟩ := ih (j - 1)
      refine ⟨fun k hk1 hk2 => ?_, fun h => ih2 (by omega)⟩
      by_cases hkj : k = j
      · rw [hkj]; exact hc
      · exact ih1 k hk1 (by omega)

theorem scanLe_spec (f : PArr) (pa : ℤ) :
    ∀ (fuel : ℕ) (i : ℤ),
      (∀ k : ℤ, i ≤ k → k < scanLe f pa i fuel → lessF f pa k = false) ∧
        (scanLe f pa i fuel < i + fuel →
          lessF f pa (scanLe f pa i fuel) = true) := by
  intro fuel
  induction fuel with
  | zero =>
    intro i
    rw [scanLe]
    exact ⟨fun k hk1 hk2 => absurd hk1 (by omega), fun h => absurd h (by omega)⟩
  | succ fuel ih =>
    intro i
    rw [scanLe]
    by_cases hc : lessF f pa i = true
    · rw [if_neg (by simp [hc])]
      exact ⟨fun k hk1 hk2 => absurd hk1 (by omega), fun _ => hc⟩
    · simp only [Bool.not_eq_true] at hc
      rw [if_pos (by simp [hc])]
      obtain ⟨ih1, ih2⟩ := ih (i + 1)
      refine ⟨fun k hk1 hk2 => ?_, fun h => ih2 (by omega)⟩
      by_cases hki : k = i
      · rw [hki]; exact hc
      · exact ih1 k (by omega) hk2

theorem scanGt_spec (f : PArr) (pa : ℤ) :
    ∀ (fuel : ℕ) (j : ℤ),
      (∀ k : ℤ, scanGt f pa j fuel < k → k ≤ j → lessF f pa k = true) ∧
        (j - fuel < scanGt f pa j fuel →
          lessF f pa (scanGt f pa j fuel) = false) := by
  intro fuel
  induction fuel with
  | zero =>
    intro j
    rw [scanGt]
    exact ⟨fun k hk1 hk2 => absurd hk1 (by omega), fun h => absurd h (by omega)⟩
  | succ fuel ih =>
    intro j
    rw [scanGt]
    by_cases hc : lessF f pa j = true
    · rw [if_pos hc]
      obtain ⟨ih1, ih2⟩ := ih (j - 1)
      refine ⟨fun k hk1 hk2 => ?_, fun h => ih2 (by omega)⟩
      by_cases hkj : k = j
      · rw [hkj]; exact hc
      · exact ih1 k hk1 (by omega)
    · rw [if_neg hc]
      exact ⟨fun k hk1 hk2 => absurd hk1 (by omega),
        fun _ => Bool.eq_false_iff.mpr hc⟩

/-! ## Partition correctness -/

theorem partitionLoop_spec (a b : ℤ) (pv : GoTime) :
    ∀ (fuel : ℕ) (f : PArr) (i j : ℤ),
      j + 1 - i ≤ (fuel : ℤ) →
      a + 1 ≤ i → i ≤ j + 1 → j ≤ b - 2 →
      (f a).Timestamp = pv →
      (∀ k : ℤ, a + 1 ≤ k → k < i → (f k).Timestamp < pv) →
      (∀ k : ℤ, j < k → k < b → pv ≤ (f k).Timestamp) →
      SameOutside f (partitionLoop f a i j fuel).1 i (j + 1) ∧
        PermOn f (partitionLoop f a i j fuel).1 i (j + 1) ∧
        i - 1 ≤ (partitionLoop f a i j fuel).2 ∧
        (partitionLoop f a i j fuel).2 ≤ j ∧
        (∀ k : ℤ, a + 1 ≤ k → k ≤ (partitionLoop f a i j fuel).2 →
          ((partitionLoop f a i j fuel).1 k).Timestamp < pv) ∧
        (∀ k : ℤ, (partitionLoop f a i j fuel).2 < k → k < b →
          pv ≤ ((partitionLoop f a i j fuel).1 k).Timestamp) := by
  intro fuel
  induction fuel with
  | zero =>
    intro f i j hfuel hai hij hjb hA h2 h3
    rw [partitionLoop]
    refine ⟨SameOutside.rfl _ _ _, PermOn.prfl _ _ _, by omega, by omega,
      fun k hk1 hk2 => h2 k hk1 (by omega), fun k hk1 hk2 => h3 k hk1 hk2⟩
  | succ fuel ih =>
    intro f i j hfuel hai hij hjb hA h2 h3
    simp only [partitionLoop]
    obtain ⟨s1, s2⟩ := scanLess_spec f a ((j + 1 - i).toNat) i
    set i' := scanLess f a i ((j + 1 - i).toNat) with hi'def
    obtain ⟨g1, g2⟩ := scanGe_spec f a ((j + 1 - i').toNat) j
    set j' := scanGe f a j ((j + 1 - i').toNat) with hj'def
    have hi'1 : i ≤ i' := scanLess_ge f a _ i
    have hi'2 : i' ≤ i + ((j + 1 - i).toNat : ℤ) := scanLess_le f a _ i
    have hi'3 : i' ≤ j + 1 := by omega
    have hj'1 : j' ≤ j := scanGe_le f a _ j
    have hj'2 : j - ((j + 1 - i').toNat : ℤ) ≤ j' := scanGe_ge f a _ j
    have hj'3 : i' - 1 ≤ j' := by omega
    by_cases hcr : i' > j'
    · rw [if_pos hcr]
      refine ⟨SameOutside.rfl _ _ _, PermOn.prfl _ _ _, by omega, by omega,
        fun k hk1 hk2 => ?_, fun k hk1 hk2 => ?_⟩
      · have hk2' : k ≤ j' := hk2
        by_cases hki : k < i
        · exact h2 k hk1 hki
        · have := s1 k (by omega) (by omega)
          rw [lessF, decide_eq_true_eq, hA] at this
          exact this
      · have hk1' : j' < k := hk1
        by_cases hkj : k ≤ j
        · have := g1 k hk1' hkj
          rw [lessF] at this
          simp only [decide_eq_false_iff_not, not_lt, hA] at this
          exact this
        · exact h3 k (by omega) hk2
    · rw [if_neg hcr]
      push_neg at hcr
      have hfi' : lessF f i' a = false := s2 (by omega)
      have hfj' : lessF f j' a = true := g2 (by omega)
      have hvi' : pv ≤ (f i').Timestamp := by
        rw [lessF] at hfi'
        simp only [decide_eq_false_iff_not, not_lt, hA] at hfi'
        exact hfi'
      have hvj' : (f j').Timestamp < pv := by
        rw [lessF, decide_eq_true_eq, hA] at hfj'
        exact hfj'
      have hij' : i' < j' := by
        rcases lt_or_eq_of_le hcr with h | h
        · exact h
        · rw [h] at hvi'
          exact absurd (lt_of_le_of_lt hvi' hvj') (lt_irrefl _)
      have hA' : ((swapF f i' j') a).Timestamp = pv := by
        rw [swapF_other f i' j' a (by omega) (by omega)]
        exact hA
      have h2' : ∀ k : ℤ, a + 1 ≤ k → k < i' + 1 →
          ((swapF f i' j') k).Timestamp < pv := by
        intro k hk1 hk2
        by_cases hki : k = i'
        · rw [hki, swapF_left]
          exact hvj'
        · rw [swapF_other f i' j' k hki (by omega)]
          by_cases hkii : k < i
          · exact h2 k hk1 hkii
          · have := s1 k (by omega) (by omega)
            rw [lessF, decide_eq_true_eq, hA] at this
            exact this
      have h3' : ∀ k : ℤ, j' - 1 < k → k < b →
          pv ≤ ((swapF f i' j') k).Timestamp := by
        intro k hk1 hk2
        by_cases hkj : k = j'
        · rw [hkj, swapF_right f i' j' (by omega)]
          exact hvi'
        · rw [swapF_other f i' j' k (by omega) hkj]
          by_cases hkjj : k ≤ j
          · have := g1 k (by omega) hkjj
            rw [lessF] at this
            simp only [decide_eq_false_iff_not, not_lt, hA] at this
            exact this
          · exact h3 k (by omega) hk2
      obtain ⟨ro, rp, rm1, rm2, rP4, rP5⟩ :=
        ih (swapF f i' j') (i' + 1) (j' - 1) (by omega) (by omega) (by omega)
          (by omega) hA' h2' h3'
      have hsw1 : SameOutside f (swapF f i' j') i (j + 1) :=
        swapF_sameOutside f (by omega) (by omega) (by omega) (by omega)
      have hsw2 : PermOn f (swapF f i' j') i (j + 1) :=
        swapF_permOn f (by omega) (by omega) (by omega) (by omega)
      refine ⟨hsw1.comp (ro.widen (by omega) (by omega)),
        hsw2.pcomp (rp.pwiden ro (by omega) (by omega) (by omega)),
        by omega, by omega, rP4, rP5⟩

theorem partitionF_spec (f : PArr) (a b pivot : ℤ)
    (hab : a < b) (hp1 : a ≤ pivot) (hp2 : pivot < b) :
    SameOutside f (partitionF f a b pivot).1 a b ∧
      PermOn f (partitionF f a b pivot).1 a b ∧
      a ≤ (partitionF f a b pivot).2.1 ∧
      (partitionF f a b pivot).2.1 < b ∧
      ((partitionF f a b pivot).1 (partitionF f a b pivot).2.1).Timestamp =
        (f pivot).Timestamp ∧
      (∀ k : ℤ, a ≤ k → k < (partitionF f a b pivot).2.1 →
        ((partitionF f a b pivot).1 k).Timestamp < (f pivot).Timestamp) ∧
      (∀ k : ℤ, (partitionF f a b pivot).2.1 < k → k < b →
        (f pivot).Timestamp ≤ ((partitionF f a b pivot).1 k).Timestamp) := by
  simp only [partitionF]
  set pv := (f pivot).Timestamp with hpv
  set f1 := swapF f a pivot with hf1
  have hA : (f1 a).Timestamp = pv := by rw [hf1, swapF_left]
  obtain ⟨s1, s2⟩ := scanLess_spec f1 a ((b - 1 + 1 - (a + 1)).toNat) (a + 1)
  set i1 := scanLess f1 a (a + 1) ((b - 1 + 1 - (a + 1)).toNat) with hi1def
  obtain ⟨g1, g2⟩ := scanGe_spec f1 a ((b - 1 + 1 - i1).toNat) (b - 1)
  set j1 := scanGe f1 a (b - 1) ((b - 1 + 1 - i1).toNat) with hj1def
  have hi1a : a + 1 ≤ i1 := scanLess_ge f1 a _ (a + 1)
  have hi1b : i1 ≤ a + 1 + ((b - 1 + 1 - (a + 1)).toNat : ℤ) :=
    scanLess_le f1 a _ (a + 1)
  have hi1b' : i1 ≤ b := by omega
  have hj1b : j1 ≤ b - 1 := scanGe_le f1 a _ (b - 1)
  have hj1a : b - 1 - ((b - 1 + 1 - i1).toNat : ℤ) ≤ j1 := scanGe_ge f1 a _ (b - 1)
  have hj1a' : i1 - 1 ≤ j1 := by omega
  have hsw0 : SameOutside f f1 a b :=
    swapF_sameOutside f (by omega) (by omega) hp1 hp2
  have hswp0 : PermOn f f1 a b :=
    swapF_permOn f (by omega) (by omega) hp1 hp2
  by_cases hcr : i1 > j1
  · rw [if_pos hcr]
    have hj1i : j1 = i1 - 1 := by omega
    have hga : SameOutside f1 (swapF f1 j1 a) a b :=
      swapF_sameOutside f1 (by omega) (by omega) (by omega) (by omega)
    have hgp : PermOn f1 (swapF f1 j1 a) a b :=
      swapF_permOn f1 (by omega) (by omega) (by omega) (by omega)
    refine ⟨hsw0.comp hga, hswp0.pcomp hgp, show a ≤ j1 by omega,
      show j1 < b by omega, ?_, ?_, ?_⟩
    · show ((swapF f1 j1 a) j1).Timestamp = pv
      rw [swapF_left]
      exact hA
    · intro k hk1 hk2
      have hk2' : k < j1 := hk2
      show ((swapF f1 j1 a) k).Timestamp < pv
      by_cases hka : k = a
      · rw [hka, swapF_right f1 j1 a (by omega)]
        have := s1 j1 (by omega) (by omega)
        rw [lessF, decide_eq_true_eq, hA] at this
        exact this
      · rw [swapF_other f1 j1 a k (by omega) hka]
        have := s1 k (by omega) (by omega)
        rw [lessF, decide_eq_true_eq, hA] at this
        exact this
    · intro k hk1 hk2
      have hk1' : j1 < k := hk1
      show pv ≤ ((swapF f1 j1 a) k).Timestamp
      rw [swapF_other f1 j1 a k (by omega) (by omega)]
      have := g1 k hk1' (by omega)
      rw [lessF] at this
      simp only [decide_eq_false_iff_not, not_lt, hA] at this
      exact this
  · rw [if_neg hcr]
    push_neg at hcr
    have hfi1 : lessF f1 i1 a = false := s2 (by omega)
    have hfj1 : lessF f1 j1 a = true := g2 (by omega)
    have hvi1 : pv ≤ (f1 i1).Timestamp := by
      rw [lessF] at hfi1
      simp only [decide_eq_false_iff_not, not_lt, hA] at hfi1
      exact hfi1
    have hvj1 : (f1 j1).Timestamp < pv := by
      rw [lessF, decide_eq_true_eq, hA] at hfj1
      exact hfj1
    have hij1 : i1 < j1 := by
      rcases lt_or_eq_of_le hcr with h | h
      · exact h
      · rw [h] at hvi1
        exact absurd (lt_of_le_of_lt hvi1 hvj1) (lt_irrefl _)
    set f2 := swapF f1 i1 j1 with hf2
    have hA2 : (f2 a).Timestamp = pv := by
      rw [hf2, swapF_other f1 i1 j1 a (by omega) (by omega)]
      exact hA
    have h2' : ∀ k : ℤ, a + 1 ≤ k → k < i1 + 1 → (f2 k).Timestamp < pv := by
      intro k hk1 hk2
      by_cases hki : k = i1
      · rw [hki, hf2, swapF_left]
        exact hvj1
      · rw [hf2, swapF_other f1 i1 j1 k hki (by omega)]
        have := s1 k hk1 (by omega)
        rw [lessF, decide_eq_true_eq, hA] at this
        exact this
    have h3' : ∀ k : ℤ, j1 - 1 < k → k < b → pv ≤ (f2 k).Timestamp := by
      intro k hk1 hk2
      by_cases hkj : k = j1
      · rw [hkj, hf2, swapF_right f1 i1 j1 (by omega)]
        exact hvi1
      · rw [hf2, swapF_other f1 i1 j1 k (by omega) hkj]
        have := g1 k (by omega) (by omega)
        rw [lessF] at this
        simp only [decide_eq_false_iff_not, not_lt, hA] at this
        exact this
    obtain ⟨ro, rp, rm1, rm2, rP4, rP5⟩ :=
      partitionLoop_spec a b pv ((j1 - 1 + 1 - (i1 + 1)).toNat) f2 (i1 + 1)
        (j1 - 1) (by omega) (by omega) (by omega) (by omega) hA2 h2' h3'
    set r := partitionLoop f2 a (i1 + 1) (j1 - 1) ((j1 - 1 + 1 - (i1 + 1)).toNat)
      with hrdef
    have hra : (r.1 a).Timestamp = pv := by
      rw [ro a (by omega)]
      exact hA2
    have hsw2 : SameOutside f1 f2 a b :=
      swapF_sameOutside f1 (by omega) (by omega) (by omega) (by omega)
    have hswp2 : PermOn f1 f2 a b :=
      swapF_permOn f1 (by omega) (by omega) (by omega) (by omega)
    have hfin1 : SameOutside r.1 (swapF r.1 r.2 a) a b :=
      swapF_sameOutside r.1 (by omega) (by omega) (by omega) (by omega)
    have hfin2 : PermOn r.1 (swapF r.1 r.2 a) a b :=
      swapF_permOn r.1 (by omega) (by omega) (by omega) (by omega)
    refine ⟨(hsw0.comp hsw2).comp
        ((ro.widen (by omega) (by omega)).comp hfin1),
      (hswp0.pcomp hswp2).pcomp
        ((rp.pwiden ro (by omega) (by omega) (by omega)).pcomp hfin2),
      show a ≤ r.2 by omega, show r.2 < b by omega, ?_, ?_, ?_⟩
    · show ((swapF r.1 r.2 a) r.2).Timestamp = pv
      rw [swapF_left]
      exact hra
    · intro k hk1 hk2
      have hk2' : k < r.2 := hk2
      show ((swapF r.1 r.2 a) k).Timestamp < pv
      by_cases hka : k = a
      · rw [hka, swapF_right r.1 r.2 a (by omega)]
        exact rP4 r.2 (by omega) (by omega)
      · rw [swapF_other r.1 r.2 a k (by omega) hka]
        exact rP4 k (by omega) (by omega)
    · intro k hk1 hk2
      have hk1' : r.2 < k := hk1
      show pv ≤ ((swapF r.1 r.2 a) k).Timestamp
      rw [swapF_other r.1 r.2 a k (by omega) (by omega)]
      exact rP5 k hk1' hk2

theorem scanLe_le (f : PArr) (pa : ℤ) :
    ∀ (fuel : ℕ) (i : ℤ), scanLe f pa i fuel ≤ i + fuel := by
  intro fuel
  induction fuel with
  | zero => intro i; simp [scanLe]
  | succ fuel ih =>
    intro i
    rw [scanLe]
    split
    · calc scanLe f pa (i + 1) fuel ≤ i + 1 + fuel := ih (i + 1)
        _ ≤ i + (fuel + 1) := by omega
    · omega

theorem scanGt_ge (f : PArr) (pa : ℤ) :
    ∀ (fuel : ℕ) (j : ℤ), j - fuel ≤ scanGt f pa j fuel := by
  intro fuel
  induction fuel with
  | zero => intro j; simp [scanGt]
  | succ fuel ih =>
    intro j
    rw [scanGt]
    split
    · calc j - (fuel + 1) ≤ (j - 1) - fuel := by omega
        _ ≤ scanGt f pa (j - 1) fuel := ih (j - 1)
    · omega

theorem peqLoop_spec (a b : ℤ) (pv : GoTime) :
    ∀ (fuel : ℕ) (f : PArr) (i j : ℤ),
      j + 1 - i ≤ (fuel : ℤ) →
      a + 1 ≤ i → i ≤ j + 1 → j ≤ b - 1 →
      (f a).Timestamp = pv →
      (∀ k : ℤ, a ≤ k → k < b → pv ≤ (f k).Timestamp) →
      (∀ k : ℤ, a + 1 ≤ k → k < i → (f k).Timestamp ≤ pv) →
      (∀ k : ℤ, j < k → k < b → pv < (f k).Timestamp) →
      SameOutside f (peqLoop f a i j fuel).1 i (j + 1) ∧
        PermOn f (peqLoop f a i j fuel).1 i (j + 1) ∧
        i ≤ (peqLoop f a i j fuel).2 ∧ (peqLoop f a i j fuel).2 ≤ j + 1 ∧
        (∀ k : ℤ, a ≤ k → k < (peqLoop f a i j fuel).2 →
          ((peqLoop f a i j fuel).1 k).Timestamp = pv) ∧
        (∀ k : ℤ, (peqLoop f a i j fuel).2 ≤ k → k < b →
          pv < ((peqLoop f a i j fuel).1 k).Timestamp) := by
  intro fuel
  induction fuel with
  | zero =>
    intro f i j hfuel hai hij hjb hA hALL h2 h3
    rw [peqLoop]
    have hieq : i = j + 1 := by omega
    refine ⟨SameOutside.rfl _ _ _, PermOn.prfl _ _ _, by omega, by omega,
      fun k hk1 hk2 => ?_, fun k hk1 hk2 => h3 k (by omega) hk2⟩
    have hk2' : k < i := hk2
    by_cases hka : k = a
    · rw [hka]; exact hA
    · exact le_antisymm (h2 k (by omega) hk2') (hALL k hk1 (by omega))
  | succ fuel ih =>
    intro f i j hfuel hai hij hjb hA hALL h2 h3
    simp only [peqLoop]
    obtain ⟨s1, s2⟩ := scanLe_spec f a ((j + 1 - i).toNat) i
    set i' := scanLe f a i ((j + 1 - i).toNat) with hi'def
    obtain ⟨g1, g2⟩ := scanGt_spec f a ((j + 1 - i').toNat) j
    set j' := scanGt f a j ((j + 1 - i').toNat) with hj'def
    have hi'1 : i ≤ i' := scanLe_ge f a _ i
    have hi'2 : i' ≤ i + ((j + 1 - i).toNat : ℤ) := scanLe_le f a _ i
    have hi'3 : i' ≤ j + 1 := by omega
    have hj'1 : j' ≤ j := scanGt_le f a _ j
    have hj'2 : j - ((j + 1 - i').toNat : ℤ) ≤ j' := scanGt_ge f a _ j
    have hj'3 : i' - 1 ≤ j' := by omega
    by_cases hcr : i' > j'
    · rw [if_pos hcr]
      refine ⟨SameOutside.rfl _ _ _, PermOn.prfl _ _ _,
        show i ≤ i' by omega, show i' ≤ j + 1 by omega,
        fun k hk1 hk2 => ?_, fun k hk1 hk2 => ?_⟩
      · have hk2' : k < i' := hk2
        by_cases hka : k = a
        · rw [hka]; exact hA
        · refine le_antisymm ?_ (hALL k hk1 (by omega))
          by_cases hki : k < i
          · exact h2 k (by omega) hki
          · have := s1 k (by omega) (by omega)
            rw [lessF] at this
            simp only [decide_eq_false_iff_not, not_lt] at this
            rw [← hA]
            exact this
      · have hk1' : i' ≤ k := hk1
        by_cases hkj : k ≤ j
        · have := g1 k (by omega) hkj
          rw [lessF, decide_eq_true_eq] at this
          rw [← hA]
          exact this
        · exact h3 k (by omega) hk2
    · rw [if_neg hcr]
      push_neg at hcr
      have hfi' : lessF f a i' = true := s2 (by omega)
      have hfj' : lessF f a j' = false := g2 (by omega)
      have hvi' : pv < (f i').Timestamp := by
        rw [lessF, decide_eq_true_eq] at hfi'
        rw [← hA]
        exact hfi'
      have hvj' : (f j').Timestamp ≤ pv := by
        rw [lessF] at hfj'
        simp only [decide_eq_false_iff_not, not_lt] at hfj'
        rw [← hA]
        exact hfj'
      have hij' : i' < j' := by
        rcases lt_or_eq_of_le hcr with h | h
        · exact h
        · rw [h] at hvi'
          exact absurd (lt_of_lt_of_le hvi' hvj') (lt_irrefl _)
      have hA' : ((swapF f i' j') a).Timestamp = pv := by
        rw [swapF_other f i' j' a (by omega) (by omega)]
        exact hA
      have hALL' : ∀ k : ℤ, a ≤ k → k < b →
          pv ≤ ((swapF f i' j') k).Timestamp := by
        intro k hk1 hk2
        rw [swapF]
        split
        · exact hALL j' (by omega) (by omega)
        · split
          · exact hALL i' (by omega) (by omega)
          · exact hALL k hk1 hk2
      have h2' : ∀ k : ℤ, a + 1 ≤ k → k < i' + 1 →
          ((swapF f i' j') k).Timestamp ≤ pv := by
        intro k hk1 hk2
        by_cases hki : k = i'
        · rw [hki, swapF_left]
          exact hvj'
        · rw [swapF_other f i' j' k hki (by omega)]
          by_cases hkii : k < i
          · exact h2 k hk1 hkii
          · have := s1 k (by omega) (by omega)
            rw [lessF] at this
            simp only [decide_eq_false_iff_not, not_lt] at this
            rw [← hA]
            exact this
      have h3' : ∀ k : ℤ, j' - 1 < k → k < b →
          pv < ((swapF f i' j') k).Timestamp := by
        intro k hk1 hk2
        by_cases hkj : k = j'
        · rw [hkj, swapF_right f i' j' (by omega)]
          exact hvi'
        · rw [swapF_other f i' j' k (by omega) hkj]
          by_cases hkjj : k ≤ j
          · have := g1 k (by omega) hkjj
            rw [lessF, decide_eq_true_eq] at this
            rw [← hA]
            exact this
          · exact h3 k (by omega) hk2
      obtain ⟨ro, rp, rm1, rm2, rP4, rP5⟩ :=
        ih (swapF f i' j') (i' + 1) (j' - 1) (by omega) (by omega) (by omega)
          (by omega) hA' hALL' h2' h3'
      have hsw1 : SameOutside f (swapF f i' j') i (j + 1) :=
        swapF_sameOutside f (by omega) (by omega) (by omega) (by omega)
      have hsw2 : PermOn f (swapF f i' j') i (j + 1) :=
        swapF_permOn f (by omega) (by omega) (by omega) (by omega)
      refine ⟨hsw1.comp (ro.widen (by omega) (by omega)),
        hsw2.pcomp (rp.pwiden ro (by omega) (by omega) (by omega)),
        by omega, by omega, rP4, rP5⟩

theorem partitionEqualF_spec (f : PArr) (a b pivot : ℤ)
    (hab : a < b) (hp1 : a ≤ pivot) (hp2 : pivot < b)
    (hALL : ∀ k : ℤ, a ≤ k → k < b →
      (f pivot).Timestamp ≤ (f k).Timestamp) :
    SameOutside f (partitionEqualF f a b pivot).1 a b ∧
      PermOn f (partitionEqualF f a b pivot).1 a b ∧
      a < (partitionEqualF f a b pivot).2 ∧
      (partitionEqualF f a b pivot).2 ≤ b ∧
      (∀ k : ℤ, a ≤ k → k < (partitionEqualF f a b pivot).2 →
        ((partitionEqualF f a b pivot).1 k).Timestamp = (f pivot).Timestamp) ∧
      (∀ k : ℤ, (partitionEqualF f a b pivot).2 ≤ k → k < b →
        (f pivot).Timestamp < ((partitionEqualF f a b pivot).1 k).Timestamp) := by
  simp only [partitionEqualF]
  set pv := (f pivot).Timestamp with hpv
  set f1 := swapF f a pivot with hf1
  have hA : (f1 a).Timestamp = pv := by rw [hf1, swapF_left]
  have hALL1 : ∀ k : ℤ, a ≤ k → k < b → pv ≤ (f1 k).Timestamp := by
    intro k hk1 hk2
    rw [hf1, swapF]
    split
    · exact hALL pivot hp1 hp2
    · split
      · exact hALL a (by omega) (by omega)
      · exact hALL k hk1 hk2
  obtain ⟨ro, rp, rm1, rm2, rP4, rP5⟩ :=
    peqLoop_spec a b pv ((b - 1 + 1 - (a + 1)).toNat) f1 (a + 1) (b - 1)
      (by omega) (by omega) (by omega) (by omega) hA hALL1
      (fun k hk1 hk2 => absurd hk1 (by omega))
      (fun k hk1 hk2 => absurd hk1 (by omega))
  have hsw0 : SameOutside f f1 a b :=
    swapF_sameOutside f (by omega) (by omega) hp1 hp2
  have hswp0 : PermOn f f1 a b :=
    swapF_permOn f (by omega) (by omega) hp1 hp2
  exact ⟨hsw0.comp (ro.widen (by omega) (by omega)),
    hswp0.pcomp (rp.pwiden ro (by omega) (by omega) (by omega)),
    by omega, by omega, rP4, rP5⟩

/-! ## Pivot selection stays inside the range -/

theorem order2F_mem (f : PArr) (x y : ℤ) (s : ℕ) :
    ((order2F f x y s).1.1 = x ∨ (order2F f x y s).1.1 = y) ∧
      ((order2F f x y s).1.2 = x ∨ (order2F f x y s).1.2 = y) := by
  rw [order2F]
  split <;> simp

theorem medianF_mem (f : PArr) (x y z : ℤ) (s : ℕ) :
    (medianF f x y z s).1 = x ∨ (medianF f x y z s).1 = y ∨
      (medianF f x y z s).1 = z := by
  have h1 := order2F_mem f x y s
  have h2 := order2F_mem f (order2F f x y s).1.2 z (order2F f x y s).2
  have h3 := order2F_mem f (order2F f x y s).1.1
    (order2F f (order2F f x y s).1.2 z (order2F f x y s).2).1.1
    (order2F f (order2F f x y s).1.2 z (order2F f x y s).2).2
  have hM : (medianF f x y z s).1 =
      (order2F f (order2F f x y s).1.1
        (order2F f (order2F f x y s).1.2 z (order2F f x y s).2).1.1
        (order2F f (order2F f x y s).1.2 z (order2F f x y s).2).2).1.2 := rfl
  rw [hM]
  rcases h3.2 with h | h <;> rcases h2.1 with h' | h' <;>
    rcases h1.1 with h1a | h1a <;> rcases h1.2 with h1b | h1b <;> omega

theorem medianAdjF_mem (f : PArr) (x : ℤ) (s : ℕ) :
    (medianAdjF f x s).1 = x - 1 ∨ (medianAdjF f x s).1 = x ∨
      (medianAdjF f x s).1 = x + 1 :=
  medianF_mem f (x - 1) x (x + 1) s

theorem choosePivotF_mem (f : PArr) (a b : ℤ) (h : 1 ≤ b - a) :
    a ≤ (choosePivotF f a b).1 ∧ (choosePivotF f a b).1 < b := by
  have htd : Int.tdiv (b - a) 4 = (b - a) / 4 :=
    Int.tdiv_eq_ediv (by omega) (by norm_num)
  simp only [choosePivotF, htd]
  split_ifs with h8 h50
  · set d := (b - a) / 4 with hd
    set ri := medianAdjF f (a + d * 1) 0 with hri
    set rj := medianAdjF f (a + d * 2) ri.2 with hrj
    set rk := medianAdjF f (a + d * 3) rj.2 with hrk
    have hi := medianAdjF_mem f (a + d * 1) 0
    have hj := medianAdjF_mem f (a + d * 2) ri.2
    have hk := medianAdjF_mem f (a + d * 3) rj.2
    have hm := medianF_mem f ri.1 rj.1 rk.1 rk.2
    have hb1 : a + d * 1 - 1 ≤ ri.1 ∧ ri.1 ≤ a + d * 1 + 1 := by
      rcases hi with h' | h' | h' <;> rw [h'] <;> omega
    have hb2 : a + d * 2 - 1 ≤ rj.1 ∧ rj.1 ≤ a + d * 2 + 1 := by
      rcases hj with h' | h' | h' <;> rw [h'] <;> omega
    have hb3 : a + d * 3 - 1 ≤ rk.1 ∧ rk.1 ≤ a + d * 3 + 1 := by
      rcases hk with h' | h' | h' <;> rw [h'] <;> omega
    rcases hm with h' | h' | h' <;> rw [h'] <;> constructor <;> omega
  · have hm := medianF_mem f (a + (b - a) / 4 * 1) (a + (b - a) / 4 * 2)
      (a + (b - a) / 4 * 3) 0
    rcases hm with h' | h' | h' <;> rw [h'] <;> constructor <;> omega
  · constructor <;> omega

/-! ## reverseRange and breakPatterns only permute the range -/

theorem revLoop_spec :
    ∀ (fuel : ℕ) (f : PArr) (i j : ℤ), j - i ≤ (fuel : ℤ) →
      SameOutside f (revLoop f i j fuel) i (j + 1) ∧
        PermOn f (revLoop f i j fuel) i (j + 1) := by
  intro fuel
  induction fuel with
  | zero =>
    intro f i j hfuel
    rw [revLoop]
    exact ⟨SameOutside.rfl _ _ _, PermOn.prfl _ _ _⟩
  | succ fuel ih =>
    intro f i j hfuel
    rw [revLoop]
    by_cases hij : i < j
    · rw [if_pos hij]
      obtain ⟨ro, rp⟩ := ih (swapF f i j) (i + 1) (j - 1) (by omega)
      have hsw1 : SameOutside f (swapF f i j) i (j + 1) :=
        swapF_sameOutside f (by omega) (by omega) (by omega) (by omega)
      have hsw2 : PermOn f (swapF f i j) i (j + 1) :=
        swapF_permOn f (by omega) (by omega) (by omega) (by omega)
      exact ⟨hsw1.comp (ro.widen (by omega) (by omega)),
        hsw2.pcomp (rp.pwiden ro (by omega) (by omega) (by omega))⟩
    · rw [if_neg hij]
      exact ⟨SameOutside.rfl _ _ _, PermOn.prfl _ _ _⟩

theorem reverseRangeF_spec (f : PArr) (a b : ℤ) (hab : a ≤ b) :
    SameOutside f (reverseRangeF f a b) a b ∧
      PermOn f (reverseRangeF f a b) a b := by
  rw [reverseRangeF]
  rcases lt_or_le a b with hlt | hle
  · obtain ⟨ro, rp⟩ := revLoop_spec ((b - 1 - a).toNat) f a (b - 1) (by omega)
    have he : b - 1 + 1 = b := by omega
    rw [he] at ro rp
    exact ⟨ro, rp⟩
  · have hb0 : b = a := by omega
    obtain ⟨ro, rp⟩ := revLoop_spec ((b - 1 - a).toNat) f a (b - 1) (by omega)
    exact ⟨fun k hk => ro k (by omega), by
      rw [PermOn, listOn_empty _ a b (by omega), listOn_empty _ a b (by omega)]⟩

theorem bitsLenAux_bounds :
    ∀ (fuel n : ℕ), n ≤ fuel →
      n < 2 ^ bitsLenAux n fuel ∧ (1 ≤ n → 2 ^ bitsLenAux n fuel ≤ 2 * n) := by
  intro fuel
  induction fuel with
  | zero =>
    intro n hn
    have hn0 : n = 0 := by omega
    subst hn0
    rw [bitsLenAux]
    exact ⟨by norm_num, fun h => absurd h (by omega)⟩
  | succ fuel ih =>
    intro n hn
    rw [bitsLenAux]
    by_cases hn0 : n = 0
    · rw [if_pos hn0, hn0]
      exact ⟨by norm_num, fun h => absurd h (by omega)⟩
    · rw [if_neg hn0]
      obtain ⟨ih1, ih2⟩ := ih (n / 2) (by omega)
      constructor
      · have : n ≤ 2 * (n / 2) + 1 := by omega
        calc n ≤ 2 * (n / 2) + 1 := this
          _ < 2 * (2 ^ bitsLenAux (n / 2) fuel) := by omega
          _ = 2 ^ (bitsLenAux (n / 2) fuel + 1) := by ring
      · intro _
        by_cases hh : 1 ≤ n / 2
        · calc 2 ^ (bitsLenAux (n / 2) fuel + 1)
              = 2 * 2 ^ bitsLenAux (n / 2) fuel := by ring
            _ ≤ 2 * (2 * (n / 2)) := by omega
            _ ≤ 2 * n := by omega
        · have hd0 : n / 2 = 0 := by omega
          have hn1 : n = 1 := by omega
          rw [hd0, bitsLenAux.eq_def]
          cases fuel <;> simp <;> omega

theorem bpOffset_lt (r len : ℕ) (hlen : 1 ≤ len) :
    (if r &&& (2 ^ bitsLen len - 1) ≥ len
      then (r &&& (2 ^ bitsLen len - 1)) - len
      else r &&& (2 ^ bitsLen len - 1)) < len := by
  have h1 : r &&& (2 ^ bitsLen len - 1) ≤ 2 ^ bitsLen len - 1 :=
    Nat.and_le_right
  have h2 : 2 ^ bitsLen len ≤ 2 * len := (bitsLenAux_bounds len len le_rfl).2 hlen
  split <;> omega

theorem breakPatternsF_spec (f : PArr) (a b : ℤ) :
    SameOutside f (breakPatternsF f a b) a b ∧
      PermOn f (breakPatternsF f a b) a b := by
  simp only [breakPatternsF]
  by_cases h8 : b - a ≥ 8
  · rw [if_pos h8]
    have htd : Int.tdiv (b - a) 4 = (b - a) / 4 :=
      Int.tdiv_eq_ediv (by omega) (by norm_num)
    rw [htd]
    have hlen : 1 ≤ (b - a).toNat := by omega
    have ho1 := bpOffset_lt (xorshiftNext (b - a).toNat) (b - a).toNat hlen
    have ho2 := bpOffset_lt (xorshiftNext (xorshiftNext (b - a).toNat))
      (b - a).toNat hlen
    have ho3 := bpOffset_lt
      (xorshiftNext (xorshiftNext (xorshiftNext (b - a).toNat)))
      (b - a).toNat hlen
    set o1 := if xorshiftNext (b - a).toNat &&& (2 ^ bitsLen (b - a).toNat - 1)
        ≥ (b - a).toNat
      then (xorshiftNext (b - a).toNat &&& (2 ^ bitsLen (b - a).toNat - 1))
        - (b - a).toNat
      else xorshiftNext (b - a).toNat &&& (2 ^ bitsLen (b - a).toNat - 1)
      with ho1def
    set o2 := if xorshiftNext (xorshiftNext (b - a).toNat) &&&
        (2 ^ bitsLen (b - a).toNat - 1) ≥ (b - a).toNat
      then (xorshiftNext (xorshiftNext (b - a).toNat) &&&
        (2 ^ bitsLen (b - a).toNat - 1)) - (b - a).toNat
      else xorshiftNext (xorshiftNext (b - a).toNat) &&&
        (2 ^ bitsLen (b - a).toNat - 1)
      with ho2def
    set o3 := if xorshiftNext (xorshiftNext (xorshiftNext (b - a).toNat)) &&&
        (2 ^ bitsLen (b - a).toNat - 1) ≥ (b - a).toNat
      then (xorshiftNext (xorshiftNext (xorshiftNext (b - a).toNat)) &&&
        (2 ^ bitsLen (b - a).toNat - 1)) - (b - a).toNat
      else xorshiftNext (xorshiftNext (xorshiftNext (b - a).toNat)) &&&
        (2 ^ bitsLen (b - a).toNat - 1)
      with ho3def
    have hd2 : 2 ≤ (b - a) / 4 := by omega
    have hd4 : 4 * ((b - a) / 4) ≤ b - a := by omega
    set idx := a + (b - a) / 4 * 2 - 1 with hidx
    have hs1 := swapF_sameOutside f
      (show a ≤ idx - 1 by omega) (show idx - 1 < b by omega)
      (show a ≤ a + (o1 : ℤ) by omega) (show a + (o1 : ℤ) < b by omega)
    have hp1 := swapF_permOn f
      (show a ≤ idx - 1 by omega) (show idx - 1 < b by omega)
      (show a ≤ a + (o1 : ℤ) by omega) (show a + (o1 : ℤ) < b by omega)
    set f1 := swapF f (idx - 1) (a + (o1 : ℤ)) with hf1
    have hs2 := swapF_sameOutside f1
      (show a ≤ idx by omega) (show idx < b by omega)
      (show a ≤ a + (o2 : ℤ) by omega) (show a + (o2 : ℤ) < b by omega)
    have hp2 := swapF_permOn f1
      (show a ≤ idx by omega) (show idx < b by omega)
      (show a ≤ a + (o2 : ℤ) by omega) (show a + (o2 : ℤ) < b by omega)
    set f2 := swapF f1 idx (a + (o2 : ℤ)) with hf2
    have hs3 := swapF_sameOutside f2
      (show a ≤ idx + 1 by omega) (show idx + 1 < b by omega)
      (show a ≤ a + (o3 : ℤ) by omega) (show a + (o3 : ℤ) < b by omega)
    have hp3 := swapF_permOn f2
      (show a ≤ idx + 1 by omega) (show idx + 1 < b by omega)
      (show a ≤ a + (o3 : ℤ) by omega) (show a + (o3 : ℤ) < b by omega)
    exact ⟨hs1.comp (hs2.comp hs3), hp1.pcomp (hp2.pcomp hp3)⟩
  · rw [if_neg h8]
    exact ⟨SameOutside.rfl _ _ _, PermOn.prfl _ _ _⟩

/-! ## partialInsertionSort -/

theorem pisScan_spec (f : PArr) :
    ∀ (fuel : ℕ) (i : ℤ),
      i ≤ pisScan f i fuel ∧ pisScan f i fuel ≤ i + fuel ∧
        (∀ k : ℤ, i ≤ k → k < pisScan f i fuel →
          lessF f k (k - 1) = false) ∧
        (pisScan f i fuel < i + fuel →
          lessF f (pisScan f i fuel) (pisScan f i fuel - 1) = true) := by
  intro fuel
  induction fuel with
  | zero =>
    intro i
    rw [pisScan]
    exact ⟨le_refl _, by omega, fun k hk1 hk2 => absurd hk1 (by omega),
      fun h => absurd h (by omega)⟩
  | succ fuel ih =>
    intro i
    rw [pisScan]
    by_cases hc : lessF f i (i - 1) = true
    · rw [if_neg (by simp [hc])]
      exact ⟨le_refl _, by omega, fun k hk1 hk2 => absurd hk1 (by omega),
        fun _ => hc⟩
    · simp only [Bool.not_eq_true] at hc
      rw [if_pos (by simp [hc])]
      obtain ⟨ih1, ih2, ih3, ih4⟩ := ih (i + 1)
      refine ⟨by omega, by omega, fun k hk1 hk2 => ?_, fun h => ih4 (by omega)⟩
      by_cases hki : k = i
      · rw [hki]; exact hc
      · exact ih3 k (by omega) hk2

theorem shiftLeftLoop_spec (a b : ℤ) :
    ∀ (fuel : ℕ) (f : PArr) (j : ℤ), j.toNat = fuel → 0 ≤ a → a ≤ j → j < b →
      LBP f a b → AdjSorted f a j →
      SameOutside f (shiftLeftLoop f j fuel) a (j + 1) ∧
        PermOn f (shiftLeftLoop f j fuel) a (j + 1) ∧
        AdjSorted (shiftLeftLoop f j fuel) a (j + 1) ∧
        (∀ B : GoTime, (∀ k : ℤ, a ≤ k → k ≤ j → (f k).Timestamp ≤ B) →
          ∀ k : ℤ, a ≤ k → k ≤ j →
            ((shiftLeftLoop f j fuel) k).Timestamp ≤ B) := by
  intro fuel
  induction fuel with
  | zero =>
    intro f j hfuel h0a haj hjb hLB hAdj
    rw [shiftLeftLoop]
    refine ⟨SameOutside.rfl _ _ _, PermOn.prfl _ _ _, ?_, fun B hB => hB⟩
    intro k hk1 hk2
    have hj0 : j = a := by omega
    exact absurd hk1 (by omega)
  | succ fuel ih =>
    intro f j hfuel h0a haj hjb hLB hAdj
    have hj1 : 1 ≤ j := by omega
    rw [shiftLeftLoop]
    by_cases hc : lessF f j (j - 1) = true
    · rw [if_pos hc]
      rw [lessF, decide_eq_true_eq] at hc
      have hja : a < j := by
        by_contra hja
        have hjea : j = a := by omega
        rw [hjea] at hc
        exact absurd (lt_of_le_of_lt (hLB a (le_refl a) (by omega) (by omega))
          hc) (lt_irrefl _)
      set f' := swapF f j (j - 1) with hf'
      have hLB' : LBP f' a b :=
        LBP_swap hLB (by omega) (by omega) (by omega) (by omega)
      have hAdj' : AdjSorted f' a (j - 1) := by
        intro k hk1 hk2
        rw [hf', swapF_other f j (j - 1) (k - 1) (by omega) (by omega),
          swapF_other f j (j - 1) k (by omega) (by omega)]
        exact hAdj k hk1 (by omega)
      obtain ⟨ro, rp, rAdj, rB⟩ := ih f' (j - 1) (by omega) h0a (by omega)
        (by omega) hLB' hAdj'
      have hsw1 : SameOutside f f' a (j + 1) :=
        swapF_sameOutside f (by omega) (by omega) (by omega) (by omega)
      have hsw2 : PermOn f f' a (j + 1) :=
        swapF_permOn f (by omega) (by omega) (by omega) (by omega)
      have hgj : shiftLeftLoop f' (j - 1) fuel j = f (j - 1) := by
        rw [ro j (by omega), hf', swapF_left]
      have hsorted : SortedOn f a j := hAdj.sortedOn
      have hbnd : ∀ k : ℤ, a ≤ k → k ≤ j - 1 →
          (f' k).Timestamp ≤ (f (j - 1)).Timestamp := by
        intro k hk1 hk2
        by_cases hkj : k = j - 1
        · rw [hkj, hf', swapF_right f j (j - 1) (by omega)]
          exact le_of_lt hc
        · rw [hf', swapF_other f j (j - 1) k (by omega) hkj]
          exact hsorted k (j - 1) hk1 (by omega) (by omega)
      refine ⟨hsw1.comp (ro.widen (le_refl a) (by omega)),
        hsw2.pcomp (rp.pwiden ro (le_refl a) (by omega) (by omega)), ?_, ?_⟩
      · intro k hk1 hk2
        by_cases hkj : k = j
        · rw [hkj, hgj]
          exact rB (f (j - 1)).Timestamp hbnd (j - 1) (by omega) (by omega)
        · exact rAdj k hk1 (by omega)
      · intro B hB k hk1 hk2
        by_cases hkj : k = j
        · rw [hkj, hgj]
          exact hB (j - 1) (by omega) (by omega)
        · refine rB B ?_ k hk1 (by omega)
          intro m hm1 hm2
          by_cases hmj : m = j - 1
          · rw [hmj, hf', swapF_right f j (j - 1) (by omega)]
            exact hB j (by omega) (le_refl j)
          · rw [hf', swapF_other f j (j - 1) m (by omega) hmj]
            exact hB m hm1 (by omega)
    · rw [if_neg hc]
      simp only [lessF, decide_eq_true_eq, not_lt] at hc
      refine ⟨SameOutside.rfl _ _ _, PermOn.prfl _ _ _, ?_, fun B hB => hB⟩
      intro k hk1 hk2
      by_cases hkj : k = j
      · rw [hkj]
        exact hc
      · exact hAdj k hk1 (by omega)

theorem shiftRightLoop_spec (b : ℤ) :
    ∀ (fuel : ℕ) (f : PArr) (j : ℤ), (b - j).toNat = fuel →
      SameOutside f (shiftRightLoop f j fuel) (j - 1) b ∧
        PermOn f (shiftRightLoop f j fuel) (j - 1) b := by
  intro fuel
  induction fuel with
  | zero =>
    intro f j hfuel
    rw [shiftRightLoop]
    exact ⟨SameOutside.rfl _ _ _, PermOn.prfl _ _ _⟩
  | succ fuel ih =>
    intro f j hfuel
    have hjb : j < b := by omega
    rw [shiftRightLoop]
    by_cases hc : lessF f j (j - 1) = true
    · rw [if_pos hc]
      obtain ⟨ro, rp⟩ := ih (swapF f j (j - 1)) (j + 1) (by omega)
      have hsw1 : SameOutside f (swapF f j (j - 1)) (j - 1) b :=
        swapF_sameOutside f (by omega) (by omega) (by omega) (by omega)
      have hsw2 : PermOn f (swapF f j (j - 1)) (j - 1) b :=
        swapF_permOn f (by omega) (by omega) (by omega) (by omega)
      exact ⟨hsw1.comp (ro.widen (by omega) (by omega)),
        hsw2.pcomp (rp.pwiden ro (by omega) (by omega) (by omega))⟩
    · rw [if_neg hc]
      exact ⟨SameOutside.rfl _ _ _, PermOn.prfl _ _ _⟩

theorem pisSteps_spec (a b : ℤ) :
    ∀ (steps : ℕ) (f : PArr) (i : ℤ), 0 ≤ a → a < i → i ≤ b →
      LBP f a b → AdjSorted f a i →
      SameOutside f (pisSteps f a b i steps).1 a b ∧
        PermOn f (pisSteps f a b i steps).1 a b ∧
        ((pisSteps f a b i steps).2 = true →
          SortedOn (pisSteps f a b i steps).1 a b) := by
  intro steps
  induction steps with
  | zero =>
    intro f i h0a hai hib hLB hAdj
    rw [pisSteps]
    exact ⟨SameOutside.rfl _ _ _, PermOn.prfl _ _ _,
      fun h => absurd h (by simp)⟩
  | succ steps ih =>
    intro f i h0a hai hib hLB hAdj
    simp only [pisSteps]
    obtain ⟨sc1, sc2, sc3, sc4⟩ := pisScan_spec f ((b - i).toNat) i
    set i' := pisScan f i ((b - i).toNat) with hi'def
    have hi'b : i' ≤ b := by omega
    have hAdj' : AdjSorted f a i' := by
      intro k hk1 hk2
      by_cases hki : k < i
      · exact hAdj k hk1 hki
      · have := sc3 k (by omega) hk2
        rw [lessF] at this
        simp only [decide_eq_false_iff_not, not_lt] at this
        exact this
    by_cases hib' : i' = b
    · rw [if_pos hib']
      refine ⟨SameOutside.rfl _ _ _, PermOn.prfl _ _ _, fun _ => ?_⟩
      have : AdjSorted f a b := by rw [← hib']; exact hAdj'
      exact this.sortedOn
    · rw [if_neg hib']
      by_cases h50 : b - a < 50
      · rw [if_pos h50]
        exact ⟨SameOutside.rfl _ _ _, PermOn.prfl _ _ _,
          fun h => absurd h (by simp)⟩
      · rw [if_neg h50]
        have hi'lt : i' < b := by omega
        have hbad : lessF f i' (i' - 1) = true := sc4 (by omega)
        rw [lessF, decide_eq_true_eq] at hbad
        set f1 := swapF f i' (i' - 1) with hf1
        have hs1 : SameOutside f f1 a b :=
          swapF_sameOutside f (by omega) (by omega) (by omega) (by omega)
        have hp1 : PermOn f f1 a b :=
          swapF_permOn f (by omega) (by omega) (by omega) (by omega)
        have hLB1 : LBP f1 a b :=
          LBP_swap hLB (by omega) (by omega) (by omega) (by omega)
        have hAdj1 : AdjSorted f1 a (i' - 1) := by
          intro k hk1 hk2
          rw [hf1, swapF_other f i' (i' - 1) (k - 1) (by omega) (by omega),
            swapF_other f i' (i' - 1) k (by omega) (by omega)]
          exact hAdj' k hk1 (by omega)
        have hstep2 :
            SameOutside f1
              (if i' - a ≥ 2 then shiftLeftLoop f1 (i' - 1) (i' - 1).toNat
                else f1) a b ∧
            PermOn f1
              (if i' - a ≥ 2 then shiftLeftLoop f1 (i' - 1) (i' - 1).toNat
                else f1) a b ∧
            AdjSorted
              (if i' - a ≥ 2 then shiftLeftLoop f1 (i' - 1) (i' - 1).toNat
                else f1) a i' := by
          by_cases h2 : i' - a ≥ 2
          · rw [if_pos h2]
            obtain ⟨ro, rp, rAdj, _⟩ := shiftLeftLoop_spec a b ((i' - 1).toNat)
              f1 (i' - 1) rfl h0a (by omega) (by omega) hLB1 hAdj1
            have he : i' - 1 + 1 = i' := by omega
            rw [he] at ro rp rAdj
            exact ⟨ro.widen (le_refl a) (by omega),
              rp.pwiden ro (le_refl a) (by omega) (by omega), rAdj⟩
          · rw [if_neg h2]
            have hia : i' = a + 1 := by omega
            refine ⟨SameOutside.rfl _ _ _, PermOn.prfl _ _ _, ?_⟩
            intro k hk1 hk2
            exact absurd hk1 (by omega)
        obtain ⟨hs2, hp2, hAdj2⟩ := hstep2
        set f2 := if i' - a ≥ 2 then shiftLeftLoop f1 (i' - 1) (i' - 1).toNat
          else f1 with hf2
        have hstep3 :
            SameOutside f2
              (if b - i' ≥ 2 then
                shiftRightLoop f2 (i' + 1) (b - (i' + 1)).toNat else f2) i' b ∧
            PermOn f2
              (if b - i' ≥ 2 then
                shiftRightLoop f2 (i' + 1) (b - (i' + 1)).toNat else f2)
              i' b := by
          by_cases h2 : b - i' ≥ 2
          · rw [if_pos h2]
            obtain ⟨ro, rp⟩ := shiftRightLoop_spec b ((b - (i' + 1)).toNat) f2
              (i' + 1) rfl
            have he : i' + 1 - 1 = i' := by omega
            rw [he] at ro rp
            exact ⟨ro, rp⟩
          · rw [if_neg h2]
            exact ⟨SameOutside.rfl _ _ _, PermOn.prfl _ _ _⟩
        obtain ⟨hs3, hp3⟩ := hstep3
        set f3 := if b - i' ≥ 2 then
          shiftRightLoop f2 (i' + 1) (b - (i' + 1)).toNat else f2 with hf3
        have hAdj3 : AdjSorted f3 a i' := by
          intro k hk1 hk2
          rw [hs3 (k - 1) (by omega), hs3 k (by omega)]
          exact hAdj2 k hk1 hk2
        have hLB3 : LBP f3 a b :=
          LBP_of_perm (LBP_of_perm hLB1 hs2 hp2)
            (hs3.widen (by omega) (le_refl b))
            (hp3.pwiden hs3 (by omega) (le_refl b) (by omega))
        obtain ⟨ro, rp, rs⟩ := ih f3 i' h0a (by omega) (by omega) hLB3 hAdj3
        exact ⟨hs1.comp (hs2.comp
            ((hs3.widen (by omega) (le_refl b)).comp ro)),
          hp1.pcomp (hp2.pcomp
            ((hp3.pwiden hs3 (by omega) (le_refl b) (by omega)).pcomp rp)), rs⟩

theorem partialInsertionSortF_spec (f : PArr) (a b : ℤ)
    (h0a : 0 ≤ a) (hab : a < b) (hLB : LBP f a b) :
    SameOutside f (partialInsertionSortF f a b).1 a b ∧
      PermOn f (partialInsertionSortF f a b).1 a b ∧
      ((partialInsertionSortF f a b).2 = true →
        SortedOn (partialInsertionSortF f a b).1 a b) := by
  rw [partialInsertionSortF]
  exact pisSteps_spec a b 5 f (a + 1) h0a (by omega) (by omega) hLB
    (fun k hk1 hk2 => absurd hk1 (by omega))

/-! ## heapSort -/

/-- Max-heap property at a single root `k` of the implicit tree laid over
`[first, first + hi)`. -/
def HeapAt (f : PArr) (hi first k : ℤ) : Prop :=
  ∀ c : ℤ, (c = 2 * k + 1 ∨ c = 2 * k + 2) → c < hi →
    (f (first + c)).Timestamp ≤ (f (first + k)).Timestamp

/-- `DescN n a k`: `k` is reached from `a` by `n` child steps of the implicit
binary heap. -/
def DescN : ℕ → ℤ → ℤ → Prop
  | 0 => fun a k => k = a
  | n + 1 => fun a k => ∃ p : ℤ, DescN n a p ∧ (k = 2 * p + 1 ∨ k = 2 * p + 2)

theorem DescN_ge : ∀ (n : ℕ) (a k : ℤ), 0 ≤ a → DescN n a k → a ≤ k := by
  intro n
  induction n with
  | zero =>
    intro a k ha h
    rw [DescN] at h
    omega
  | succ n ih =>
    intro a k ha h
    rw [DescN] at h
    obtain ⟨p, hp1, hp2⟩ := h
    have := ih a p ha hp1
    omega

theorem DescN_chainBound (f : PArr) (hi first r0 : ℤ) (h0 : 0 ≤ r0)
    (hpre : ∀ m : ℤ, r0 ≤ m → HeapAt f hi first m) :
    ∀ (n : ℕ) (k : ℤ), DescN n r0 k → k < hi →
      (f (first + k)).Timestamp ≤ (f (first + r0)).Timestamp := by
  intro n
  induction n with
  | zero =>
    intro k h hk
    rw [DescN] at h
    rw [h]
  | succ n ih =>
    intro k h hk
    rw [DescN] at h
    obtain ⟨p, hp1, hp2⟩ := h
    have hp0 : r0 ≤ p := DescN_ge n r0 p h0 hp1
    have hpk : p < k := by omega
    calc (f (first + k)).Timestamp
        ≤ (f (first + p)).Timestamp := hpre p hp0 k hp2 hk
      _ ≤ (f (first + r0)).Timestamp := ih p hp1 (by omega)

theorem frameToSameOutside {f g : PArr} {first root hi : ℤ}
    (h0 : 0 ≤ root) (hrh : root < hi)
    (h : ∀ p : ℤ, p ≠ root → (p < 2 * root + 1 ∨ hi ≤ p) →
      g (first + p) = f (first + p)) :
    SameOutside f g (first + root) (first + hi) := by
  intro k hk
  have he : first + (k - first) = k := by omega
  rw [← he]
  exact h (k - first) (by omega) (by omega)

theorem siftLoop_spec (hi first : ℤ) :
    ∀ (fuel : ℕ) (f : PArr) (root : ℤ), hi - root ≤ (fuel : ℤ) →
      0 ≤ root → root < hi →
      (∀ m : ℤ, root < m → HeapAt f hi first m) →
      (∀ p : ℤ, p ≠ root → (p < 2 * root + 1 ∨ hi ≤ p) →
        (siftLoop f root hi first fuel) (first + p) = f (first + p)) ∧
        PermOn f (siftLoop f root hi first fuel) (first + root) (first + hi) ∧
        (∀ m : ℤ, root ≤ m →
          HeapAt (siftLoop f root hi first fuel) hi first m) ∧
        (∃ (n : ℕ) (m : ℤ), DescN n root m ∧ m < hi ∧
          (siftLoop f root hi first fuel) (first + root) = f (first + m)) := by
  intro fuel
  induction fuel with
  | zero =>
    intro f root hfuel h0 hrh hpre
    exact absurd hfuel (by omega)
  | succ fuel ih =>
    intro f root hfuel h0 hrh hpre
    simp only [siftLoop]
    by_cases hch : 2 * root + 1 < hi
    · rw [if_pos hch]
      set ch := if 2 * root + 1 + 1 < hi ∧
          lessF f (first + (2 * root + 1)) (first + (2 * root + 1) + 1) = true
        then 2 * root + 1 + 1 else 2 * root + 1 with hchdef
      have hprops : (ch = 2 * root + 1 ∨ ch = 2 * root + 2) ∧ ch < hi ∧
          ∀ c : ℤ, (c = 2 * root + 1 ∨ c = 2 * root + 2) → c < hi →
            (f (first + c)).Timestamp ≤ (f (first + ch)).Timestamp := by
        rw [hchdef]
        split_ifs with hcc
        · obtain ⟨hcc1, hcc2⟩ := hcc
          rw [lessF, decide_eq_true_eq] at hcc2
          have hE : first + (2 * root + 1) + 1 = first + (2 * root + 1 + 1) := by
            ring
          rw [hE] at hcc2
          refine ⟨Or.inr (by omega), by omega, ?_⟩
          intro c hc1 hc2
          rcases hc1 with h | h
          · rw [h]
            exact le_of_lt hcc2
          · have h' : c = 2 * root + 1 + 1 := by omega
            rw [h']
        · push_neg at hcc
          refine ⟨Or.inl rfl, hch, ?_⟩
          intro c hc1 hc2
          rcases hc1 with h | h
          · rw [h]
          · have hcc2 := hcc (by omega)
            rw [lessF] at hcc2
            simp only [ne_eq, decide_eq_true_eq, not_lt] at hcc2
            have hE : first + (2 * root + 1) + 1 = first + (2 * root + 2) := by
              ring
            rw [hE] at hcc2
            rw [h]
            exact hcc2
      obtain ⟨hchm, hchhi, hmax⟩ := hprops
      have hrc : root < ch := by omega
      by_cases hless : lessF f (first + root) (first + ch) = true
      · rw [if_neg (by simp [hless])]
        rw [lessF, decide_eq_true_eq] at hless
        set f' := swapF f (first + root) (first + ch) with hf'
        have hne : first + ch ≠ first + root := by omega
        have hfr : f' (first + root) = f (first + ch) := by
          rw [hf', swapF_left]
        have hfc : f' (first + ch) = f (first + root) := by
          rw [hf', swapF_right f (first + root) (first + ch) hne]
        have hfo : ∀ q : ℤ, q ≠ root → q ≠ ch → f' (first + q) = f (first + q) := by
          intro q h1 h2
          rw [hf', swapF_other f (first + root) (first + ch) (first + q)
            (by omega) (by omega)]
        have hpre' : ∀ m : ℤ, ch < m → HeapAt f' hi first m := by
          intro m hm c hc1 hc2
          rw [hfo m (by omega) (by omega), hfo c (by omega) (by omega)]
          exact hpre m (by omega) c hc1 hc2
        obtain ⟨S1, S2, S3, S4⟩ := ih f' ch (by omega) (by omega) hchhi hpre'
        have hout' : SameOutside f' (siftLoop f' ch hi first fuel)
            (first + ch) (first + hi) :=
          frameToSameOutside (by omega) hchhi S1
        have hgroot : (siftLoop f' ch hi first fuel) (first + root) =
            f (first + ch) := by
          rw [S1 root (by omega) (by omega), hfr]
        refine ⟨?_, ?_, ?_, ?_⟩
        · intro p hp1 hp2
          rw [S1 p (by omega) (by omega), hfo p hp1 (by omega)]
        · have hperm : PermOn f f' (first + root) (first + hi) :=
            swapF_permOn f (by omega) (by omega) (by omega) (by omega)
          exact hperm.pcomp ((S2.pwiden hout' (by omega) (by omega) (by omega)))
        · intro m hm
          by_cases hm1 : ch ≤ m
          · exact S3 m hm1
          · by_cases hm2 : m = root
            · subst hm2
              intro c hc1 hc2
              rw [hgroot]
              by_cases hcch : c = ch
              · subst hcch
                obtain ⟨n, m', hd1, hd2, hd3⟩ := S4
                rw [hd3]
                by_cases hm'c : m' = ch
                · rw [hm'c, hfc]
                  exact le_of_lt hless
                · have hm'g : ch ≤ m' := DescN_ge n ch m' (by omega) hd1
                  rw [hfo m' (by omega) (by omega)]
                  exact DescN_chainBound f hi first ch (by omega)
                    (fun q hq => hpre q (by omega)) n m' hd1 hd2
              · have hno : (siftLoop f' ch hi first fuel) (first + c) =
                    f (first + c) := by
                  rw [S1 c (by omega) (by omega), hfo c (by omega) (by omega)]
                rw [hno]
                exact hmax c hc1 hc2
            · intro c hc1 hc2
              have hmm : root < m ∧ m < ch := by omega
              have hmu : (siftLoop f' ch hi first fuel) (first + m) =
                  f (first + m) := by
                rw [S1 m (by omega) (by omega), hfo m (by omega) (by omega)]
              have hcu : (siftLoop f' ch hi first fuel) (first + c) =
                  f (first + c) := by
                rw [S1 c (by omega) (by omega), hfo c (by omega) (by omega)]
              rw [hmu, hcu]
              exact hpre m (by omega) c hc1 hc2
        · refine ⟨1, ch, ⟨root, ?_, hchm⟩, hchhi, hgroot⟩
          rw [DescN]
      · rw [if_pos (by simp [hless])]
        rw [lessF] at hless
        simp only [ne_eq, decide_eq_true_eq, not_lt] at hless
        refine ⟨fun p hp1 hp2 => rfl, PermOn.prfl _ _ _, ?_, 0, root, ?_, hrh,
          rfl⟩
        · intro m hm
          by_cases hm1 : m = root
          · subst hm1
            intro c hc1 hc2
            exact le_trans (hmax c hc1 hc2) hless
          · exact hpre m (by omega)
        · rw [DescN]
    · rw [if_neg hch]
      refine ⟨fun p hp1 hp2 => rfl, PermOn.prfl _ _ _, ?_, 0, root, ?_, hrh, rfl⟩
      · intro m hm
        by_cases hm1 : m = root
        · subst hm1
          intro c hc1 hc2
          exact absurd hc2 (by omega)
        · exact hpre m (by omega)
      · rw [DescN]

theorem heap_root_max (f : PArr) (hi first : ℤ)
    (hheap : ∀ m : ℤ, 0 ≤ m → HeapAt f hi first m) :
    ∀ k : ℤ, 0 ≤ k → k < hi →
      (f (first + k)).Timestamp ≤ (f first).Timestamp := by
  have H : ∀ (n : ℕ) (k : ℤ), k.toNat = n → 0 ≤ k → k < hi →
      (f (first + k)).Timestamp ≤ (f first).Timestamp := by
    intro n
    induction n using Nat.strong_induction_on with
    | _ n ihn =>
      intro k hkn hk0 hkhi
      by_cases hk : k = 0
      · rw [hk, add_zero]
      · set p := (k - 1) / 2 with hp
        have hpk : k = 2 * p + 1 ∨ k = 2 * p + 2 := by omega
        have hp0 : 0 ≤ p := by omega
        have hplt : p < k := by omega
        calc (f (first + k)).Timestamp
            ≤ (f (first + p)).Timestamp := hheap p hp0 k hpk hkhi
          _ ≤ (f first).Timestamp :=
              ihn p.toNat (by omega) p rfl hp0 (by omega)
  exact fun k hk0 hkhi => H k.toNat k rfl hk0 hkhi

theorem heapBuild_spec (hi first : ℤ) :
    ∀ (n : ℕ) (f : PArr), (n : ℤ) ≤ hi →
      (∀ m : ℤ, (n : ℤ) ≤ m → HeapAt f hi first m) →
      SameOutside f (heapBuild f hi first n) first (first + hi) ∧
        PermOn f (heapBuild f hi first n) first (first + hi) ∧
        (∀ m : ℤ, 0 ≤ m → HeapAt (heapBuild f hi first n) hi first m) := by
  intro n
  induction n with
  | zero =>
    intro f hn hpre
    rw [heapBuild]
    exact ⟨SameOutside.rfl _ _ _, PermOn.prfl _ _ _,
      fun m hm => hpre m (by omega)⟩
  | succ n ih =>
    intro f hn hpre
    rw [heapBuild]
    have hnh : (n : ℤ) < hi := by
      push_cast at hn
      omega
    obtain ⟨S1, S2, S3, S4⟩ := siftLoop_spec hi first ((hi - (n : ℤ)).toNat) f
      (n : ℤ) (by omega) (by omega) hnh
      (fun m hm => hpre m (by push_cast; omega))
    rw [siftDownF]
    obtain ⟨ro, rp, rh⟩ := ih (siftLoop f (n : ℤ) hi first (hi - (n : ℤ)).toNat)
      (by omega) S3
    have hso : SameOutside f (siftLoop f (n : ℤ) hi first (hi - (n : ℤ)).toNat)
        first (first + hi) := by
      intro k hk
      have he : first + (k - first) = k := by omega
      rw [← he]
      exact S1 (k - first) (by omega) (by omega)
    have hperm : PermOn f (siftLoop f (n : ℤ) hi first (hi - (n : ℤ)).toNat)
        first (first + hi) := by
      refine S2.pwiden ?_ (by omega) (by omega) (by omega)
      exact frameToSameOutside (by omega) hnh S1
    exact ⟨hso.comp ro, hperm.pcomp rp, rh⟩

theorem heapPop_spec (first : ℤ) :
    ∀ (v : ℕ) (f : PArr),
      (∀ m : ℤ, 0 ≤ m → HeapAt f ((v : ℤ) + 1) first m) →
      SameOutside f (heapPop f first v) first (first + ((v : ℤ) + 1)) ∧
        PermOn f (heapPop f first v) first (first + ((v : ℤ) + 1)) ∧
        SortedOn (heapPop f first v) first (first + ((v : ℤ) + 1)) := by
  intro v
  induction v with
  | zero =>
    intro f hheap
    rw [heapPop]
    refine ⟨SameOutside.rfl _ _ _, PermOn.prfl _ _ _, ?_⟩
    intro i j hi hij hj
    have hij' : i = j := by omega
    rw [hij']
  | succ v ih =>
    intro f hheap
    rw [heapPop]
    have hc1 : ((v + 1 : ℕ) : ℤ) = (v : ℤ) + 1 := by push_cast; ring
    rw [hc1] at hheap ⊢
    set w := (v : ℤ) + 1 with hw
    have hw1 : 1 ≤ w := by omega
    set f1 := swapF f first (first + w) with hf1
    have hpre1 : ∀ m : ℤ, 0 < m → HeapAt f1 w first m := by
      intro m hm c hc1' hc2
      have hmw : m < w := by omega
      rw [hf1, swapF_other f first (first + w) (first + c) (by omega) (by omega),
        swapF_other f first (first + w) (first + m) (by omega) (by omega)]
      exact hheap m (by omega) c hc1' (by omega)
    obtain ⟨S1, S2, S3, S4⟩ := siftLoop_spec w first ((w - 0).toNat) f1 0
      (by omega) (by omega) (by omega) (fun m hm => hpre1 m hm)
    rw [siftDownF]
    set f2 := siftLoop f1 0 w first ((w - 0).toNat) with hf2
    obtain ⟨Fo, Fp, Fs⟩ := ih f2 (fun m hm => S3 m hm)
    set g := heapPop f2 first v with hg
    have hg2 : ∀ k : ℤ, k < first ∨ first + w ≤ k → f2 k = f1 k := by
      intro k hk
      have he : first + (k - first) = k := by
        omega
      rw [← he]
      exact S1 (k - first) (by omega) (by omega)
    have hgw : g (first + w) = f first := by
      rw [Fo (first + w) (by omega), hg2 (first + w) (by omega), hf1,
        swapF_right f first (first + w) (by omega)]
    have hrm := heap_root_max f (w + 1) first hheap
    have hC1 : ∀ q : ℤ, first ≤ q → q < first + w →
        (f1 q).Timestamp ≤ (f first).Timestamp := by
      intro q hq1 hq2
      by_cases hqf : q = first
      · rw [hqf, hf1, swapF_left]
        exact hrm w (by omega) (by omega)
      · rw [hf1, swapF_other f first (first + w) q (by omega) (by omega)]
        have he : first + (q - first) = q := by omega
        rw [← he]
        exact hrm (q - first) (by omega) (by omega)
    have hS2' : PermOn f1 f2 first (first + w) := by
      have h := S2
      rwa [add_zero] at h
    have hC2 : ∀ q : ℤ, first ≤ q → q < first + w →
        (f2 q).Timestamp ≤ (f first).Timestamp :=
      hS2'.pointwise (fun pt => pt.Timestamp ≤ (f first).Timestamp) hC1
    have hC3 : ∀ q : ℤ, first ≤ q → q < first + w →
        (g q).Timestamp ≤ (f first).Timestamp :=
      Fp.pointwise (fun pt => pt.Timestamp ≤ (f first).Timestamp) hC2
    have hso1 : SameOutside f f1 first (first + (w + 1)) :=
      swapF_sameOutside f (by omega) (by omega) (by omega) (by omega)
    have hsp1 : PermOn f f1 first (first + (w + 1)) :=
      swapF_permOn f (by omega) (by omega) (by omega) (by omega)
    have hso2 : SameOutside f1 f2 first (first + (w + 1)) := by
      intro k hk
      exact hg2 k (by omega)
    have hsp2 : PermOn f1 f2 first (first + (w + 1)) :=
      hS2'.pwiden (fun k hk => hg2 k (by omega)) (le_refl first) (by omega)
        (by omega)
    have hso3 : SameOutside f2 g first (first + (w + 1)) := by
      intro k hk
      exact Fo k (by omega)
    have hsp3 : PermOn f2 g first (first + (w + 1)) :=
      Fp.pwiden Fo (le_refl first) (by omega) (by omega)
    refine ⟨hso1.comp (hso2.comp hso3), hsp1.pcomp (hsp2.pcomp hsp3), ?_⟩
    intro u u' hu huu hu'
    by_cases hlast : u' < first + w
    · exact Fs u u' hu huu hlast
    · have hu'w : u' = first + w := by omega
      by_cases huw : u = u'
      · rw [huw]
      · rw [hu'w, hgw]
        exact hC3 u hu (by omega)

theorem heapSortF_spec (f : PArr) (a b : ℤ) (hab : a < b) :
    SameOutside f (heapSortF f a b) a b ∧ PermOn f (heapSortF f a b) a b ∧
      SortedOn (heapSortF f a b) a b := by
  simp only [heapSortF]
  have htd : Int.tdiv (b - a - 1) 2 = (b - a - 1) / 2 :=
    Int.tdiv_eq_ediv (by omega) (by norm_num)
  rw [htd]
  set n := ((b - a - 1) / 2).toNat + 1 with hn
  have hnz : (n : ℤ) = (b - a - 1) / 2 + 1 := by
    rw [hn]
    push_cast
    omega
  obtain ⟨Bo, Bp, Bh⟩ := heapBuild_spec (b - a) a n f (by omega)
    (fun m hm c hc1 hc2 => absurd hc2 (by omega))
  set g1 := heapBuild f (b - a) a n with hg1
  have hOK : a + (b - a) = b := by ring
  rw [hOK] at Bo Bp
  have hv : (((b - a - 1).toNat : ℤ)) + 1 = b - a := by omega
  obtain ⟨Po, Pp, Ps⟩ := heapPop_spec a ((b - a - 1).toNat) g1
    (fun m hm => by rw [hv]; exact Bh m hm)
  have hv2 : a + ((((b - a - 1).toNat : ℤ)) + 1) = b := by omega
  rw [hv2] at Po Pp Ps
  exact ⟨Bo.comp Po, Bp.pcomp Pp, Ps⟩

/-! ## pdqsort glue -/

theorem pdqsortAux_spec :
    ∀ (fuel : ℕ) (f : PArr) (a b limit : ℤ) (wb wp : Bool),
      b - a ≤ (fuel : ℤ) → 0 ≤ a → a ≤ b → LBP f a b →
      SameOutside f (pdqsortAux f a b limit wb wp fuel) a b ∧
        PermOn f (pdqsortAux f a b limit wb wp fuel) a b ∧
        SortedOn (pdqsortAux f a b limit wb wp fuel) a b := by
  intro fuel
  induction fuel with
  | zero =>
    intro f a b limit wb wp hfuel h0a hab hLB
    rw [pdqsortAux]
    refine ⟨SameOutside.rfl _ _ _, PermOn.prfl _ _ _, fun i j hi hij hj => ?_⟩
    exact absurd hj (by omega)
  | succ fuel ih =>
    intro f a b limit wb wp hfuel h0a hab hLB
    simp only [pdqsortAux]
    by_cases h12 : b - a ≤ 12
    · rw [if_pos h12]
      exact insertionSortF_spec f a b hab
    · rw [if_neg h12]
      by_cases hlim : limit = 0
      · rw [if_pos hlim]
        exact heapSortF_spec f a b (by omega)
      · rw [if_neg hlim]
        set FL := if wb = false then (breakPatternsF f a b, limit - 1)
          else (f, limit) with hFL
        have st1 : SameOutside f FL.1 a b ∧ PermOn f FL.1 a b := by
          rw [hFL]
          split_ifs with hwb
          · exact ⟨(breakPatternsF_spec f a b).1, (breakPatternsF_spec f a b).2⟩
          · exact ⟨SameOutside.rfl _ _ _, PermOn.prfl _ _ _⟩
        have hLB1 : LBP FL.1 a b := LBP_of_perm hLB st1.1 st1.2
        set PH := choosePivotF FL.1 a b with hPH
        have hpb : a ≤ PH.1 ∧ PH.1 < b := choosePivotF_mem FL.1 a b (by omega)
        set FPH := if PH.2 = SortHint.dec then
            (reverseRangeF FL.1 a b, b - 1 - (PH.1 - a), SortHint.inc)
          else (FL.1, PH.1, PH.2) with hFPH
        have st3 : SameOutside FL.1 FPH.1 a b ∧ PermOn FL.1 FPH.1 a b ∧
            a ≤ FPH.2.1 ∧ FPH.2.1 < b := by
          rw [hFPH]
          split_ifs with hdec
          · obtain ⟨so, po⟩ := reverseRangeF_spec FL.1 a b (by omega)
            exact ⟨so, po, show a ≤ b - 1 - (PH.1 - a) by omega,
              show b - 1 - (PH.1 - a) < b by omega⟩
          · exact ⟨SameOutside.rfl _ _ _, PermOn.prfl _ _ _, hpb.1, hpb.2⟩
        have hLB3 : LBP FPH.1 a b := LBP_of_perm hLB1 st3.1 st3.2.1
        set PIS := if wb = true ∧ wp = true ∧ FPH.2.2 = SortHint.inc then
            partialInsertionSortF FPH.1 a b
          else (FPH.1, false) with hPIS
        have st4 : SameOutside FPH.1 PIS.1 a b ∧ PermOn FPH.1 PIS.1 a b ∧
            (PIS.2 = true → SortedOn PIS.1 a b) := by
          rw [hPIS]
          split_ifs with hw
          · exact partialInsertionSortF_spec FPH.1 a b h0a (by omega) hLB3
          · exact ⟨SameOutside.rfl _ _ _, PermOn.prfl _ _ _,
              fun h => absurd h (by simp)⟩
        have hLB4 : LBP PIS.1 a b := LBP_of_perm hLB3 st4.1 st4.2.1
        have so_f4 : SameOutside f PIS.1 a b :=
          st1.1.comp (st3.1.comp st4.1)
        have po_f4 : PermOn f PIS.1 a b :=
          st1.2.pcomp (st3.2.1.pcomp st4.2.1)
        by_cases hdone : PIS.2 = true
        · rw [if_pos hdone]
          exact ⟨so_f4, po_f4, st4.2.2 hdone⟩
        · rw [if_neg hdone]
          by_cases heq : a > 0 ∧ ¬(lessF PIS.1 (a - 1) FPH.2.1 = true)
          · rw [if_pos heq]
            obtain ⟨ha0, hge⟩ := heq
            rw [lessF] at hge
            simp only [decide_eq_true_eq, not_lt] at hge
            have hALL : ∀ k : ℤ, a ≤ k → k < b →
                (PIS.1 FPH.2.1).Timestamp ≤ (PIS.1 k).Timestamp := by
              intro k hk1 hk2
              exact le_trans hge (hLB4 k hk1 hk2 ha0)
            obtain ⟨Eo, Ep, Em1, Em2, EP4, EP5⟩ :=
              partitionEqualF_spec PIS.1 a b FPH.2.1 (by omega) st3.2.2.1
                st3.2.2.2 hALL
            set FM := partitionEqualF PIS.1 a b FPH.2.1 with hFM
            obtain ⟨Ro, Rp, Rs⟩ := ih FM.1 FM.2 b FL.2 wb wp (by omega)
              (by omega) (by omega)
              (by
                intro k hk1 hk2 hpos
                have h1 : (FM.1 (FM.2 - 1)).Timestamp =
                    (PIS.1 FPH.2.1).Timestamp := EP4 (FM.2 - 1) (by omega)
                  (by omega)
                rw [h1]
                exact le_of_lt (EP5 k hk1 hk2))
            set g := pdqsortAux FM.1 FM.2 b FL.2 wb wp fuel with hg
            have hgleft : ∀ k : ℤ, a ≤ k → k < FM.2 →
                (g k).Timestamp = (PIS.1 FPH.2.1).Timestamp := by
              intro k hk1 hk2
              rw [Ro k (by omega)]
              exact EP4 k hk1 hk2
            have hgright : ∀ k : ℤ, FM.2 ≤ k → k < b →
                (PIS.1 FPH.2.1).Timestamp < (g k).Timestamp :=
              Rp.pointwise
                (fun pt => (PIS.1 FPH.2.1).Timestamp < pt.Timestamp) EP5
            refine ⟨so_f4.comp (Eo.comp (Ro.widen (by omega) (le_refl b))),
              po_f4.pcomp (Ep.pcomp
                (Rp.pwiden Ro (by omega) (le_refl b) (by omega))), ?_⟩
            intro i j hi hij hj
            by_cases hjm : j < FM.2
            · rw [hgleft i hi (by omega), hgleft j (by omega) hjm]
            · by_cases him : FM.2 ≤ i
              · exact Rs i j him hij hj
              · rw [hgleft i hi (by omega)]
                exact le_of_lt (hgright j (by omega) hj)
          · rw [if_neg heq]
            obtain ⟨Po', Pp', Pm1, Pm2, Pmid, PP4, PP5⟩ :=
              partitionF_spec PIS.1 a b FPH.2.1 (by omega) st3.2.2.1 st3.2.2.2
            set FMP := partitionF PIS.1 a b FPH.2.1 with hFMP
            have hLBP' : LBP FMP.1 a b := LBP_of_perm hLB4 Po' Pp'
            by_cases hside : FMP.2.1 - a < b - FMP.2.1
            · rw [if_pos hside]
              obtain ⟨L1o, L1p, L1s⟩ := ih FMP.1 a FMP.2.1 FL.2 true true
                (by omega) h0a (by omega) (LBP_mono hLBP' (by omega))
              set g1 := pdqsortAux FMP.1 a FMP.2.1 FL.2 true true fuel with hg1
              have hmid1 : g1 FMP.2.1 = FMP.1 FMP.2.1 := L1o FMP.2.1 (by omega)
              obtain ⟨L2o, L2p, L2s⟩ := ih g1 (FMP.2.1 + 1) b FL.2
                (decide (min (FMP.2.1 - a) (b - FMP.2.1) ≥
                  Int.tdiv (b - a) 8)) FMP.2.2
                (by omega) (by omega) (by omega)
                (by
                  intro k hk1 hk2 hpos
                  rw [L1o (FMP.2.1 + 1 - 1) (by omega), L1o k (by omega), hFMP]
                  have he : FMP.2.1 + 1 - 1 = FMP.2.1 := by omega
                  rw [he, Pmid]
                  exact PP5 k (by omega) hk2)
              set g2 := pdqsortAux g1 (FMP.2.1 + 1) b FL.2
                (decide (min (FMP.2.1 - a) (b - FMP.2.1) ≥
                  Int.tdiv (b - a) 8)) FMP.2.2 fuel with hg2
              have hgmid : (g2 FMP.2.1).Timestamp =
                  (PIS.1 FPH.2.1).Timestamp := by
                rw [L2o FMP.2.1 (by omega), hmid1]
                exact Pmid
              have hgl : ∀ k : ℤ, a ≤ k → k < FMP.2.1 →
                  (g2 k).Timestamp < (PIS.1 FPH.2.1).Timestamp := by
                intro k hk1 hk2
                rw [L2o k (by omega)]
                exact L1p.pointwise
                  (fun pt => pt.Timestamp < (PIS.1 FPH.2.1).Timestamp)
                  (fun m hm1 hm2 => PP4 m hm1 hm2) k hk1 hk2
              have hgr : ∀ k : ℤ, FMP.2.1 < k → k < b →
                  (PIS.1 FPH.2.1).Timestamp ≤ (g2 k).Timestamp := by
                intro k hk1 hk2
                refine L2p.pointwise
                  (fun pt => (PIS.1 FPH.2.1).Timestamp ≤ pt.Timestamp)
                  ?_ k (by omega) hk2
                intro m hm1 hm2
                rw [L1o m (by omega)]
                exact PP5 m (by omega) hm2
              have hsl : ∀ i j : ℤ, a ≤ i → i ≤ j → j < FMP.2.1 →
                  (g2 i).Timestamp ≤ (g2 j).Timestamp := by
                intro i j hi hij hj
                rw [L2o i (by omega), L2o j (by omega)]
                exact L1s i j hi hij hj
              refine ⟨so_f4.comp (Po'.comp
                  ((L1o.widen (le_refl a) (by omega)).comp
                    (L2o.widen (by omega) (le_refl b)))),
                po_f4.pcomp (Pp'.pcomp
                  ((L1p.pwiden L1o (le_refl a) (by omega) (by omega)).pcomp
                    (L2p.pwiden L2o (by omega) (le_refl b) (by omega)))), ?_⟩
              intro i j hi hij hj
              by_cases hjm : j < FMP.2.1
              · exact hsl i j hi hij hjm
              · by_cases him : FMP.2.1 + 1 ≤ i
                · exact L2s i j him hij hj
                · by_cases hjm2 : j = FMP.2.1
                  · by_cases him2 : i = FMP.2.1
                    · rw [him2, hjm2]
                    · rw [hjm2, hgmid]
                      exact le_of_lt (hgl i hi (by omega))
                  · by_cases him2 : i = FMP.2.1
                    · rw [him2, hgmid]
                      exact hgr j (by omega) hj
                    · exact le_trans (le_of_lt (hgl i hi (by omega)))
                        (hgr j (by omega) hj)
            · rw [if_neg hside]
              obtain ⟨L1o, L1p, L1s⟩ := ih FMP.1 (FMP.2.1 + 1) b FL.2 true true
                (by omega) (by omega) (by omega)
                (by
                  intro k hk1 hk2 hpos
                  have he : FMP.2.1 + 1 - 1 = FMP.2.1 := by omega
                  rw [he, Pmid]
                  exact PP5 k (by omega) hk2)
              set g1 := pdqsortAux FMP.1 (FMP.2.1 + 1) b FL.2 true true fuel
                with hg1
              have hmid1 : g1 FMP.2.1 = FMP.1 FMP.2.1 := L1o FMP.2.1 (by omega)
              obtain ⟨L2o, L2p, L2s⟩ := ih g1 a FMP.2.1 FL.2
                (decide (min (FMP.2.1 - a) (b - FMP.2.1) ≥
                  Int.tdiv (b - a) 8)) FMP.2.2
                (by omega) h0a (by omega)
                (by
                  intro k hk1 hk2 hpos
                  rw [L1o (a - 1) (by omega), L1o k (by omega)]
                  exact hLBP' k hk1 (by omega) hpos)
              set g2 := pdqsortAux g1 a FMP.2.1 FL.2
                (decide (min (FMP.2.1 - a) (b - FMP.2.1) ≥
                  Int.tdiv (b - a) 8)) FMP.2.2 fuel with hg2
              have hgmid : (g2 FMP.2.1).Timestamp =
                  (PIS.1 FPH.2.1).Timestamp := by
                rw [L2o FMP.2.1 (by omega), hmid1]
                exact Pmid
              have hgl : ∀ k : ℤ, a ≤ k → k < FMP.2.1 →
                  (g2 k).Timestamp < (PIS.1 FPH.2.1).Timestamp := by
                refine L2p.pointwise
                  (fun pt => pt.Timestamp < (PIS.1 FPH.2.1).Timestamp) ?_
                intro m hm1 hm2
                rw [L1o m (by omega)]
                exact PP4 m hm1 hm2
              have hgr : ∀ k : ℤ, FMP.2.1 < k → k < b →
                  (PIS.1 FPH.2.1).Timestamp ≤ (g2 k).Timestamp := by
                intro k hk1 hk2
                rw [L2o k (by omega)]
                refine L1p.pointwise
                  (fun pt => (PIS.1 FPH.2.1).Timestamp ≤ pt.Timestamp)
                  ?_ k (by omega) hk2
                intro m hm1 hm2
                exact PP5 m (by omega) hm2
              have hsr : ∀ i j : ℤ, FMP.2.1 + 1 ≤ i → i ≤ j → j < b →
                  (g2 i).Timestamp ≤ (g2 j).Timestamp := by
                intro i j hi hij hj
                rw [L2o i (by omega), L2o j (by omega)]
                exact L1s i j hi hij hj
              refine ⟨so_f4.comp (Po'.comp
                  ((L1o.widen (by omega) (le_refl b)).comp
                    (L2o.widen (le_refl a) (by omega)))),
                po_f4.pcomp (Pp'.pcomp
                  ((L1p.pwiden L1o (by omega) (le_refl b) (by omega)).pcomp
                    (L2p.pwiden L2o (le_refl a) (by omega) (by omega)))), ?_⟩
              intro i j hi hij hj
              by_cases hjm : j < FMP.2.1
              · exact L2s i j hi hij hjm
              · by_cases him : FMP.2.1 + 1 ≤ i
                · exact hsr i j him hij hj
                · by_cases hjm2 : j = FMP.2.1
                  · by_cases him2 : i = FMP.2.1
                    · rw [him2, hjm2]
                    · rw [hjm2, hgmid]
                      exact le_of_lt (hgl i hi (by omega))
                  · by_cases him2 : i = FMP.2.1
                    · rw [him2, hgmid]
                      exact hgr j (by omega) hj
                    · exact le_trans (le_of_lt (hgl i hi (by omega)))
                        (hgr j (by omega) hj)

theorem sortSliceF_spec (f : PArr) (n : ℤ) (hn : 0 ≤ n) :
    SameOutside f (sortSliceF f n) 0 n ∧ PermOn f (sortSliceF f n) 0 n ∧
      SortedOn (sortSliceF f n) 0 n := by
  rw [sortSliceF]
  exact pdqsortAux_spec (n.toNat + 1) f 0 n _ true true (by omega) le_rfl hn
    (fun k hk1 hk2 hpos => absurd hpos (by omega))

theorem listOn_of_list (l : Points) :
    listOn (fun i : ℤ => l.getD i.toNat default) 0 (l.length : ℤ) = l := by
  apply List.ext_getElem
  · rw [length_listOn]
    omega
  · intro t h1 h2
    rw [getElem_listOn]
    have he : (0 + (t : ℤ)).toNat = t := by omega
    show List.getD l (0 + (t : ℤ)).toNat default = l[t]
    rw [he]
    exact List.getD_eq_getElem l default h2

theorem sortByTimestamp_eq_listOn (l : Points) :
    SortByTimestamp l =
      listOn (sortSliceF (fun i : ℤ => l.getD i.toNat default) (l.length : ℤ))
        0 (l.length : ℤ) := by
  rw [SortByTimestamp, listOn]
  have hlen : ((l.length : ℤ) - 0).toNat = l.length := by omega
  rw [hlen]
  apply List.map_congr_left
  intro t ht
  rw [zero_add]

/-- C2 (corrected): `Points.SortByTimestamp` rearranges the collection into
non-decreasing order by timestamp — the result is a permutation of the input
whose consecutive elements are pairwise ordered by `Before` (i.e. `≤` on the
timestamps).  The ordering-and-permutation half of the claim holds for every
collection; the stability half is refuted by `C2_counterexample`: Go's
`sort.Slice` is pdqsort, which is not stable, so points with equal timestamps
do not necessarily keep their original relative order. -/
theorem C2_sortByTimestamp_sorted_perm (l : Points) :
    (SortByTimestamp l).Perm l ∧
      (SortByTimestamp l).Pairwise
        (fun p q => p.Timestamp ≤ q.Timestamp) := by
  obtain ⟨so, po, ss⟩ :=
    sortSliceF_spec (fun i : ℤ => l.getD i.toNat default) (l.length : ℤ)
      (by omega)
  rw [sortByTimestamp_eq_listOn]
  constructor
  · have := po
    rw [PermOn, listOn_of_list] at this
    exact this
  · rw [List.pairwise_iff_getElem]
    intro i j h1 h2 hij
    rw [getElem_listOn, getElem_listOn]
    exact ss (0 + (i : ℤ)) (0 + (j : ℤ)) (by omega) (by omega)
      (by rw [length_listOn] at h2; omega)
